import Mathlib

/-!
# Bit-banged bus engines

Shallow embedding of the three software bus engines of the repository: the
two-wire engine (`src/I2C_SW`), the synchronous engine (`src/SPI_SW`) and the
asynchronous serial engine (`src/SERIAL_SW`).

The C code of each engine talks to a few register bits (direction bits,
output latches, port bits) and to a calibrated delay.  Every register access
and every delay is recorded, in program order, as an event of the trace
carried by the state.  The levels that the outside world puts on the lines
are an input of the model.  For the two-wire engine the `n`-th read of a port
bit returns the external level `n` when the pin is an input, and the value of
the output latch when the pin is an output.

The busy-waits `while(!I2C_SW_SCL_PIN){}` and `while(SW_RX);` have no bound
in the source.  They are modelled with a poll budget: a run that is still
polling when the budget is exhausted ends in `Except.error`, carrying the
state reached so far.

The file has two parts: all definitions (the embedding of the code, then the
vocabulary of the statements), and after them all theorems.
-/

namespace SoftwareProtocols

/-! # Part I: definitions -/

/-! ## The two-wire engine (`src/I2C_SW`) -/

/-- One observable action of the engine on its pins or on the delay primitive. -/
inductive Ev where
  /-- Assignment `I2C_SW_SDA_TRIS = v` (true: input, false: output). -/
  | sdaTris (v : Bool)
  /-- Assignment `I2C_SW_SDA_PIN = v`. -/
  | sdaPin (v : Bool)
  /-- Assignment `I2C_SW_SCL_TRIS = v` (true: input, false: output). -/
  | sclTris (v : Bool)
  /-- Assignment `I2C_SW_SCL_PIN = v`. -/
  | sclPin (v : Bool)
  /-- Call `__delay_us(us)`. -/
  | delay (us : Nat)
  /-- Read of `I2C_SW_SDA_PIN` that returned `v`. -/
  | rdSda (v : Bool)
  /-- Read of `I2C_SW_SCL_PIN` that returned `v`. -/
  | rdScl (v : Bool)
  deriving DecidableEq, Repr

/-- The four register bits of the two pins. -/
structure Pins where
  /-- Direction bit of the data line: true is input (released). -/
  sdaTris : Bool
  /-- Output latch of the data line. -/
  sdaLat : Bool
  /-- Direction bit of the clock line: true is input (released). -/
  sclTris : Bool
  /-- Output latch of the clock line. -/
  sclLat : Bool
  deriving DecidableEq, Repr

/-- Machine state: the pin registers, the trace of events so far (oldest
first) and how many times each port bit has been read. -/
structure St where
  pins : Pins
  trace : List Ev
  nSda : Nat
  nScl : Nat
  deriving DecidableEq, Repr

/-- External levels of the two lines (pull-up and the other devices):
`sda n` is the level seen by the `n`-th read of the data pin while it is an
input, and likewise `scl n` for the clock pin. -/
structure Bus where
  sda : Nat → Bool
  scl : Nat → Bool

deriving instance DecidableEq for Except

/-- Effect of one event on the pin registers. -/
def Pins.apply (p : Pins) : Ev → Pins
  | .sdaTris v => { p with sdaTris := v }
  | .sdaPin v => { p with sdaLat := v }
  | .sclTris v => { p with sclTris := v }
  | .sclPin v => { p with sclLat := v }
  | .delay _ => p
  | .rdSda _ => p
  | .rdScl _ => p

/-- Pin registers after a list of events. -/
def Pins.replay (p : Pins) (evs : List Ev) : Pins := evs.foldl Pins.apply p

/-- Record an event: append it to the trace and update the registers. -/
def St.emit (s : St) (e : Ev) : St :=
  { s with pins := s.pins.apply e, trace := s.trace ++ [e] }

/-- Assignment `I2C_SW_SDA_TRIS = v`. -/
def set_SDA_TRIS (v : Bool) (s : St) : St := s.emit (.sdaTris v)

/-- Assignment `I2C_SW_SDA_PIN = v`. -/
def set_SDA_PIN (v : Bool) (s : St) : St := s.emit (.sdaPin v)

/-- Assignment `I2C_SW_SCL_TRIS = v`. -/
def set_SCL_TRIS (v : Bool) (s : St) : St := s.emit (.sclTris v)

/-- Assignment `I2C_SW_SCL_PIN = v`. -/
def set_SCL_PIN (v : Bool) (s : St) : St := s.emit (.sclPin v)

/-- Call `__delay_us(us)`. -/
def delay_us (us : Nat) (s : St) : St := s.emit (.delay us)

/-- Read of `I2C_SW_SDA_PIN`: the external level when the pin is an input,
the output latch when it is an output. -/
def get_SDA_PIN (env : Bus) (s : St) : Bool × St :=
  let v := if s.pins.sdaTris then env.sda s.nSda else s.pins.sdaLat
  (v, { s.emit (.rdSda v) with nSda := s.nSda + 1 })

/-- Read of `I2C_SW_SCL_PIN`: the external level when the pin is an input,
the output latch when it is an output. -/
def get_SCL_PIN (env : Bus) (s : St) : Bool × St :=
  let v := if s.pins.sclTris then env.scl s.nScl else s.pins.sclLat
  (v, { s.emit (.rdScl v) with nScl := s.nScl + 1 })

/-- Macro `SW_SDA_1`: `I2C_SW_SDA_TRIS=1;`. -/
def SW_SDA_1 (s : St) : St := set_SDA_TRIS true s

/-- Macro `SW_SDA_0`: `I2C_SW_SDA_TRIS=0;I2C_SW_SDA_PIN=0;`. -/
def SW_SDA_0 (s : St) : St := set_SDA_PIN false (set_SDA_TRIS false s)

/-- Loop `while(!I2C_SW_SCL_PIN){}` with a budget of `fuel` polls.  When the
budget runs out while the pin still reads low the run ends in `error`. -/
def waitSclHigh (env : Bus) : Nat → St → Except St St
  | 0, s => .error s
  | fuel + 1, s =>
    let r := get_SCL_PIN env s
    if !r.1 then waitSclHigh env fuel r.2 else .ok r.2

/-- Macro `SW_SCL_1`: `I2C_SW_SCL_TRIS=1;while(!I2C_SW_SCL_PIN){}`. -/
def SW_SCL_1 (env : Bus) (fuel : Nat) (s : St) : Except St St :=
  waitSclHigh env fuel (set_SCL_TRIS true s)

/-- Macro `SW_SCL_0`: `I2C_SW_SCL_TRIS=0;I2C_SW_SCL_PIN=0;`. -/
def SW_SCL_0 (s : St) : St := set_SCL_PIN false (set_SCL_TRIS false s)

/-- Function `i2c_sw_start`. -/
def i2c_sw_start (env : Bus) (fuel : Nat) (s : St) : Except St St := do
  let s := SW_SDA_1 s
  let s := delay_us 4 s
  let s ← SW_SCL_1 env fuel s
  let s := delay_us 4 s
  let s := SW_SDA_0 s
  let s := delay_us 4 s
  let s := SW_SCL_0 s
  pure s

/-- Function `i2c_sw_stop`. -/
def i2c_sw_stop (env : Bus) (fuel : Nat) (s : St) : Except St St := do
  let s := SW_SDA_0 s
  let s := delay_us 4 s
  let s ← SW_SCL_1 env fuel s
  let s := delay_us 4 s
  let s := SW_SDA_1 s
  let s := delay_us 4 s
  pure s

/-- Function `i2c_sw_restart`. -/
def i2c_sw_restart (env : Bus) (fuel : Nat) (s : St) : Except St St := do
  let s := SW_SDA_1 s
  let s := delay_us 4 s
  let s ← SW_SCL_1 env fuel s
  let s := delay_us 4 s
  let s := SW_SDA_0 s
  let s := delay_us 4 s
  pure s

/-- Body of the `for` loop of `i2c_sw_writeByte`, on the 8-bit variable
`dato`; the result is the shifted `dato`.

The macros expand textually, so `if(dato&0x80) SW_SDA_1 else SW_SDA_0` is
`if(dato&0x80) I2C_SW_SDA_TRIS=1; else I2C_SW_SDA_TRIS=0;I2C_SW_SDA_PIN=0;`:
only the first statement of `SW_SDA_0` belongs to the `else`, and the write
`I2C_SW_SDA_PIN=0` is executed in both cases. -/
def i2c_sw_writeByte_bit (env : Bus) (fuel : Nat) (dato : Nat) (s : St) :
    Except St (Nat × St) := do
  let s := SW_SCL_0 s
  let s := delay_us 4 s
  let s := if dato &&& 0x80 ≠ 0 then SW_SDA_1 s else set_SDA_TRIS false s
  let s := set_SDA_PIN false s
  let s ← SW_SCL_1 env fuel s
  let s := delay_us 4 s
  pure ((dato <<< 1) % 256, s)

/-- Function `i2c_sw_writeByte`: `for(i=0;i!=8;i++)` over the body, then the
acknowledgment clock pulse. -/
def i2c_sw_writeByte (env : Bus) (fuel : Nat) (dato : Nat) (s : St) :
    Except St (Bool × St) := do
  let p ← (List.range 8).foldlM
    (fun (p : Nat × St) (_ : Nat) => i2c_sw_writeByte_bit env fuel p.1 p.2) (dato, s)
  let s := SW_SCL_0 p.2
  let r := get_SDA_PIN env s
  let ack_bit : Nat := r.1.toNat
  let s ← SW_SCL_1 env fuel r.2
  let s := SW_SCL_0 s
  pure (decide (ack_bit = 0), s)

/-- Body of the `for` loop of `i2c_sw_readByte` at loop index `i`. -/
def i2c_sw_readByte_bit (env : Bus) (fuel : Nat) (dato : Nat) (s : St) (i : Nat) :
    Except St (Nat × St) := do
  let s := SW_SCL_0 s
  let s := delay_us 4 s
  let s ← SW_SCL_1 env fuel s
  let s := delay_us 4 s
  let r := get_SDA_PIN env s
  let dato := if r.1 then dato ||| 0x01 else dato
  let dato := if i < 7 then (dato <<< 1) % 256 else dato
  pure (dato, r.2)

/-- Function `i2c_sw_readByte`.  As in `i2c_sw_writeByte`, the text
`if(ack==0) SW_SDA_1 else SW_SDA_0` expands to
`if(ack==0) I2C_SW_SDA_TRIS=1; else I2C_SW_SDA_TRIS=0;I2C_SW_SDA_PIN=0;`, so
the write `I2C_SW_SDA_PIN=0` is executed for both values of `ack`. -/
def i2c_sw_readByte (env : Bus) (fuel : Nat) (ack : Bool) (s : St) :
    Except St (Nat × St) := do
  let p ← (List.range 8).foldlM
    (fun (p : Nat × St) (i : Nat) => i2c_sw_readByte_bit env fuel p.1 p.2 i) (0, s)
  let s := SW_SCL_0 p.2
  let s := delay_us 4 s
  let s := if ack = false then SW_SDA_1 s else set_SDA_TRIS false s
  let s := set_SDA_PIN false s
  let s := delay_us 4 s
  let s ← SW_SCL_1 env fuel s
  let s := delay_us 4 s
  let s := SW_SCL_0 s
  let s := delay_us 4 s
  let s := SW_SDA_1 s
  let s := delay_us 4 s
  pure (p.1, s)

/-- Function `i2c_sw_init`. -/
def i2c_sw_init (s : St) : St :=
  set_SCL_TRIS true (set_SDA_TRIS true s)

/-! ## Trace vocabulary used by the statements -/

/-- Events of one busy-wait on the clock line that ended after `n` low
readings: `n` reads that returned low, then one read that returned high. -/
def evPolls (n : Nat) : List Ev := List.replicate n (.rdScl false) ++ [.rdScl true]

/-- Events of "release the clock high" (`SW_SCL_1`) with `n` low readings. -/
def evSclRelease (n : Nat) : List Ev := .sclTris true :: evPolls n

/-- Events of "drive the clock low" (`SW_SCL_0`). -/
def evSclLow : List Ev := [.sclTris false, .sclPin false]

/-- Events of "drive the data line low" (`SW_SDA_0`). -/
def evSdaLow : List Ev := [.sdaTris false, .sdaPin false]

/-- Events of "release the data line high" (`SW_SDA_1`). -/
def evSdaRelease : List Ev := [.sdaTris true]

/-- Events of "release the data line high" inside an `if .. else`: the pin
is made an input and the low write of the `else` macro follows; the latch
write does not change the level of a released line. -/
def evSdaReleaseLatched : List Ev := [.sdaTris true, .sdaPin false]

/-- Events of "set the data line to the level `bit`": released to input for
a 1, driven low for a 0. -/
def evSda (bit : Bool) : List Ev := if bit then evSdaReleaseLatched else evSdaLow

/-- Is the event a read of the data pin? -/
def Ev.isRdSda : Ev → Bool
  | .rdSda _ => true
  | _ => false

/-- Is the event a read of the clock pin? -/
def Ev.isRdScl : Ev → Bool
  | .rdScl _ => true
  | _ => false

/-- Is the event a write to a register of the data line? -/
def Ev.isSdaWrite : Ev → Bool
  | .sdaTris _ => true
  | .sdaPin _ => true
  | _ => false

/-- The engine went from `s` to `t` performing exactly the events `evs`. -/
structure Runs (s : St) (evs : List Ev) (t : St) : Prop where
  trace : t.trace = s.trace ++ evs
  pins : t.pins = s.pins.replay evs
  nSda : t.nSda = s.nSda + evs.countP Ev.isRdSda
  nScl : t.nScl = s.nScl + evs.countP Ev.isRdScl

/-- The external clock level is high at least once in every window of
`N + 1` consecutive reads: a clock release is stretched for at most `N`
polls. -/
def StretchBounded (env : Bus) (N : Nat) : Prop :=
  ∀ k, ∃ m, m ≤ N ∧ env.scl (k + m) = true

/-- Trace of `i2c_sw_start` when the clock release saw `n` low readings. -/
def evStart (n : Nat) : List Ev :=
  evSdaRelease ++ [.delay 4] ++ evSclRelease n ++ [.delay 4] ++ evSdaLow ++ [.delay 4] ++ evSclLow

/-- Trace of `i2c_sw_stop` when the clock release saw `n` low readings. -/
def evStop (n : Nat) : List Ev :=
  evSdaLow ++ [.delay 4] ++ evSclRelease n ++ [.delay 4] ++ evSdaRelease ++ [.delay 4]

/-- Trace of `i2c_sw_restart` when the clock release saw `n` low readings. -/
def evRestart (n : Nat) : List Ev :=
  evSdaRelease ++ [.delay 4] ++ evSclRelease n ++ [.delay 4] ++ evSdaLow ++ [.delay 4]

/-- One data clock cycle of a byte write: clock low, delay, data line set to
`bit`, clock released (with `n` low readings), delay. -/
def evWriteBit (bit : Bool) (n : Nat) : List Ev :=
  evSclLow ++ [.delay 4] ++ evSda bit ++ evSclRelease n ++ [.delay 4]

/-- The acknowledgment phase of a byte write: clock low, one read of the data
pin returning `v`, clock released (with `n` low readings), clock low. -/
def evWriteAck (v : Bool) (n : Nat) : List Ev :=
  evSclLow ++ [.rdSda v] ++ evSclRelease n ++ evSclLow

/-- The bits of a byte, most significant first: entry `k` is bit `7 - k`. -/
def bitsMSB (b : Nat) : List Bool := (List.range 8).map (fun k => b.testBit (7 - k))

/-- Trace of a byte write: eight data cycles (cycle `k` carries bit `7 - k`
of `b` and saw `ns[k]` low clock readings), then the acknowledgment phase. -/
def evWriteByte (b : Nat) (ns : List Nat) (v : Bool) (n : Nat) : List Ev :=
  ((bitsMSB b).zip ns).flatMap (fun c => evWriteBit c.1 c.2) ++ evWriteAck v n

/-- Replaying `evs` from the registers `p`, is the clock pin an output
driving low at every write to a register of the data line? -/
def sdaWritesWhileSclLow (p : Pins) : List Ev → Bool
  | [] => true
  | e :: es =>
    (!e.isSdaWrite || (!p.sclTris && !p.sclLat)) && sdaWritesWhileSclLow (p.apply e) es

/-! ## Concrete inputs used to exercise the statements -/

/-- Both pins released, empty trace: the state right after `i2c_sw_init`. -/
def idleSt : St := ⟨⟨true, false, true, false⟩, [], 0, 0⟩

/-- Nothing pulls either line low: no clock stretching, and a receiver that
never acknowledges (the pull-up keeps the data line high). -/
def busIdle : Bus := ⟨fun _ => true, fun _ => true⟩

/-- Receiver that holds the data line low at every read (acknowledges), no
clock stretching. -/
def busAck : Bus := ⟨fun _ => false, fun _ => true⟩

/-- Receiver that never acknowledges and stretches every clock release by
two polls. -/
def busSlow : Bus := ⟨fun _ => true, fun k => k % 3 == 2⟩

/-! ## Vocabulary for byte reads -/

/-- One data clock cycle of a byte read: clock low, delay, clock released
(with `n` low readings), delay, one read of the data pin returning `v`. -/
def evReadBit (n : Nat) (v : Bool) : List Ev :=
  evSclLow ++ [.delay 4] ++ evSclRelease n ++ [.delay 4] ++ [.rdSda v]

/-- The acknowledgment phase of a byte read: clock low, delay, data line
released when `ack` is false and driven low when it is true, delay, clock
released (with `n` low readings), delay, clock low, delay, data line
released, delay. -/
def evReadAck (ack : Bool) (n : Nat) : List Ev :=
  evSclLow ++ [.delay 4] ++ evSda (!ack) ++ [.delay 4] ++ evSclRelease n ++ [.delay 4] ++
    evSclLow ++ [.delay 4] ++ evSdaRelease ++ [.delay 4]

/-- Trace of a byte read: eight data cycles (cycle `k` saw `cs[k].1` low
clock readings and sampled the level `cs[k].2`), then the acknowledgment
phase. -/
def evReadByte (cs : List (Nat × Bool)) (ack : Bool) (n : Nat) : List Ev :=
  cs.flatMap (fun c => evReadBit c.1 c.2) ++ evReadAck ack n

/-- The levels returned by the reads of the data pin, in the order taken. -/
def sdaSamples (evs : List Ev) : List Bool :=
  evs.filterMap (fun e => match e with
    | .rdSda v => some v
    | _ => none)

/-- Value of a bit sequence read most-significant bit first. -/
def msbAcc (vs : List Bool) : Nat := vs.foldl (fun a v => 2 * a + v.toNat) 0

/-- The byte whose bit `7 - k` is the `k`-th of eight samples: the sum of
`s_k * 2^(7-k)`. -/
def byteOfSamples (vs : List Bool) : Nat :=
  ((List.range 8).map (fun k => (vs.getD k false).toNat * 2 ^ (7 - k))).sum

/-- The level that the engine places on the data line: high when the pin is
released (pull-up), the output latch when it is driven. -/
def Pins.sdaPlaced (p : Pins) : Bool := p.sdaTris || p.sdaLat

/-- Replaying `evs` from the registers `p`, the levels placed on the data
line at the moments the clock is released, in order. -/
def sdaLevelsAtClockRelease (p : Pins) : List Ev → List Bool
  | [] => []
  | e :: es =>
    (match e with
      | .sclTris true => [p.sdaPlaced]
      | _ => []) ++ sdaLevelsAtClockRelease (p.apply e) es

/-- The new events of a run from `s` to `t`. -/
def newEvents (s t : St) : List Ev := t.trace.drop s.trace.length

/-- The state in which a run that returns a value ended, whether it returned
or was still polling when the budget ran out. -/
def finalSt {α : Type} : Except St (α × St) → St
  | .ok p => p.2
  | .error e => e

/-- The state in which a run that returns no value ended. -/
def endSt : Except St St → St
  | .ok t => t
  | .error e => e

/-- A data line that shows, at its `k`-th read, bit `7 - k` of `b`; no clock
stretching. -/
def busEcho (b : Nat) : Bus := ⟨fun k => b.testBit (7 - k), fun _ => true⟩

/-- The sequence that the specification gives for `start()`: release data
high, delay, release clock high (with `n` low readings), delay, drive data
low, delay, drive clock low, delay; the four delays last `d₁ .. d₄`. -/
def evStartAsSpecified (n d₁ d₂ d₃ d₄ : Nat) : List Ev :=
  evSdaRelease ++ [.delay d₁] ++ evSclRelease n ++ [.delay d₂] ++ evSdaLow ++ [.delay d₃] ++
    evSclLow ++ [.delay d₄]

/-- Does the list hold no write of a high level to a port bit? -/
def lowWritesOnly (evs : List Ev) : Bool :=
  evs.all (fun e => e != .sdaPin true && e != .sclPin true)

/-- The level that the engine places on the clock line: high when the pin
is released (pull-up), the output latch when it is driven. -/
def Pins.sclPlaced (p : Pins) : Bool := p.sclTris || p.sclLat

/-- Replaying `evs` from the registers `p`: whenever the level placed on a
line goes from low to high, is the event the switch of that pin to input? -/
def risesOnlyByRelease (p : Pins) : List Ev → Bool
  | [] => true
  | e :: es =>
    ((p.sdaPlaced || !(p.apply e).sdaPlaced || e == .sdaTris true) &&
      (p.sclPlaced || !(p.apply e).sclPlaced || e == .sclTris true)) &&
      risesOnlyByRelease (p.apply e) es

/-- The run from `s` to `t` only appended events to the trace, none of them
writes a high level to a port bit, and a line goes from low to high only when
its pin is switched to input. -/
def OpenDrainRun (s t : St) : Prop :=
  ∃ evs, t.trace = s.trace ++ evs ∧ lowWritesOnly evs = true ∧
    risesOnlyByRelease s.pins evs = true

/-- Is the data pin an output with a high latch, so that the engine itself
drives the data line high? -/
def Pins.sdaDrivenHigh (p : Pins) : Bool := !p.sdaTris && p.sdaLat

/-- Is the clock pin an output with a high latch, so that the engine itself
drives the clock line high? -/
def Pins.sclDrivenHigh (p : Pins) : Bool := !p.sclTris && p.sclLat

/-- Replaying `evs` from the registers `p`: is the data pin never an output
with a high latch after any of the events? -/
def sdaNeverDrivenHigh (p : Pins) : List Ev → Bool
  | [] => true
  | e :: es => !(p.apply e).sdaDrivenHigh && sdaNeverDrivenHigh (p.apply e) es

/-- Replaying `evs` from the registers `p`: is the clock pin never an output
with a high latch after any of the events? -/
def sclNeverDrivenHigh (p : Pins) : List Ev → Bool
  | [] => true
  | e :: es => !(p.apply e).sclDrivenHigh && sclNeverDrivenHigh (p.apply e) es

/-- What a run from `s` to `t` keeps of the open-drain discipline.  It only
appended events to the trace and none of them writes a high level to a port
bit.  A pin whose output latch is low at the start is never driven high: its
line is high only while the pin is an input.  And from the first write to
the port bit of a pin on, that pin is never driven high. -/
def LatchDiscipline (s t : St) : Prop :=
  ∃ evs, t.trace = s.trace ++ evs ∧ lowWritesOnly evs = true ∧
    (s.pins.sdaLat = false → sdaNeverDrivenHigh s.pins evs = true) ∧
    (s.pins.sclLat = false → sclNeverDrivenHigh s.pins evs = true) ∧
    (∀ a b, evs = a ++ b → (∃ v, Ev.sdaPin v ∈ a) →
      sdaNeverDrivenHigh (s.pins.replay a) b = true) ∧
    (∀ a b, evs = a ++ b → (∃ v, Ev.sclPin v ∈ a) →
      sclNeverDrivenHigh (s.pins.replay a) b = true)

/-- Both pins inputs, as `i2c_sw_init` leaves them, and both output latches
high: `i2c_sw_init` writes the direction registers only, and nothing else in
the library writes the port bits before the first operation. -/
def latchHighSt : St := ⟨⟨true, true, true, true⟩, [], 0, 0⟩

/-! ## Vocabulary for clock stretching -/

/-- One step of the clock-stretch scan.  The flag says whether the engine is
waiting: the clock has been released and no read of the clock pin has
returned high since.  A read of the clock pin is always allowed and ends the
wait when it returns high; any other event is a violation while waiting; a
release of the clock starts a wait. -/
def stretchStep (waiting : Bool) (e : Ev) : Option Bool :=
  match e with
  | .rdScl v => some (waiting && !v)
  | .sclTris true => if waiting then none else some true
  | _ => if waiting then none else some false

/-- Scan of a list of events, started with the given waiting flag: `none`
when some event other than a read of the clock pin happens during a wait,
else the waiting flag at the end. -/
def stretchScan (waiting : Bool) (evs : List Ev) : Option Bool :=
  evs.foldlM stretchStep waiting

/-- The run from `s` to `t` only appended events, and between each release
of the clock and the first high reading of the clock pin after it the run
did nothing but read the clock pin. -/
def StretchRespected (s t : St) : Prop :=
  ∃ evs, t.trace = s.trace ++ evs ∧ (stretchScan false evs).isSome = true

/-- As `StretchRespected`, and every release of the clock in the run has
been answered by a high reading. -/
def StretchSettled (s t : St) : Prop :=
  ∃ evs, t.trace = s.trace ++ evs ∧ stretchScan false evs = some false

/-- Outcome of a step that returns no value: settled when it returned,
respected when it was still polling at the end of the budget. -/
def StretchOutcome (s : St) : Except St St → Prop
  | .ok t => StretchSettled s t
  | .error e => StretchRespected s e

/-- Outcome of a step that returns a value. -/
def StretchOutcomeV {α : Type} (s : St) : Except St (α × St) → Prop
  | .ok p => StretchSettled s p.2
  | .error e => StretchRespected s e

/-! ## The synchronous engine (`src/SPI_SW`) -/

/-- One observable action of the synchronous engine. -/
inductive SpiEv where
  /-- Assignment `SPI_SW_MOSI_TRIS = v` (true: input, false: output). -/
  | mosiTris (v : Bool)
  /-- Assignment `SPI_SW_MISO_TRIS = v`. -/
  | misoTris (v : Bool)
  /-- Assignment `SPI_SW_SCK_TRIS = v`. -/
  | sckTris (v : Bool)
  /-- Assignment `SPI_SW_MOSI = v`. -/
  | mosi (v : Bool)
  /-- Assignment `SPI_SW_SCK = v`. -/
  | sck (v : Bool)
  /-- Call `__delay_us(us)`. -/
  | delay (us : Nat)
  /-- Read of `SPI_SW_MISO` that returned `v`. -/
  | rdMiso (v : Bool)
  deriving DecidableEq, Repr

/-- The static variables of `spi_sw.h`: the bus configuration. -/
structure SpiCfg where
  spi_sw_mode : Nat
  flanco_muestreo : Bool
  flanco_propagacion : Bool
  estado_inactivo_reloj : Bool
  deriving DecidableEq, Repr

/-- The register bits of the three pins: direction bits and output latches. -/
structure SpiPins where
  mosiTris : Bool
  misoTris : Bool
  sckTris : Bool
  /-- Output latch `SPI_SW_MOSI`. -/
  mosi : Bool
  /-- Output latch `SPI_SW_SCK`. -/
  sck : Bool
  deriving DecidableEq, Repr

/-- Machine state of the synchronous engine: configuration, pin registers,
trace of events so far (oldest first), number of reads of the input line. -/
structure SpiSt where
  cfg : SpiCfg
  pins : SpiPins
  trace : List SpiEv
  nMiso : Nat
  deriving DecidableEq, Repr

/-- The other side of the bus: the level on the input line MISO when the
engine reads it, as a function of the state of the engine at that moment
(which holds the whole history). -/
structure SpiBus where
  miso : SpiSt → Bool

/-- Effect of one event on the pin registers. -/
def SpiPins.apply (p : SpiPins) : SpiEv → SpiPins
  | .mosiTris v => { p with mosiTris := v }
  | .misoTris v => { p with misoTris := v }
  | .sckTris v => { p with sckTris := v }
  | .mosi v => { p with mosi := v }
  | .sck v => { p with sck := v }
  | .delay _ => p
  | .rdMiso _ => p

/-- Pin registers after a list of events. -/
def SpiPins.replay (p : SpiPins) (evs : List SpiEv) : SpiPins := evs.foldl SpiPins.apply p

/-- Record an event: append it to the trace and update the registers. -/
def SpiSt.emit (s : SpiSt) (e : SpiEv) : SpiSt :=
  { s with pins := s.pins.apply e, trace := s.trace ++ [e] }

/-- Assignment `SPI_SW_MOSI = v`. -/
def set_SPI_SW_MOSI (v : Bool) (s : SpiSt) : SpiSt := s.emit (.mosi v)

/-- Assignment `SPI_SW_SCK = v`. -/
def set_SPI_SW_SCK (v : Bool) (s : SpiSt) : SpiSt := s.emit (.sck v)

/-- Call `__delay_us(us)` of the synchronous engine. -/
def spi_delay_us (us : Nat) (s : SpiSt) : SpiSt := s.emit (.delay us)

/-- Read of `SPI_SW_MISO`. -/
def get_SPI_SW_MISO (env : SpiBus) (s : SpiSt) : Bool × SpiSt :=
  let v := env.miso s
  (v, { s.emit (.rdMiso v) with nMiso := s.nMiso + 1 })

/-- Constant `SPI_SW_NUM_BITS_TX` of the header. -/
def SPI_SW_NUM_BITS_TX : Nat := 16

/-- Constant `SPI_SW_NUM_BITS_RX` of the header. -/
def SPI_SW_NUM_BITS_RX : Nat := 16

/-- Constant `SPI_SW_MODE_00`. -/
def SPI_SW_MODE_00 : Nat := 0

/-- Constant `SPI_SW_MODE_01`. -/
def SPI_SW_MODE_01 : Nat := 1

/-- Constant `SPI_SW_MODE_10`. -/
def SPI_SW_MODE_10 : Nat := 2

/-- Constant `SPI_SW_MODE_11`. -/
def SPI_SW_MODE_11 : Nat := 3

/-- Width in bits of `tipo_dato_tx_spi_sw`, as selected by the `#if` chain of
the header. -/
def tipo_dato_tx_spi_sw_bits : Nat :=
  if SPI_SW_NUM_BITS_TX > 8 then (if SPI_SW_NUM_BITS_TX > 16 then 32 else 16) else 8

/-- Width in bits of `tipo_dato_rx_spi_sw`, as selected by the `#if` chain of
the header. -/
def tipo_dato_rx_spi_sw_bits : Nat :=
  if SPI_SW_NUM_BITS_RX > 8 then (if SPI_SW_NUM_BITS_RX > 16 then 32 else 16) else 8

/-- The values of the loop variable of `for(i = n; i; i--)`: `n, n-1, .., 1`. -/
def countdown : Nat → List Nat
  | 0 => []
  | n + 1 => (n + 1) :: countdown n

/-- Function `spi_sw_setMode`: the `switch` on `newMode`, then
`SPI_SW_SCK = estado_inactivo_reloj`. -/
def spi_sw_setMode (newMode : Nat) (s : SpiSt) : SpiSt :=
  let s : SpiSt :=
    if newMode = SPI_SW_MODE_01 then
      { s with cfg := { spi_sw_mode := SPI_SW_MODE_01, estado_inactivo_reloj := false,
                        flanco_muestreo := false, flanco_propagacion := true } }
    else if newMode = SPI_SW_MODE_10 then
      { s with cfg := { spi_sw_mode := SPI_SW_MODE_10, estado_inactivo_reloj := true,
                        flanco_muestreo := false, flanco_propagacion := true } }
    else if newMode = SPI_SW_MODE_11 then
      { s with cfg := { spi_sw_mode := SPI_SW_MODE_11, estado_inactivo_reloj := true,
                        flanco_muestreo := true, flanco_propagacion := false } }
    else
      { s with cfg := { spi_sw_mode := SPI_SW_MODE_00, estado_inactivo_reloj := false,
                        flanco_muestreo := true, flanco_propagacion := false } }
  set_SPI_SW_SCK s.cfg.estado_inactivo_reloj s

/-- Function `spi_sw_init`. -/
def spi_sw_init (mode : Nat) (s : SpiSt) : SpiSt :=
  let s := s.emit (.mosiTris false)
  let s := s.emit (.misoTris true)
  let s := s.emit (.sckTris false)
  let s := set_SPI_SW_MOSI false s
  spi_sw_setMode mode s

/-- Function `spi_sw_getMode`. -/
def spi_sw_getMode (s : SpiSt) : Nat := s.cfg.spi_sw_mode

/-- Body of the `for` loop of `spi_sw_write` at loop value `contador`;
`dato_tx` has the width of `tipo_dato_tx_spi_sw`. -/
def spi_sw_write_bit (dato_tx : Nat) (s : SpiSt) (contador : Nat) : Nat × SpiSt :=
  let mask : Nat :=
    (1 <<< (SPI_SW_NUM_BITS_TX - 1)) % 2 ^ (if SPI_SW_NUM_BITS_TX > 8 then 16 else 8)
  let s := set_SPI_SW_MOSI (decide (dato_tx &&& mask ≠ 0)) s
  let dato_tx := (dato_tx <<< 1) % 2 ^ tipo_dato_tx_spi_sw_bits
  let s := set_SPI_SW_SCK s.cfg.flanco_muestreo s
  let s := spi_delay_us 1 s
  let s := if contador ≠ 1 then set_SPI_SW_SCK s.cfg.flanco_propagacion s else s
  (dato_tx, s)

/-- Function `spi_sw_write`. -/
def spi_sw_write (dato_tx : Nat) (s : SpiSt) : SpiSt :=
  let s := set_SPI_SW_SCK s.cfg.flanco_propagacion s
  let s := spi_delay_us 1 s
  let p := (countdown SPI_SW_NUM_BITS_TX).foldl
    (fun (p : Nat × SpiSt) (contador : Nat) => spi_sw_write_bit p.1 p.2 contador) (dato_tx, s)
  set_SPI_SW_SCK p.2.cfg.estado_inactivo_reloj p.2

/-- Body of the `for` loop of `spi_sw_writeByte` at loop value `i`. -/
def spi_sw_writeByte_bit (dato_tx : Nat) (s : SpiSt) (i : Nat) : Nat × SpiSt :=
  let mask : Nat := 0x80
  let s := set_SPI_SW_MOSI (decide (dato_tx &&& mask ≠ 0)) s
  let dato_tx := (dato_tx <<< 1) % 256
  let s := set_SPI_SW_SCK s.cfg.flanco_muestreo s
  let s := spi_delay_us 1 s
  let s := if i ≠ 1 then set_SPI_SW_SCK s.cfg.flanco_propagacion s else s
  (dato_tx, s)

/-- Function `spi_sw_writeByte`. -/
def spi_sw_writeByte (dato_tx : Nat) (s : SpiSt) : SpiSt :=
  let s := set_SPI_SW_SCK s.cfg.flanco_propagacion s
  let s := spi_delay_us 1 s
  let p := (countdown 8).foldl
    (fun (p : Nat × SpiSt) (i : Nat) => spi_sw_writeByte_bit p.1 p.2 i) (dato_tx, s)
  set_SPI_SW_SCK p.2.cfg.estado_inactivo_reloj p.2

/-- Body of the `for` loop of `spi_sw_readByte` at loop value `i`. -/
def spi_sw_readByte_bit (env : SpiBus) (dato : Nat) (s : SpiSt) (i : Nat) : Nat × SpiSt :=
  let dato := (dato <<< 1) % 256
  let s := set_SPI_SW_SCK s.cfg.flanco_muestreo s
  let r := get_SPI_SW_MISO env s
  let dato := if r.1 then dato ||| 0x01 else dato
  let s := if i ≠ 1 then set_SPI_SW_SCK r.2.cfg.flanco_propagacion r.2 else r.2
  (dato, s)

/-- Function `spi_sw_readByte`. -/
def spi_sw_readByte (env : SpiBus) (s : SpiSt) : Nat × SpiSt :=
  let s := set_SPI_SW_SCK s.cfg.flanco_propagacion s
  let s := spi_delay_us 1 s
  let s := set_SPI_SW_MOSI false s
  let p := (countdown 8).foldl
    (fun (p : Nat × SpiSt) (i : Nat) => spi_sw_readByte_bit env p.1 p.2 i) (0, s)
  let s := set_SPI_SW_SCK p.2.cfg.estado_inactivo_reloj p.2
  (p.1, s)

/-- Body of the `for` loop of `spi_sw_read` at loop value `i`; `dato` is 16
bits wide when `SPI_SW_NUM_BITS_TX > 8` and 8 bits wide otherwise. -/
def spi_sw_read_bit (env : SpiBus) (dato : Nat) (s : SpiSt) (i : Nat) : Nat × SpiSt :=
  let dato := (dato <<< 1) % 2 ^ (if SPI_SW_NUM_BITS_TX > 8 then 16 else 8)
  let s := set_SPI_SW_SCK s.cfg.flanco_muestreo s
  let r := get_SPI_SW_MISO env s
  let dato := if r.1 then dato ||| 0x01 else dato
  let s := if i ≠ 1 then set_SPI_SW_SCK r.2.cfg.flanco_propagacion r.2 else r.2
  (dato, s)

/-- Function `spi_sw_read`; the result is converted to `tipo_dato_rx_spi_sw`. -/
def spi_sw_read (env : SpiBus) (s : SpiSt) : Nat × SpiSt :=
  let s := set_SPI_SW_SCK s.cfg.flanco_propagacion s
  let s := spi_delay_us 1 s
  let s := set_SPI_SW_MOSI false s
  let p := (countdown SPI_SW_NUM_BITS_RX).foldl
    (fun (p : Nat × SpiSt) (i : Nat) => spi_sw_read_bit env p.1 p.2 i) (0, s)
  let s := set_SPI_SW_SCK p.2.cfg.estado_inactivo_reloj p.2
  (p.1 % 2 ^ tipo_dato_rx_spi_sw_bits, s)

/-- Body of the `for` loop of `spi_sw_xmit` at loop value `i`. -/
def spi_sw_xmit_bit (env : SpiBus) (dato_tx : Nat) (s : SpiSt) (i : Nat) : Nat × SpiSt :=
  let mask : Nat := 0x80
  let s := set_SPI_SW_MOSI (decide (dato_tx &&& mask ≠ 0)) s
  let dato_tx := (dato_tx <<< 1) % 256
  let s := set_SPI_SW_SCK s.cfg.flanco_muestreo s
  let r := get_SPI_SW_MISO env s
  let dato_tx := if r.1 then dato_tx ||| 0x01 else dato_tx
  let s := if i ≠ 1 then set_SPI_SW_SCK r.2.cfg.flanco_propagacion r.2 else r.2
  (dato_tx, s)

/-- Function `spi_sw_xmit`. -/
def spi_sw_xmit (env : SpiBus) (dato_tx : Nat) (s : SpiSt) : Nat × SpiSt :=
  let s := set_SPI_SW_SCK s.cfg.flanco_propagacion s
  let s := spi_delay_us 1 s
  let p := (countdown 8).foldl
    (fun (p : Nat × SpiSt) (i : Nat) => spi_sw_xmit_bit env p.1 p.2 i) (dato_tx, s)
  let s := set_SPI_SW_SCK p.2.cfg.estado_inactivo_reloj p.2
  (p.1, s)

/-- The byte at address offset `i` of a value stored in memory, expression
`*((uint8_t *)&dato+i)`, on the little-endian target. -/
def byteAt (dato : Nat) (i : Nat) : Nat := (dato >>> (8 * i)) % 256

/-- The value of a variable after the store `*(p+i) = b` into its byte at
address offset `i`, on the little-endian target. -/
def setByteAt (dato : Nat) (i : Nat) (b : Nat) : Nat :=
  dato - byteAt dato i * 256 ^ i + (b % 256) * 256 ^ i

/-- Loop `for(i=0;i!=n;i++) spi_sw_writeByte(*((uint8_t *)&dato_tx+i));`
shared by the multi-byte write helpers, `n` being the `sizeof` of the type. -/
def spi_sw_writeBytes (n : Nat) (dato_tx : Nat) (s : SpiSt) : SpiSt :=
  (List.range n).foldl (fun (s : SpiSt) (i : Nat) => spi_sw_writeByte (byteAt dato_tx i) s) s

/-- Loop `for(i=0;i!=n;i++) *(p_lectura++) = spi_sw_readByte();` shared by
the multi-byte read helpers, on a variable whose value before is
`dato_leido`. -/
def spi_sw_readBytes (env : SpiBus) (n : Nat) (dato_leido : Nat) (s : SpiSt) : Nat × SpiSt :=
  (List.range n).foldl
    (fun (p : Nat × SpiSt) (i : Nat) =>
      let r := spi_sw_readByte env p.2
      (setByteAt p.1 i r.1, r.2)) (dato_leido, s)

/-- Function `spi_sw_writeInt16` (`sizeof(uint16_t)` is 2). -/
def spi_sw_writeInt16 (dato_tx : Nat) (s : SpiSt) : SpiSt := spi_sw_writeBytes 2 dato_tx s

/-- Function `spi_sw_readInt16` (`dato_leido=0`). -/
def spi_sw_readInt16 (env : SpiBus) (s : SpiSt) : Nat × SpiSt := spi_sw_readBytes env 2 0 s

/-- Function `spi_sw_writeInt24` (`sizeof(uint24_t)` is 3). -/
def spi_sw_writeInt24 (dato_tx : Nat) (s : SpiSt) : SpiSt := spi_sw_writeBytes 3 dato_tx s

/-- Function `spi_sw_readInt24` (`dato_leido=0`). -/
def spi_sw_readInt24 (env : SpiBus) (s : SpiSt) : Nat × SpiSt := spi_sw_readBytes env 3 0 s

/-- Function `spi_sw_writeInt32` (`sizeof(uint32_t)` is 4). -/
def spi_sw_writeInt32 (dato_tx : Nat) (s : SpiSt) : SpiSt := spi_sw_writeBytes 4 dato_tx s

/-- Function `spi_sw_readInt32` (`dato_leido=0`). -/
def spi_sw_readInt32 (env : SpiBus) (s : SpiSt) : Nat × SpiSt := spi_sw_readBytes env 4 0 s

/-- Function `spi_sw_writeFloat` on the bit pattern of its argument;
`sizeof_float` is the size in bytes that the compiler gives to `float`. -/
def spi_sw_writeFloat (sizeof_float : Nat) (dato_tx : Nat) (s : SpiSt) : SpiSt :=
  spi_sw_writeBytes sizeof_float dato_tx s

/-- Function `spi_sw_readFloat`, returning the bit pattern; the variable
`dato_leido` is not initialised in the source, `junk` is the pattern it
holds before the loop. -/
def spi_sw_readFloat (env : SpiBus) (sizeof_float : Nat) (junk : Nat) (s : SpiSt) :
    Nat × SpiSt :=
  spi_sw_readBytes env sizeof_float junk s

/-! ## Vocabulary for the synchronous engine -/

/-- The idle level of the clock that the header documents for each mode:
low for modes 0 and 1, high for modes 2 and 3. -/
def spiIdleLevel : Nat → Bool
  | 2 => true
  | 3 => true
  | _ => false

/-- The level `lvl` is the idle level of the stored mode: low when the mode
is 0 or 1, high when it is 2 or 3. -/
def IsIdleLevelOf (c : SpiCfg) (lvl : Bool) : Prop :=
  ((c.spi_sw_mode = 0 ∨ c.spi_sw_mode = 1) → lvl = false) ∧
  ((c.spi_sw_mode = 2 ∨ c.spi_sw_mode = 3) → lvl = true)

/-- The configuration invariant: sampling and propagation levels are
complementary, and the idle level is low when the stored mode is 0 or 1 and
high when it is 2 or 3. -/
def ConfigOk (c : SpiCfg) : Prop :=
  c.flanco_muestreo = !c.flanco_propagacion ∧ IsIdleLevelOf c c.estado_inactivo_reloj

instance (c : SpiCfg) (lvl : Bool) : Decidable (IsIdleLevelOf c lvl) := by
  unfold IsIdleLevelOf
  infer_instance

instance (c : SpiCfg) : Decidable (ConfigOk c) := by
  unfold ConfigOk
  infer_instance

/-- A call of the public interface of the synchronous engine. -/
inductive SpiCmd where
  | init (mode : Nat)
  | setMode (newMode : Nat)
  | write (dato_tx : Nat)
  | writeByte (dato_tx : Nat)
  | readByte
  | read
  | xmit (dato_tx : Nat)
  | writeInt16 (dato_tx : Nat)
  | readInt16
  | writeInt24 (dato_tx : Nat)
  | readInt24
  | writeInt32 (dato_tx : Nat)
  | readInt32
  | writeFloat (sizeof_float : Nat) (dato_tx : Nat)
  | readFloat (sizeof_float : Nat) (junk : Nat)
  deriving DecidableEq, Repr

/-- State after one call. -/
def SpiCmd.run (env : SpiBus) (s : SpiSt) : SpiCmd → SpiSt
  | .init mode => spi_sw_init mode s
  | .setMode newMode => spi_sw_setMode newMode s
  | .write dato_tx => spi_sw_write dato_tx s
  | .writeByte dato_tx => spi_sw_writeByte dato_tx s
  | .readByte => (spi_sw_readByte env s).2
  | .read => (spi_sw_read env s).2
  | .xmit dato_tx => (spi_sw_xmit env dato_tx s).2
  | .writeInt16 dato_tx => spi_sw_writeInt16 dato_tx s
  | .readInt16 => (spi_sw_readInt16 env s).2
  | .writeInt24 dato_tx => spi_sw_writeInt24 dato_tx s
  | .readInt24 => (spi_sw_readInt24 env s).2
  | .writeInt32 dato_tx => spi_sw_writeInt32 dato_tx s
  | .readInt32 => (spi_sw_readInt32 env s).2
  | .writeFloat sizeof_float dato_tx => spi_sw_writeFloat sizeof_float dato_tx s
  | .readFloat sizeof_float junk => (spi_sw_readFloat env sizeof_float junk s).2

/-- State after a sequence of calls. -/
def runSpiCmds (env : SpiBus) (cmds : List SpiCmd) (s : SpiSt) : SpiSt :=
  cmds.foldl (SpiCmd.run env) s

/-- Power-on state of the synchronous engine: static variables zero, pins
inputs, empty trace. -/
def spiReset : SpiSt := ⟨⟨0, false, false, false⟩, ⟨true, true, true, false, false⟩, [], 0⟩

/-- Loopback: the input line shows the level of the output data latch. -/
def spiLoopback : SpiBus := ⟨fun s => s.pins.mosi⟩

/-- An input line that shows `f k` at the `k`-th read. -/
def spiStream (f : Nat → Bool) : SpiBus := ⟨fun s => f s.nMiso⟩

/-- Effect of one event on the state: it is appended to the trace, the pin
registers follow it, and a read of the input line is counted. -/
def SpiSt.step (s : SpiSt) (e : SpiEv) : SpiSt :=
  match e with
  | .rdMiso v => { s.emit (.rdMiso v) with nMiso := s.nMiso + 1 }
  | e => s.emit e

/-- State after a list of events. -/
def SpiSt.play (s : SpiSt) (evs : List SpiEv) : SpiSt := evs.foldl SpiSt.step s

/-- Events of the bit loop of a write for the output levels `vs`: for each
bit, the data line is set, the clock goes to the sampling level, delay, and
the clock goes back to the propagation level except after the last bit. -/
def evSpiWriteBits (c : SpiCfg) : List Bool → List SpiEv
  | [] => []
  | v :: vs =>
    [.mosi v, .sck c.flanco_muestreo, .delay 1] ++
      (if vs.isEmpty then [] else [.sck c.flanco_propagacion]) ++ evSpiWriteBits c vs

/-- Trace of `spi_sw_writeByte b`: clock to the propagation level, delay,
the bit loop for the bits of `b` most significant first, clock to the idle
level. -/
def evSpiWriteByte (c : SpiCfg) (b : Nat) : List SpiEv :=
  [.sck c.flanco_propagacion, .delay 1] ++ evSpiWriteBits c (bitsMSB b) ++
    [.sck c.estado_inactivo_reloj]

/-- Events of the bit loop of a read that sampled the levels `vs`: for each
bit, the clock goes to the sampling level, the input line is read, and the
clock goes back to the propagation level except after the last bit. -/
def evSpiReadBits (c : SpiCfg) : List Bool → List SpiEv
  | [] => []
  | v :: vs =>
    [.sck c.flanco_muestreo, .rdMiso v] ++
      (if vs.isEmpty then [] else [.sck c.flanco_propagacion]) ++ evSpiReadBits c vs

/-- Trace of `spi_sw_readByte` that sampled the levels `vs`. -/
def evSpiReadByte (c : SpiCfg) (vs : List Bool) : List SpiEv :=
  [.sck c.flanco_propagacion, .delay 1, .mosi false] ++ evSpiReadBits c vs ++
    [.sck c.estado_inactivo_reloj]

/-- The most significant bits that the write loop sees in `n` iterations
started with the 8-bit value `d`. -/
def shiftedBits : Nat → Nat → List Bool
  | 0, _ => []
  | n + 1, d => decide (d &&& 0x80 ≠ 0) :: shiftedBits n ((d <<< 1) % 256)

/-- The 8-bit value of the read loop started with `d` after sampling `vs`. -/
def shiftIn (d : Nat) (vs : List Bool) : Nat :=
  vs.foldl (fun a v => if v then ((a <<< 1) % 256) ||| 0x01 else (a <<< 1) % 256) d

/-- The levels returned by the reads of the input line, in the order taken. -/
def misoSamples (evs : List SpiEv) : List Bool :=
  evs.filterMap (fun e => match e with
    | .rdMiso v => some v
    | _ => none)

/-- Replaying `evs` from the registers `p`: the levels of the output data
latch at the transitions of the clock latch from the propagation level to
the sampling level of the configuration `c`, in order. -/
def mosiAtSamplingEdges (c : SpiCfg) (p : SpiPins) : List SpiEv → List Bool
  | [] => []
  | e :: es =>
    (if e = .sck c.flanco_muestreo ∧ p.sck = c.flanco_propagacion ∧
        p.sck ≠ c.flanco_muestreo then [p.mosi] else []) ++
      mosiAtSamplingEdges c (p.apply e) es

/-- The new events of a run of the synchronous engine from `s` to `t`. -/
def spiNewEvents (s t : SpiSt) : List SpiEv := t.trace.drop s.trace.length

/-- The value whose byte at address offset `i` is `bs[i]` (little-endian). -/
def assembleLE (bs : List Nat) : Nat := bs.foldr (fun b acc => b + 256 * acc) 0

/-- One iteration of `spi_sw_xmit` on a loopback, on the 8-bit value: the
most significant bit is sent, the value is shifted left, and the bit comes
back into the least significant position. -/
def rotl8 (d : Nat) : Nat :=
  if d &&& 0x80 ≠ 0 then ((d <<< 1) % 256) ||| 0x01 else (d <<< 1) % 256

/-- The value of a variable that held `d₀` after its bytes at address
offsets `0 .. bs.length - 1` have been overwritten with `bs`. -/
def storeLE (d₀ : Nat) (bs : List Nat) : Nat :=
  assembleLE bs + d₀ / 256 ^ bs.length * 256 ^ bs.length

/-- An input line wired to a writer that sends the value `v` byte by byte,
byte at address offset 0 first, each byte most significant bit first: the
`k`-th sample is bit `7 - k % 8` of byte `k / 8`. -/
def spiWire (v : Nat) : SpiBus := spiStream (fun k => (byteAt v (k / 8)).testBit (7 - k % 8))

/-! ## The asynchronous serial engine (`src/SERIAL_SW`) -/

/-- One observable action of the serial engine. -/
inductive SerEv where
  /-- Assignment `SW_TX_TRIS = v` (true: input, false: output). -/
  | txTris (v : Bool)
  /-- Assignment `SW_RX_TRIS = v`. -/
  | rxTris (v : Bool)
  /-- Assignment `SW_TX = v`. -/
  | tx (v : Bool)
  /-- Call `_delay(cycles)`. -/
  | delay (cycles : Nat)
  /-- Read of `SW_RX` that returned `v`. -/
  | rdRx (v : Bool)
  deriving DecidableEq, Repr

/-- Machine state of the serial engine: the transmit latch, the direction
bits, the trace of events so far (oldest first) and the number of reads of
the receive pin. -/
structure SerSt where
  /-- Output latch `SW_TX`. -/
  tx : Bool
  txTris : Bool
  rxTris : Bool
  trace : List SerEv
  nRx : Nat
  deriving DecidableEq, Repr

/-- The receive line: `rx n` is the level seen by the `n`-th read of `SW_RX`. -/
structure SerBus where
  rx : Nat → Bool

/-- Record an event of the serial engine. -/
def SerSt.emit (s : SerSt) (e : SerEv) : SerSt :=
  match e with
  | .txTris v => { s with txTris := v, trace := s.trace ++ [e] }
  | .rxTris v => { s with rxTris := v, trace := s.trace ++ [e] }
  | .tx v => { s with tx := v, trace := s.trace ++ [e] }
  | .delay _ => { s with trace := s.trace ++ [e] }
  | .rdRx _ => { s with trace := s.trace ++ [e], nRx := s.nRx + 1 }

/-- State after a list of events of the serial engine. -/
def SerSt.play (s : SerSt) (evs : List SerEv) : SerSt := evs.foldl SerSt.emit s

/-- Constant `SW_BAUDRATE` (`9600UL`). -/
def SW_BAUDRATE : Nat := 9600

/-- Macro `CYCLES_DELAY_RX_BIT`, in 32-bit unsigned arithmetic; `_XTAL_FREQ`
is defined outside the library and is a parameter here. -/
def CYCLES_DELAY_RX_BIT (XTAL_FREQ : Nat) : Nat :=
  (((((2 * XTAL_FREQ) / (4 * SW_BAUDRATE)) + 1) / 2) + 2 ^ 32 - 14) % 2 ^ 32

/-- Macro `CYCLES_DELAY_RX_HALFBIT`. -/
def CYCLES_DELAY_RX_HALFBIT (XTAL_FREQ : Nat) : Nat :=
  (((((2 * XTAL_FREQ) / (8 * SW_BAUDRATE)) + 1) / 2) + 2 ^ 32 - 9) % 2 ^ 32

/-- Macro `CYCLES_DELAY_TX_BIT`. -/
def CYCLES_DELAY_TX_BIT (XTAL_FREQ : Nat) : Nat :=
  (((((2 * XTAL_FREQ) / (4 * SW_BAUDRATE)) + 1) / 2) + 2 ^ 32 - 12) % 2 ^ 32

/-- Assignment `SW_TX = v`. -/
def set_SW_TX (v : Bool) (s : SerSt) : SerSt := s.emit (.tx v)

/-- Call `_delay(cycles)`. -/
def serial_delay (cycles : Nat) (s : SerSt) : SerSt := s.emit (.delay cycles)

/-- Read of `SW_RX`. -/
def get_SW_RX (env : SerBus) (s : SerSt) : Bool × SerSt :=
  (env.rx s.nRx, s.emit (.rdRx (env.rx s.nRx)))

/-- Function `serial_sw_init`. -/
def serial_sw_init (s : SerSt) : SerSt :=
  let s := s.emit (.txTris false)
  let s := set_SW_TX true s
  s.emit (.rxTris true)

/-- Body of the loop `while(bit_count--)` of `serial_sw_writeByte`. -/
def serial_sw_writeByte_bit (XTAL_FREQ : Nat) (dato : Nat) (s : SerSt) : Nat × SerSt :=
  let s := set_SW_TX (decide (dato &&& 0x01 ≠ 0)) s
  let s := serial_delay (CYCLES_DELAY_TX_BIT XTAL_FREQ) s
  (dato >>> 1, s)

/-- Function `serial_sw_writeByte`; `while(bit_count--)` with `bit_count = 8`
runs its body for the values 8, 7, .., 1 of `bit_count`. -/
def serial_sw_writeByte (XTAL_FREQ : Nat) (dato : Nat) (s : SerSt) : SerSt :=
  let s := set_SW_TX false s
  let s := serial_delay (CYCLES_DELAY_TX_BIT XTAL_FREQ) s
  let p := (countdown 8).foldl
    (fun (p : Nat × SerSt) (_ : Nat) => serial_sw_writeByte_bit XTAL_FREQ p.1 p.2) (dato, s)
  let s := set_SW_TX true p.2
  serial_delay (CYCLES_DELAY_TX_BIT XTAL_FREQ) s

/-- Loop `while(SW_RX);` with a budget of `fuel` polls.  When the budget
runs out while the pin still reads high the run ends in `error`. -/
def waitRxLow (env : SerBus) : Nat → SerSt → Except SerSt SerSt
  | 0, s => .error s
  | fuel + 1, s =>
    let r := get_SW_RX env s
    if r.1 then waitRxLow env fuel r.2 else .ok r.2

/-- Body of the `for` loop of `serial_sw_readByte` at loop index `bit_count`. -/
def serial_sw_readByte_bit (XTAL_FREQ : Nat) (env : SerBus) (dato : Nat) (s : SerSt)
    (bit_count : Nat) : Nat × SerSt :=
  let r := get_SW_RX env s
  let dato := if r.1 then (dato ||| (1 <<< bit_count)) % 256 else dato
  let s := serial_delay (CYCLES_DELAY_RX_BIT XTAL_FREQ) r.2
  (dato, s)

/-- Function `serial_sw_readByte`. -/
def serial_sw_readByte (XTAL_FREQ : Nat) (env : SerBus) (fuel : Nat) (s : SerSt) :
    Except SerSt (Nat × SerSt) := do
  let s ← waitRxLow env fuel s
  let s := serial_delay (CYCLES_DELAY_RX_BIT XTAL_FREQ) s
  let s := serial_delay (CYCLES_DELAY_RX_HALFBIT XTAL_FREQ) s
  let p := (List.range 8).foldl
    (fun (p : Nat × SerSt) (bit_count : Nat) =>
      serial_sw_readByte_bit XTAL_FREQ env p.1 p.2 bit_count) (0, s)
  pure p

/-- Function `serial_sw_puts` on the bytes of memory that start at the
pointer `cadena`; `none` when the loop runs past the memory given. -/
def serial_sw_puts (XTAL_FREQ : Nat) : List Nat → SerSt → Option SerSt
  | [], _ => none
  | c :: rest, s =>
    if c ≠ 0 then serial_sw_puts XTAL_FREQ rest (serial_sw_writeByte XTAL_FREQ c s)
    else some s

/-- Function `serial_sw_writeLine`. -/
def serial_sw_writeLine (XTAL_FREQ : Nat) (cadena : List Nat) (s : SerSt) : Option SerSt := do
  let s ← serial_sw_puts XTAL_FREQ cadena s
  let s := serial_sw_writeByte XTAL_FREQ 0x0D s
  let s := serial_sw_writeByte XTAL_FREQ 0x0A s
  pure s

/-! ## Vocabulary for the serial engine -/

/-- The bits of a byte, least significant first: entry `k` is bit `k`. -/
def bitsLSB (b : Nat) : List Bool := (List.range 8).map (fun k => b.testBit k)

/-- One 8N1 frame for the byte `b` on the transmit line: ten levels, each
held for one bit period: low (start bit), the eight data bits least
significant first, high (stop bit). -/
def evSerialFrame (XTAL_FREQ : Nat) (b : Nat) : List SerEv :=
  (false :: bitsLSB b ++ [true]).flatMap
    (fun v => [.tx v, .delay (CYCLES_DELAY_TX_BIT XTAL_FREQ)])

/-- The data bits that the write loop sends in `n` iterations from `d`. -/
def lowBits : Nat → Nat → List Bool
  | 0, _ => []
  | n + 1, d => decide (d &&& 0x01 ≠ 0) :: lowBits n (d >>> 1)

/-- Trace of a `serial_sw_readByte` that polled the line `n` times high
before the start bit and then sampled the levels `vs`. -/
def evSerialRead (XTAL_FREQ : Nat) (n : Nat) (vs : List Bool) : List SerEv :=
  List.replicate n (.rdRx true) ++ [.rdRx false] ++
    [.delay (CYCLES_DELAY_RX_BIT XTAL_FREQ), .delay (CYCLES_DELAY_RX_HALFBIT XTAL_FREQ)] ++
    vs.flatMap (fun v => [.rdRx v, .delay (CYCLES_DELAY_RX_BIT XTAL_FREQ)])

/-- The byte whose bit `k` is the `k`-th sample: the sum of `s_k * 2^k`. -/
def byteOfSamplesLSB (vs : List Bool) : Nat :=
  ((List.range 8).map (fun k => (vs.getD k false).toNat * 2 ^ k)).sum

/-- Value accumulated by the read loop of the serial engine from `d` when
the samples `vs` arrive at the loop indices `i, i+1, ..`. -/
def orBits : Nat → Nat → List Bool → Nat
  | d, _, [] => d
  | d, i, v :: vs => orBits (if v then (d ||| (1 <<< i)) % 256 else d) (i + 1) vs

/-- Idle state of the serial engine after `serial_sw_init`. -/
def serIdle : SerSt := ⟨true, false, true, [], 0⟩

/-- A receive line that is idle (high) for two polls and then carries the
8N1 frame of `0x41` sampled once per bit. -/
def serLine : SerBus :=
  ⟨fun k => ([true, true, false] ++ bitsLSB 0x41 ++ [true]).getD k true⟩

/-- The samples of a `serial_sw_readByte` whose start-bit wait saw `n` high
readings: the eight readings that follow the first low one. -/
def serialSamples (env : SerBus) (s : SerSt) (n : Nat) : List Bool :=
  (List.range 8).map (fun k => env.rx (s.nRx + n + 1 + k))

/-! ## Multi-byte write helpers of the two-wire and the serial engine -/

/-- Function `i2c_sw_writeInt32`: `for(i=0;i!=sizeof(int32_t);i++)` over
`i2c_sw_writeByte(*((uint8_t *)&dato+i));` the value returned by
`i2c_sw_writeByte` is not used. -/
def i2c_sw_writeInt32 (env : Bus) (fuel : Nat) (dato : Nat) (s : St) : Except St St :=
  (List.range 4).foldlM
    (fun (s : St) (i : Nat) => do
      let r ← i2c_sw_writeByte env fuel (byteAt dato i) s
      pure r.2) s

/-- Function `serial_sw_writeInt32`: `for(i=0;i!=sizeof(uint32_t);i++)` over
`serial_sw_writeByte(*((uint8_t *)&dato+i));`. -/
def serial_sw_writeInt32 (XTAL_FREQ : Nat) (dato : Nat) (s : SerSt) : SerSt :=
  (List.range 4).foldl
    (fun (s : SerSt) (i : Nat) => serial_sw_writeByte XTAL_FREQ (byteAt dato i) s) s

/-- The acknowledgment-independent data of one byte write of the two-wire
engine: the low clock readings of its eight data cycles, the level read in
the acknowledgment phase, the low clock readings of the ninth release. -/
structure WriteObs where
  ns : List Nat
  ack : Bool
  n : Nat

/-- The levels written to the output data line, in order. -/
def mosiWrites (evs : List SpiEv) : List Bool :=
  evs.filterMap (fun e => match e with
    | .mosi v => some v
    | _ => none)

/-- Number of releases of the clock line (`I2C_SW_SCL_TRIS=1`) in a list of
events. -/
def sclReleases (evs : List Ev) : Nat := evs.countP (fun e => e == .sclTris true)

/-- A receive line that is low at every read. -/
def serLow : SerBus := ⟨fun _ => false⟩

/-- A bus whose clock line is held low for ever. -/
def busStuck : Bus := ⟨fun _ => true, fun _ => false⟩

/-- The four bytes `(v >> 8k) & 0xFF`, `k = 0, 1, 2, 3`, lowest first. -/
def bytesLE32 (v : Nat) : List Nat := (List.range 4).map (fun k => (v >>> (8 * k)) &&& 0xFF)

/-! ## Vocabulary for the full-duplex transfer of the synchronous engine -/

/-- Events of the bit loop of `spi_sw_xmit` for the pairs (output level,
sample): for each bit, the data line is set, the clock goes to the sampling
level, the input line is read, and the clock goes back to the propagation
level except after the last bit. -/
def evSpiXmitBits (c : SpiCfg) : List (Bool × Bool) → List SpiEv
  | [] => []
  | p :: ps =>
    [.mosi p.1, .sck c.flanco_muestreo, .rdMiso p.2] ++
      (if ps.isEmpty then [] else [.sck c.flanco_propagacion]) ++ evSpiXmitBits c ps

/-- Trace of `spi_sw_xmit` that put the levels `outs` on the output line and
sampled the levels `ins`. -/
def evSpiXmit (c : SpiCfg) (outs ins : List Bool) : List SpiEv :=
  [.sck c.flanco_propagacion, .delay 1] ++ evSpiXmitBits c (outs.zip ins) ++
    [.sck c.estado_inactivo_reloj]

/-- The output levels of the loop of `spi_sw_xmit` started with the 8-bit
value `d` when the samples `rs` come in: each is the most significant bit of
the register into which the earlier samples were shifted. -/
def xmitOuts : Nat → List Bool → List Bool
  | _, [] => []
  | d, r :: rs =>
    decide (d &&& 0x80 ≠ 0) ::
      xmitOuts (if r then ((d <<< 1) % 256) ||| 0x01 else (d <<< 1) % 256) rs

/-! ## Vocabulary for termination under clock stretching -/

/-- Every release of the clock is answered: from every read on, the clock
line reads high after finitely many further reads. -/
def EventuallyHigh (env : Bus) : Prop := ∀ k, ∃ m, env.scl (k + m) = true

/-- How an operation `f` of the two-wire engine, given as a function of its
poll budget, depends on the budget: a result obtained with some budget is
obtained with every larger one; a run that used up its budget did so polling
the clock after releasing it, and if a larger budget gets further then the
clock did read high later on; and when the clock reads high some time after
every point at which a run (with a budget of at least `F₀`) used up its
budget, some budget is enough. -/
structure FuelSound (env : Bus) {α : Type} (f : Nat → Except St α) : Prop where
  mono : ∀ fuel fuel' x, fuel ≤ fuel' → f fuel = .ok x → f fuel' = .ok x
  unstuck : ∀ fuel fuel' e x, f fuel = .error e → f fuel' = .ok x →
    ∃ m, env.scl (e.nScl + m) = true
  stuck : ∀ fuel e, f fuel = .error e →
    ∃ pre, e.trace = pre ++ .sclTris true :: List.replicate fuel (.rdScl false)
  answered : ∀ F₀, (∀ fuel, F₀ ≤ fuel → ∀ e, f fuel = .error e →
    ∃ m, env.scl (e.nScl + m) = true) → ∃ fuel x, f fuel = .ok x

/-- Termination behaviour of a byte operation `f` of the two-wire engine
started in `s`, given as a function of its poll budget.  A run that used up
its budget was polling a released clock, in the state `e` reached after
`fuel` low readings.  When every release is answered, that is, whenever a
run is polling the clock reads high some time later, the operation returns,
with one result for every budget from some budget on, having released the
clock nine times; this is so in particular when the clock reads high again
and again; every run that returns has released the clock nine times; if
after the point where some run is polling the clock never reads high, then
no budget, however large, makes the operation return; in particular it
never returns when the clock never reads high. -/
@[reducible] def StretchTermination (env : Bus) (s : St) {α : Type}
    (f : Nat → Except St (α × St)) : Prop :=
  ((∀ fuel e, f fuel = .error e → ∃ m, env.scl (e.nScl + m) = true) →
    ∃ F x, (∀ fuel, F ≤ fuel → f fuel = .ok x) ∧ sclReleases (newEvents s x.2) = 9) ∧
  (EventuallyHigh env →
    ∃ F x, (∀ fuel, F ≤ fuel → f fuel = .ok x) ∧ sclReleases (newEvents s x.2) = 9) ∧
  (∀ fuel x, f fuel = .ok x → sclReleases (newEvents s x.2) = 9) ∧
  (∀ fuel₀ e, f fuel₀ = .error e →
    (∃ pre, e.trace = pre ++ .sclTris true :: List.replicate fuel₀ (.rdScl false)) ∧
    ((∀ m, env.scl (e.nScl + m) = false) → ∀ fuel, ∃ e', f fuel = .error e')) ∧
  ((∀ m, env.scl (s.nScl + m) = false) → ∀ fuel, ∃ e, f fuel = .error e)

/-! # Part II: theorems -/

/-! ## Basic lemmas -/

theorem Pins.replay_append (p : Pins) (a b : List Ev) :
    p.replay (a ++ b) = (p.replay a).replay b := by
  simp [Pins.replay, List.foldl_append]

theorem Pins.replay_nil (p : Pins) : p.replay [] = p := rfl

theorem Pins.replay_cons (p : Pins) (e : Ev) (es : List Ev) :
    p.replay (e :: es) = (p.apply e).replay es := rfl

theorem Pins.replay_polls (p : Pins) (n : Nat) : p.replay (evPolls n) = p := by
  induction n with
  | zero => rfl
  | succ n ih =>
    simpa [evPolls, Pins.replay, List.replicate_succ, Pins.apply] using ih

theorem Runs.refl (s : St) : Runs s [] s :=
  ⟨by simp, rfl, by simp, by simp⟩

theorem Runs.trans {s t u : St} {a b : List Ev} (h₁ : Runs s a t) (h₂ : Runs t b u) :
    Runs s (a ++ b) u :=
  ⟨by rw [h₂.trace, h₁.trace, List.append_assoc],
   by rw [h₂.pins, h₁.pins, Pins.replay_append],
   by rw [h₂.nSda, h₁.nSda, List.countP_append, Nat.add_assoc],
   by rw [h₂.nScl, h₁.nScl, List.countP_append, Nat.add_assoc]⟩

theorem Runs.emit (s : St) (e : Ev) (h₁ : e.isRdSda = false) (h₂ : e.isRdScl = false) :
    Runs s [e] (s.emit e) :=
  ⟨rfl, rfl, by simp [St.emit, h₁], by simp [St.emit, h₂]⟩

theorem runs_delay_us (us : Nat) (s : St) : Runs s [.delay us] (delay_us us s) :=
  Runs.emit s _ rfl rfl

theorem runs_SW_SDA_1 (s : St) : Runs s evSdaRelease (SW_SDA_1 s) :=
  Runs.emit s _ rfl rfl

theorem runs_SW_SDA_0 (s : St) : Runs s evSdaLow (SW_SDA_0 s) :=
  (Runs.emit s (.sdaTris false) rfl rfl).trans (Runs.emit _ (.sdaPin false) rfl rfl)

theorem runs_SW_SCL_0 (s : St) : Runs s evSclLow (SW_SCL_0 s) :=
  (Runs.emit s (.sclTris false) rfl rfl).trans (Runs.emit _ (.sclPin false) rfl rfl)

theorem runs_get_SDA_PIN (env : Bus) (s : St) :
    Runs s [.rdSda (get_SDA_PIN env s).1] (get_SDA_PIN env s).2 :=
  ⟨rfl, rfl, by simp [get_SDA_PIN, St.emit, Ev.isRdSda], by simp [get_SDA_PIN, St.emit, Ev.isRdScl]⟩

theorem runs_get_SCL_PIN (env : Bus) (s : St) :
    Runs s [.rdScl (get_SCL_PIN env s).1] (get_SCL_PIN env s).2 :=
  ⟨rfl, rfl, by simp [get_SCL_PIN, St.emit, Ev.isRdSda], by simp [get_SCL_PIN, St.emit, Ev.isRdScl]⟩

/-- A busy-wait that ends saw `n < fuel` low readings and then a high one. -/
theorem waitSclHigh_ok (env : Bus) (fuel : Nat) (s t : St)
    (h : waitSclHigh env fuel s = .ok t) : ∃ n, n < fuel ∧ Runs s (evPolls n) t := by
  induction fuel generalizing s with
  | zero => simp [waitSclHigh] at h
  | succ fuel ih =>
    rw [waitSclHigh] at h
    by_cases hv : (get_SCL_PIN env s).1 = true
    · simp [hv] at h
      refine ⟨0, Nat.succ_pos _, ?_⟩
      have := runs_get_SCL_PIN env s
      rw [hv, h] at this
      simpa [evPolls] using this
    · simp only [Bool.not_eq_true] at hv
      simp [hv] at h
      obtain ⟨n, hn, hr⟩ := ih _ h
      refine ⟨n + 1, Nat.succ_lt_succ hn, ?_⟩
      have := (runs_get_SCL_PIN env s).trans hr
      rw [hv] at this
      simpa [evPolls, List.replicate_succ] using this

/-- A busy-wait whose budget runs out saw `fuel` low readings and nothing else. -/
theorem waitSclHigh_error (env : Bus) (fuel : Nat) (s t : St)
    (h : waitSclHigh env fuel s = .error t) :
    Runs s (List.replicate fuel (.rdScl false)) t := by
  induction fuel generalizing s with
  | zero =>
    simp [waitSclHigh] at h
    subst h
    exact Runs.refl s
  | succ fuel ih =>
    rw [waitSclHigh] at h
    by_cases hv : (get_SCL_PIN env s).1 = true
    · simp [hv] at h
    · simp only [Bool.not_eq_true] at hv
      simp [hv] at h
      have := (runs_get_SCL_PIN env s).trans (ih _ h)
      rw [hv] at this
      simpa [List.replicate_succ] using this

/-- While the clock pin is an input, a busy-wait ends as soon as the external
level is high within the budget. -/
theorem waitSclHigh_total (env : Bus) (fuel : Nat) (s : St) (hin : s.pins.sclTris = true)
    (h : ∃ m, m < fuel ∧ env.scl (s.nScl + m) = true) :
    ∃ t, waitSclHigh env fuel s = .ok t := by
  induction fuel generalizing s with
  | zero => obtain ⟨m, hm, _⟩ := h; omega
  | succ fuel ih =>
    obtain ⟨m, hm, hhi⟩ := h
    rw [waitSclHigh]
    by_cases hv : (get_SCL_PIN env s).1 = true
    · exact ⟨(get_SCL_PIN env s).2, by simp [hv]⟩
    · simp only [Bool.not_eq_true] at hv
      simp only [hv, Bool.not_false, if_true]
      have hlow : env.scl s.nScl = false := by
        simpa [get_SCL_PIN, hin] using hv
      cases m with
      | zero => simp [hlow] at hhi
      | succ m =>
        apply ih
        · simpa [get_SCL_PIN, St.emit, Pins.apply] using hin
        · refine ⟨m, by omega, ?_⟩
          have : (get_SCL_PIN env s).2.nScl = s.nScl + 1 := rfl
          rw [this, ← hhi]
          congr 1
          omega

theorem SW_SCL_1_ok (env : Bus) (fuel : Nat) (s t : St)
    (h : SW_SCL_1 env fuel s = .ok t) : ∃ n, n < fuel ∧ Runs s (evSclRelease n) t := by
  obtain ⟨n, hn, hr⟩ := waitSclHigh_ok env fuel _ t h
  exact ⟨n, hn, (Runs.emit s (.sclTris true) rfl rfl).trans hr⟩

theorem SW_SCL_1_error (env : Bus) (fuel : Nat) (s t : St)
    (h : SW_SCL_1 env fuel s = .error t) :
    Runs s (.sclTris true :: List.replicate fuel (.rdScl false)) t :=
  (Runs.emit s (.sclTris true) rfl rfl).trans (waitSclHigh_error env fuel _ t h)

theorem SW_SCL_1_total (env : Bus) (N fuel : Nat) (s : St)
    (hb : StretchBounded env N) (hf : N < fuel) : ∃ t, SW_SCL_1 env fuel s = .ok t := by
  obtain ⟨m, hm, hhi⟩ := hb s.nScl
  exact waitSclHigh_total env fuel _ rfl ⟨m, by omega, hhi⟩

/-! ## Sequencing in `Except` -/

theorem except_ok_bind {ε α β : Type} (a : α) (f : α → Except ε β) :
    ((Except.ok a : Except ε α) >>= f) = f a := rfl

theorem except_bind_ok {ε α β : Type} {x : Except ε α} {f : α → Except ε β} {b : β}
    (h : (x >>= f) = .ok b) : ∃ a, x = .ok a ∧ f a = .ok b := by
  cases x with
  | error e => simp [bind, Except.bind] at h
  | ok a => exact ⟨a, rfl, h⟩

/-- Invariant rule for a `for` loop over `0 .. n-1` whose body may stop the
run: `Q i` holds before iteration `i`, `R` holds of every stopped run. -/
theorem foldlM_range_inv {ε β : Type} (f : β → Nat → Except ε β) (Q : Nat → β → Prop)
    (R : ε → Prop) (n : Nat) (b₀ : β) (h₀ : Q 0 b₀)
    (hstep : ∀ i a, i < n → Q i a →
      match f a i with
      | .ok a' => Q (i + 1) a'
      | .error e => R e) :
    match (List.range n).foldlM f b₀ with
    | .ok b => Q n b
    | .error e => R e := by
  induction n with
  | zero => simpa using h₀
  | succ n ih =>
    have ih' := ih (fun i a hi hq => hstep i a (Nat.lt_succ_of_lt hi) hq)
    rw [List.range_succ, List.foldlM_append]
    cases hc : (List.range n).foldlM f b₀ with
    | error e =>
      rw [hc] at ih'
      simpa [bind, Except.bind] using ih'
    | ok a =>
      rw [hc] at ih'
      have := hstep n a (Nat.lt_succ_self n) ih'
      cases hf : f a n with
      | error e => rw [hf] at this; simpa [bind, Except.bind, hf, pure, Except.pure] using this
      | ok a' => rw [hf] at this; simpa [bind, Except.bind, hf, pure, Except.pure] using this

/-- Invariant rule for a loop that ran to its end. -/
theorem foldlM_range_ok {ε β : Type} (f : β → Nat → Except ε β) (Q : Nat → β → Prop)
    (n : Nat) (b₀ b : β) (h₀ : Q 0 b₀)
    (hstep : ∀ i a a', i < n → Q i a → f a i = .ok a' → Q (i + 1) a')
    (h : (List.range n).foldlM f b₀ = .ok b) : Q n b := by
  have := foldlM_range_inv f Q (fun _ => True) n b₀ h₀ (by
    intro i a hi hq
    cases hf : f a i with
    | error e => trivial
    | ok a' => exact hstep i a a' hi hq hf)
  rw [h] at this
  exact this

/-- A loop whose body always runs to its end runs to its end. -/
theorem foldlM_total {ε β : Type} (f : β → Nat → Except ε β) (l : List Nat) (b₀ : β)
    (hstep : ∀ a i, ∃ a', f a i = .ok a') : ∃ b, l.foldlM f b₀ = .ok b := by
  induction l generalizing b₀ with
  | nil => exact ⟨b₀, rfl⟩
  | cons i l ih =>
    obtain ⟨a', ha⟩ := hstep b₀ i
    obtain ⟨b, hb⟩ := ih a'
    exact ⟨b, by simp [List.foldlM_cons, ha, bind, Except.bind, hb]⟩

/-! ## Start, stop and restart conditions -/

theorem i2c_sw_start_ok (env : Bus) (fuel : Nat) (s t : St)
    (h : i2c_sw_start env fuel s = .ok t) : ∃ n, n < fuel ∧ Runs s (evStart n) t := by
  unfold i2c_sw_start at h
  obtain ⟨u, hu, h⟩ := except_bind_ok h
  obtain ⟨n, hn, hr⟩ := SW_SCL_1_ok env fuel _ u hu
  simp only [pure, Except.pure, Except.ok.injEq] at h
  subst h
  exact ⟨n, hn, ((((((runs_SW_SDA_1 s).trans (runs_delay_us 4 _)).trans hr).trans
    (runs_delay_us 4 _)).trans (runs_SW_SDA_0 _)).trans (runs_delay_us 4 _)).trans
    (runs_SW_SCL_0 _)⟩

theorem i2c_sw_stop_ok (env : Bus) (fuel : Nat) (s t : St)
    (h : i2c_sw_stop env fuel s = .ok t) : ∃ n, n < fuel ∧ Runs s (evStop n) t := by
  unfold i2c_sw_stop at h
  obtain ⟨u, hu, h⟩ := except_bind_ok h
  obtain ⟨n, hn, hr⟩ := SW_SCL_1_ok env fuel _ u hu
  simp only [pure, Except.pure, Except.ok.injEq] at h
  subst h
  exact ⟨n, hn, (((((runs_SW_SDA_0 s).trans (runs_delay_us 4 _)).trans hr).trans
    (runs_delay_us 4 _)).trans (runs_SW_SDA_1 _)).trans (runs_delay_us 4 _)⟩

theorem i2c_sw_restart_ok (env : Bus) (fuel : Nat) (s t : St)
    (h : i2c_sw_restart env fuel s = .ok t) : ∃ n, n < fuel ∧ Runs s (evRestart n) t := by
  unfold i2c_sw_restart at h
  obtain ⟨u, hu, h⟩ := except_bind_ok h
  obtain ⟨n, hn, hr⟩ := SW_SCL_1_ok env fuel _ u hu
  simp only [pure, Except.pure, Except.ok.injEq] at h
  subst h
  exact ⟨n, hn, (((((runs_SW_SDA_1 s).trans (runs_delay_us 4 _)).trans hr).trans
    (runs_delay_us 4 _)).trans (runs_SW_SDA_0 _)).trans (runs_delay_us 4 _)⟩

theorem i2c_sw_start_total (env : Bus) (N fuel : Nat) (s : St)
    (hb : StretchBounded env N) (hf : N < fuel) : ∃ t, i2c_sw_start env fuel s = .ok t := by
  obtain ⟨u, hu⟩ := SW_SCL_1_total env N fuel (delay_us 4 (SW_SDA_1 s)) hb hf
  simp only [i2c_sw_start, hu]
  exact ⟨_, rfl⟩

theorem i2c_sw_stop_total (env : Bus) (N fuel : Nat) (s : St)
    (hb : StretchBounded env N) (hf : N < fuel) : ∃ t, i2c_sw_stop env fuel s = .ok t := by
  obtain ⟨u, hu⟩ := SW_SCL_1_total env N fuel (delay_us 4 (SW_SDA_0 s)) hb hf
  simp only [i2c_sw_stop, hu]
  exact ⟨_, rfl⟩

/-! ## Byte write -/

set_option maxRecDepth 100000 in
/-- The mask test of the loop body after `i` shifts selects bit `7 - i`. -/
theorem shifted_msb_fin : ∀ i : Fin 8, ∀ b : Fin 256,
    decide ((b.val * 2 ^ i.val % 256) &&& 0x80 ≠ 0) = b.val.testBit (7 - i.val) := by
  decide

theorem shifted_msb (b i : Nat) (hb : b < 256) (hi : i < 8) :
    decide ((b * 2 ^ i % 256) &&& 0x80 ≠ 0) = b.testBit (7 - i) :=
  shifted_msb_fin ⟨i, hi⟩ ⟨b, hb⟩

theorem shift_step (b i : Nat) : ((b * 2 ^ i % 256) <<< 1) % 256 = b * 2 ^ (i + 1) % 256 := by
  simp only [Nat.shiftLeft_eq, pow_succ, pow_zero, one_mul, ← Nat.mul_assoc]
  generalize b * 2 ^ i = x
  omega

theorem runs_set_SDA_PIN (v : Bool) (s : St) : Runs s [.sdaPin v] (set_SDA_PIN v s) :=
  Runs.emit s _ rfl rfl

theorem runs_evSda (c : Prop) [Decidable c] (s : St) :
    Runs s (evSda (decide c))
      (set_SDA_PIN false (if c then SW_SDA_1 s else set_SDA_TRIS false s)) := by
  by_cases h : c
  · simpa [h, evSda, evSdaReleaseLatched, evSdaRelease] using
      (runs_SW_SDA_1 s).trans (runs_set_SDA_PIN false _)
  · simpa [h, evSda] using runs_SW_SDA_0 s

theorem i2c_sw_writeByte_bit_ok (env : Bus) (fuel dato : Nat) (s : St) (p : Nat × St)
    (h : i2c_sw_writeByte_bit env fuel dato s = .ok p) :
    ∃ n, n < fuel ∧ p.1 = (dato <<< 1) % 256 ∧
      Runs s (evWriteBit (decide (dato &&& 0x80 ≠ 0)) n) p.2 := by
  unfold i2c_sw_writeByte_bit at h
  obtain ⟨u, hu, h⟩ := except_bind_ok h
  obtain ⟨n, hn, hr⟩ := SW_SCL_1_ok env fuel _ u hu
  simp only [pure, Except.pure, Except.ok.injEq] at h
  subst h
  exact ⟨n, hn, rfl, ((((runs_SW_SCL_0 s).trans (runs_delay_us 4 _)).trans
    (runs_evSda _ _)).trans hr).trans (runs_delay_us 4 _)⟩

theorem i2c_sw_writeByte_bit_total (env : Bus) (N fuel dato : Nat) (s : St)
    (hb : StretchBounded env N) (hf : N < fuel) :
    ∃ p, i2c_sw_writeByte_bit env fuel dato s = .ok p := by
  obtain ⟨u, hu⟩ := SW_SCL_1_total env N fuel
    (set_SDA_PIN false (if dato &&& 0x80 ≠ 0 then SW_SDA_1 (delay_us 4 (SW_SCL_0 s))
      else set_SDA_TRIS false (delay_us 4 (SW_SCL_0 s)))) hb hf
  simp only [i2c_sw_writeByte_bit, hu]
  exact ⟨_, rfl⟩

/-- Registers of the data line after one data cycle: released for a 1,
output with a low latch for a 0. -/
theorem replay_evWriteBit_sda (p : Pins) (bit : Bool) (n : Nat) :
    (p.replay (evWriteBit bit n)).sdaTris = bit ∧
      (bit = false → (p.replay (evWriteBit bit n)).sdaLat = false) := by
  cases bit <;>
    simp [evWriteBit, evSda, evSdaLow, evSdaReleaseLatched, evSclLow, evSclRelease,
      Pins.replay_append, Pins.replay_cons, Pins.replay_nil, Pins.replay_polls, Pins.apply]

/-- State of the data loop of `i2c_sw_writeByte` after its `i`-th iteration. -/
theorem i2c_sw_writeByte_loop_ok (env : Bus) (fuel b : Nat) (s : St) (p : Nat × St)
    (hb : b < 256)
    (h : (List.range 8).foldlM
      (fun (p : Nat × St) (_ : Nat) => i2c_sw_writeByte_bit env fuel p.1 p.2) (b, s) = .ok p) :
    ∃ ns : List Nat, ns.length = 8 ∧ (∀ m ∈ ns, m < fuel) ∧
      Runs s (((bitsMSB b).zip ns).flatMap (fun c => evWriteBit c.1 c.2)) p.2 ∧
      p.2.pins.sdaTris = b.testBit 0 ∧ (b.testBit 0 = false → p.2.pins.sdaLat = false) := by
  have key := foldlM_range_ok
    (fun (p : Nat × St) (_ : Nat) => i2c_sw_writeByte_bit env fuel p.1 p.2)
    (fun i a => a.1 = b * 2 ^ i % 256 ∧
      (∃ ns : List Nat, ns.length = i ∧ (∀ m ∈ ns, m < fuel) ∧
        Runs s ((((List.range i).map (fun k => b.testBit (7 - k))).zip ns).flatMap
          (fun c => evWriteBit c.1 c.2)) a.2) ∧
      (0 < i → a.2.pins.sdaTris = b.testBit (8 - i) ∧
        (b.testBit (8 - i) = false → a.2.pins.sdaLat = false)))
    8 (b, s) p
    ⟨by simp [Nat.mod_eq_of_lt hb], ⟨[], rfl, by simp, by simpa using Runs.refl s⟩, by simp⟩
    (by
      intro i a a' hi ⟨hd, ⟨ns, hlen, hlt, hr⟩, _⟩ hstep
      obtain ⟨n, hn, hd', hr'⟩ := i2c_sw_writeByte_bit_ok env fuel a.1 a.2 a' hstep
      rw [hd, shifted_msb b i hb hi] at hr'
      refine ⟨by rw [hd', hd, shift_step], ⟨ns ++ [n], by simp [hlen], ?_, ?_⟩, ?_⟩
      · intro m hm
        rcases List.mem_append.1 hm with hm | hm
        · exact hlt m hm
        · simp at hm; omega
      · rw [List.range_succ, List.map_append, List.zip_append (by simp [hlen]),
          List.flatMap_append]
        simpa using hr.trans hr'
      · intro _
        have := replay_evWriteBit_sda a.2.pins (b.testBit (7 - i)) n
        rw [← hr'.pins] at this
        have e : 8 - (i + 1) = 7 - i := by omega
        rw [e]
        exact this)
    h
  obtain ⟨_, ⟨ns, hlen, hlt, hr⟩, hp⟩ := key
  exact ⟨ns, hlen, hlt, hr, hp (by decide)⟩

theorem i2c_sw_writeByte_loop_total (env : Bus) (N fuel : Nat) (a : Nat × St)
    (hb : StretchBounded env N) (hf : N < fuel) :
    ∃ p, (List.range 8).foldlM
      (fun (p : Nat × St) (_ : Nat) => i2c_sw_writeByte_bit env fuel p.1 p.2) a = .ok p :=
  foldlM_total _ _ _ (fun a _ => i2c_sw_writeByte_bit_total env N fuel a.1 a.2 hb hf)

theorem countP_isRdSda_writeBits (l : List (Bool × Nat)) :
    (l.flatMap (fun c => evWriteBit c.1 c.2)).countP Ev.isRdSda = 0 := by
  induction l with
  | nil => rfl
  | cons c l ih =>
    rw [List.flatMap_cons, List.countP_append, ih]
    rcases c with ⟨bit, n⟩
    cases bit <;>
      simp [evWriteBit, evSda, evSdaLow, evSdaReleaseLatched, evSclLow, evSclRelease, evPolls,
        List.countP_cons, List.countP_replicate, Ev.isRdSda]

/-- Complete description of a byte write that returns: its trace, its
result, and the value `v` returned by its one read of the data pin. -/
theorem i2c_sw_writeByte_ok (env : Bus) (fuel b : Nat) (s t : St) (r : Bool) (hb : b < 256)
    (h : i2c_sw_writeByte env fuel b s = .ok (r, t)) :
    ∃ (ns : List Nat) (v : Bool) (n : Nat), ns.length = 8 ∧ (∀ m ∈ ns, m < fuel) ∧ n < fuel ∧
      Runs s (evWriteByte b ns v n) t ∧ r = !v ∧
      v = (b.testBit 0 && env.sda s.nSda) := by
  unfold i2c_sw_writeByte at h
  obtain ⟨p, hp, h⟩ := except_bind_ok h
  obtain ⟨ns, hlen, hlt, hr, htris, hlat⟩ := i2c_sw_writeByte_loop_ok env fuel b s p hb hp
  obtain ⟨u, hu, h⟩ := except_bind_ok h
  obtain ⟨n, hn, hr'⟩ := SW_SCL_1_ok env fuel _ u hu
  simp only [pure, Except.pure, Except.ok.injEq, Prod.mk.injEq] at h
  obtain ⟨hres, ht⟩ := h
  subst ht
  refine ⟨ns, (get_SDA_PIN env (SW_SCL_0 p.2)).1, n, hlen, hlt, hn, ?_, ?_, ?_⟩
  · have := (((hr.trans (runs_SW_SCL_0 _)).trans (runs_get_SDA_PIN env _)).trans hr').trans
      (runs_SW_SCL_0 _)
    simpa [evWriteByte, evWriteAck, List.append_assoc] using this
  · rw [← hres]
    cases (get_SDA_PIN env (SW_SCL_0 p.2)).1 <;> simp
  · have h1 : (SW_SCL_0 p.2).pins.sdaTris = p.2.pins.sdaTris := rfl
    have h2 : (SW_SCL_0 p.2).pins.sdaLat = p.2.pins.sdaLat := rfl
    have h3 : (SW_SCL_0 p.2).nSda = s.nSda := by
      have := hr.nSda
      rw [countP_isRdSda_writeBits] at this
      simpa [SW_SCL_0, set_SCL_PIN, set_SCL_TRIS, St.emit] using this
    simp only [get_SDA_PIN, h1, h2, h3, htris]
    cases hb0 : b.testBit 0
    · simpa using hlat hb0
    · simp

theorem i2c_sw_writeByte_total (env : Bus) (N fuel b : Nat) (s : St)
    (hb : StretchBounded env N) (hf : N < fuel) :
    ∃ r t, i2c_sw_writeByte env fuel b s = .ok (r, t) := by
  obtain ⟨p, hp⟩ := i2c_sw_writeByte_loop_total env N fuel (b, s) hb hf
  obtain ⟨u, hu⟩ := SW_SCL_1_total env N fuel (get_SDA_PIN env (SW_SCL_0 p.2)).2 hb hf
  simp only [i2c_sw_writeByte, hp, except_ok_bind, hu]
  exact ⟨_, _, rfl⟩

/-! ## The data line moves only while the clock is driven low -/

theorem sdaWritesWhileSclLow_append (p : Pins) (a b : List Ev) :
    sdaWritesWhileSclLow p (a ++ b) =
      (sdaWritesWhileSclLow p a && sdaWritesWhileSclLow (p.replay a) b) := by
  induction a generalizing p with
  | nil => simp [sdaWritesWhileSclLow, Pins.replay_nil]
  | cons e a ih => simp [sdaWritesWhileSclLow, ih, Pins.replay_cons, Bool.and_assoc]

theorem sdaWritesWhileSclLow_polls (p : Pins) (n : Nat) :
    sdaWritesWhileSclLow p (evPolls n) = true := by
  induction n with
  | zero => simp [evPolls, sdaWritesWhileSclLow, Ev.isSdaWrite]
  | succ n ih =>
    simpa [evPolls, List.replicate_succ, sdaWritesWhileSclLow, Ev.isSdaWrite, Pins.apply]
      using ih

theorem sdaWritesWhileSclLow_writeBit (p : Pins) (bit : Bool) (n : Nat) :
    sdaWritesWhileSclLow p (evWriteBit bit n) = true := by
  cases bit <;>
    simp [evWriteBit, evSda, evSdaLow, evSdaReleaseLatched, evSclLow, evSclRelease,
      sdaWritesWhileSclLow, sdaWritesWhileSclLow_append, sdaWritesWhileSclLow_polls,
      Ev.isSdaWrite, Pins.apply]

theorem sdaWritesWhileSclLow_writeBits (p : Pins) (l : List (Bool × Nat)) :
    sdaWritesWhileSclLow p (l.flatMap (fun c => evWriteBit c.1 c.2)) = true := by
  induction l generalizing p with
  | nil => rfl
  | cons c l ih =>
    rw [List.flatMap_cons, sdaWritesWhileSclLow_append, sdaWritesWhileSclLow_writeBit, ih]
    rfl

theorem sdaWritesWhileSclLow_writeByte (p : Pins) (b : Nat) (ns : List Nat) (v : Bool)
    (n : Nat) : sdaWritesWhileSclLow p (evWriteByte b ns v n) = true := by
  rw [evWriteByte, sdaWritesWhileSclLow_append, sdaWritesWhileSclLow_writeBits]
  simp [evWriteAck, evSclLow, evSclRelease, sdaWritesWhileSclLow,
    sdaWritesWhileSclLow_append, sdaWritesWhileSclLow_polls, Ev.isSdaWrite]

/-! ## Levels placed on the data line at the clock releases -/

theorem sdaLevels_append (p : Pins) (a b : List Ev) :
    sdaLevelsAtClockRelease p (a ++ b) =
      sdaLevelsAtClockRelease p a ++ sdaLevelsAtClockRelease (p.replay a) b := by
  induction a generalizing p with
  | nil => simp [sdaLevelsAtClockRelease, Pins.replay_nil]
  | cons e a ih => simp [sdaLevelsAtClockRelease, ih, Pins.replay_cons]

theorem sdaLevels_polls (p : Pins) (n : Nat) : sdaLevelsAtClockRelease p (evPolls n) = [] := by
  induction n with
  | zero => simp [evPolls, sdaLevelsAtClockRelease]
  | succ n ih =>
    simpa [evPolls, List.replicate_succ, sdaLevelsAtClockRelease, Pins.apply] using ih

theorem sdaLevels_writeBit (p : Pins) (bit : Bool) (n : Nat) :
    sdaLevelsAtClockRelease p (evWriteBit bit n) = [bit] := by
  cases bit <;>
    simp [evWriteBit, evSda, evSdaLow, evSdaReleaseLatched, evSclLow, evSclRelease,
      sdaLevelsAtClockRelease, sdaLevels_append, sdaLevels_polls, Pins.apply,
      Pins.sdaPlaced]

theorem sdaLevels_writeBits (p : Pins) (l : List (Bool × Nat)) :
    sdaLevelsAtClockRelease p (l.flatMap (fun c => evWriteBit c.1 c.2)) = l.map Prod.fst := by
  induction l generalizing p with
  | nil => rfl
  | cons c l ih =>
    rw [List.flatMap_cons, sdaLevels_append, sdaLevels_writeBit, ih]
    rfl

/-- The levels that a byte write places on the data line at its nine clock
releases: the eight bits of `b`, most significant first, then the level left
for the acknowledgment pulse. -/
theorem sdaLevels_writeByte (p : Pins) (b : Nat) (ns : List Nat) (v : Bool) (n : Nat)
    (hlen : ns.length = 8) :
    (sdaLevelsAtClockRelease p (evWriteByte b ns v n)).take 8 = bitsMSB b := by
  have hb : (bitsMSB b).length = 8 := by simp [bitsMSB]
  rw [evWriteByte, sdaLevels_append, sdaLevels_writeBits,
    List.map_fst_zip _ _ (by rw [hb, hlen]), List.take_append_of_le_length (by rw [hb])]
  exact List.take_of_length_le (by rw [hb])

theorem stretchBounded_busIdle : StretchBounded busIdle 0 :=
  fun _ => ⟨0, Nat.le_refl 0, rfl⟩

theorem stretchBounded_busSlow : StretchBounded busSlow 2 := by
  intro k
  have h3 : k % 3 = 0 ∨ k % 3 = 1 ∨ k % 3 = 2 := by omega
  rcases h3 with h3 | h3 | h3
  · exact ⟨2, by decide, by simp [busSlow]; omega⟩
  · exact ⟨1, by decide, by simp [busSlow]; omega⟩
  · exact ⟨0, by decide, by simp [busSlow]; omega⟩

/-! ## Claims on `i2c_sw_writeByte` -/

/-- C1: for every byte `b`, every run of `i2c_sw_writeByte` that returns has
performed eight data clock cycles followed by the acknowledgment phase; cycle
`k` is: clock driven low, delay, data line set to bit `7 - k` of `b`
(released to input for a 1, driven low for a 0), clock released high, delay;
so the level on the data line at the `k`-th clock release is bit `7 - k`, the
most significant bit first.  Every write to the data line happens while the
clock pin is an output driving low.  The function returns whenever each clock release is answered within the
poll budget. -/
theorem i2c_sw_writeByte_msb_first (env : Bus) (fuel b : Nat) (s : St) (hb : b < 256) :
    (∀ r t, i2c_sw_writeByte env fuel b s = .ok (r, t) →
      ∃ (ns : List Nat) (v : Bool) (n : Nat), ns.length = 8 ∧
        t.trace = s.trace ++ evWriteByte b ns v n ∧
        (sdaLevelsAtClockRelease s.pins (evWriteByte b ns v n)).take 8 = bitsMSB b ∧
        sdaWritesWhileSclLow s.pins (evWriteByte b ns v n) = true) ∧
    (∀ N, StretchBounded env N → N < fuel →
      ∃ r t, i2c_sw_writeByte env fuel b s = .ok (r, t)) := by
  refine ⟨?_, fun N hs hf => i2c_sw_writeByte_total env N fuel b s hs hf⟩
  intro r t h
  obtain ⟨ns, v, n, hlen, _, _, hr, _, _⟩ := i2c_sw_writeByte_ok env fuel b s t r hb h
  exact ⟨ns, v, n, hlen, hr.trace, sdaLevels_writeByte _ _ _ _ _ hlen,
    sdaWritesWhileSclLow_writeByte _ _ _ _ _⟩

/-- Witness of C1: the byte `0xA5` written on an idle bus. -/
theorem i2c_sw_writeByte_msb_first_witness :
    ∃ r t, i2c_sw_writeByte busIdle 1 0xA5 idleSt = .ok (r, t) ∧
      ∃ (ns : List Nat) (v : Bool) (n : Nat), ns.length = 8 ∧
        t.trace = idleSt.trace ++ evWriteByte 0xA5 ns v n ∧
        (sdaLevelsAtClockRelease idleSt.pins (evWriteByte 0xA5 ns v n)).take 8 =
          bitsMSB 0xA5 ∧
        sdaWritesWhileSclLow idleSt.pins (evWriteByte 0xA5 ns v n) = true := by
  have h := i2c_sw_writeByte_msb_first busIdle 1 0xA5 idleSt (by decide)
  obtain ⟨r, t, hrt⟩ := h.2 0 stretchBounded_busIdle (by decide)
  exact ⟨r, t, hrt, h.1 r t hrt⟩

/-- C2: for every byte `b`, a run of `i2c_sw_writeByte` reads the data pin
exactly once, in the acknowledgment phase after the eighth data cycle, and
returns the complement of the level `v` that this read returned: true exactly
when it read low, false exactly when it read high. -/
theorem i2c_sw_writeByte_returns_complement (env : Bus) (fuel b : Nat) (s : St)
    (hb : b < 256) :
    (∀ r t, i2c_sw_writeByte env fuel b s = .ok (r, t) →
      ∃ (ns : List Nat) (v : Bool) (n : Nat), ns.length = 8 ∧
        t.trace = s.trace ++ evWriteByte b ns v n ∧
        (r = true ↔ v = false) ∧ (r = false ↔ v = true)) ∧
    (∀ N, StretchBounded env N → N < fuel →
      ∃ r t, i2c_sw_writeByte env fuel b s = .ok (r, t)) := by
  refine ⟨?_, fun N hs hf => i2c_sw_writeByte_total env N fuel b s hs hf⟩
  intro r t h
  obtain ⟨ns, v, n, hlen, _, _, hr, hrv, _⟩ := i2c_sw_writeByte_ok env fuel b s t r hb h
  refine ⟨ns, v, n, hlen, hr.trace, ?_, ?_⟩ <;> cases v <;> simp [hrv]

/-- Witness of C2: the byte `0xA5` written to a receiver that acknowledges. -/
theorem i2c_sw_writeByte_returns_complement_witness :
    ∃ r t, i2c_sw_writeByte busAck 1 0xA5 idleSt = .ok (r, t) ∧
      ∃ (ns : List Nat) (v : Bool) (n : Nat), ns.length = 8 ∧
        t.trace = idleSt.trace ++ evWriteByte 0xA5 ns v n ∧
        (r = true ↔ v = false) ∧ (r = false ↔ v = true) := by
  have h := i2c_sw_writeByte_returns_complement busAck 1 0xA5 idleSt (by decide)
  obtain ⟨r, t, hrt⟩ := h.2 0 (fun _ => ⟨0, Nat.le_refl 0, rfl⟩) (by decide)
  exact ⟨r, t, hrt, h.1 r t hrt⟩

/-- C3 (defect in the code): `i2c_sw_writeByte` does not release the data
line before it reads the acknowledgment bit.  For every byte whose
least-significant bit is 0 the data pin is still an output driving low at
that read, so the read returns low and the call reports an acknowledgment
whatever the receiver does; for a byte whose least-significant bit is 1 the
read returns the external level. -/
theorem i2c_sw_writeByte_ack_read_not_released (env : Bus) (fuel b : Nat) (s t : St)
    (r : Bool) (hb : b < 256) (h : i2c_sw_writeByte env fuel b s = .ok (r, t)) :
    r = !(b.testBit 0 && env.sda s.nSda) ∧ (b.testBit 0 = false → r = true) := by
  obtain ⟨ns, v, n, _, _, _, _, hrv, hv⟩ := i2c_sw_writeByte_ok env fuel b s t r hb h
  subst hv
  refine ⟨hrv, fun h0 => ?_⟩
  simp [hrv, h0]

/-- Witness of C3: on a bus whose receiver never acknowledges, writing `0xA4`
reports an acknowledgment. -/
theorem i2c_sw_writeByte_ack_read_not_released_witness :
    ∃ t, i2c_sw_writeByte busIdle 1 0xA4 idleSt = .ok (true, t) := by
  obtain ⟨r, t, h⟩ := i2c_sw_writeByte_total busIdle 0 1 0xA4 idleSt
    stretchBounded_busIdle (by decide)
  have hr := (i2c_sw_writeByte_ack_read_not_released busIdle 1 0xA4 idleSt t r
    (by decide) h).2 (by decide)
  subst hr
  exact ⟨t, h⟩

/-- C4 (the code contradicts its documentation): the `@return` comment says
that 0 indicates ACK and 1 indicates NACK, but the function returns
`!ack_bit`: with a receiver that acknowledges (data line low) it returns
true, and with one that does not (data line high) it returns false. -/
theorem i2c_sw_writeByte_returns_true_on_ack :
    (i2c_sw_writeByte busAck 1 0xA5 idleSt).map Prod.fst = .ok true ∧
    (i2c_sw_writeByte busIdle 1 0xA5 idleSt).map Prod.fst = .ok false := by
  decide

/-! ## Byte read -/

theorem i2c_sw_readByte_bit_ok (env : Bus) (fuel dato : Nat) (s : St) (i : Nat)
    (p : Nat × St) (h : i2c_sw_readByte_bit env fuel dato s i = .ok p) :
    ∃ (n : Nat) (v : Bool), n < fuel ∧ Runs s (evReadBit n v) p.2 ∧
      p.1 = (let d := if v then dato ||| 0x01 else dato
             if i < 7 then (d <<< 1) % 256 else d) := by
  unfold i2c_sw_readByte_bit at h
  obtain ⟨u, hu, h⟩ := except_bind_ok h
  obtain ⟨n, hn, hr⟩ := SW_SCL_1_ok env fuel _ u hu
  simp only [pure, Except.pure, Except.ok.injEq] at h
  subst h
  exact ⟨n, (get_SDA_PIN env (delay_us 4 u)).1, hn,
    ((((runs_SW_SCL_0 s).trans (runs_delay_us 4 _)).trans hr).trans
      (runs_delay_us 4 _)).trans (runs_get_SDA_PIN env _), rfl⟩

theorem i2c_sw_readByte_bit_total (env : Bus) (N fuel dato : Nat) (s : St) (i : Nat)
    (hb : StretchBounded env N) (hf : N < fuel) :
    ∃ p, i2c_sw_readByte_bit env fuel dato s i = .ok p := by
  obtain ⟨u, hu⟩ := SW_SCL_1_total env N fuel (delay_us 4 (SW_SCL_0 s)) hb hf
  simp only [i2c_sw_readByte_bit, hu]
  exact ⟨_, rfl⟩

theorem msbAcc_append (vs : List Bool) (v : Bool) :
    msbAcc (vs ++ [v]) = 2 * msbAcc vs + v.toNat := by
  simp [msbAcc, List.foldl_append]

theorem msbAcc_lt (vs : List Bool) : msbAcc vs < 2 ^ vs.length := by
  induction vs using List.reverseRecOn with
  | nil => simp [msbAcc]
  | append_singleton vs v ih =>
    rw [msbAcc_append, List.length_append, List.length_singleton, pow_succ]
    cases v <;> simp <;> omega

set_option maxRecDepth 100000 in
theorem lor_one_even : ∀ a : Fin 128, (2 * a.val) ||| 0x01 = 2 * a.val + 1 := by
  decide

/-- One step of the accumulation in `i2c_sw_readByte`. -/
theorem readByte_acc_step (acc i : Nat) (v : Bool) (hacc : acc < 2 ^ i) (hi : i < 8) :
    (let d := if v then (2 * acc) ||| 0x01 else 2 * acc
     if i < 7 then (d <<< 1) % 256 else d) =
      if i + 1 < 8 then 2 * (2 * acc + v.toNat) else 2 * acc + v.toNat := by
  have h128 : acc < 128 := by
    calc acc < 2 ^ i := hacc
      _ ≤ 2 ^ 7 := Nat.pow_le_pow_right (by decide) (by omega)
      _ = 128 := by norm_num
  have hor : (2 * acc) ||| 0x01 = 2 * acc + 1 := lor_one_even ⟨acc, h128⟩
  have hd : (if v then (2 * acc) ||| 0x01 else 2 * acc) = 2 * acc + v.toNat := by
    cases v <;> simp [hor]
  simp only [hd, Nat.shiftLeft_eq, pow_one]
  by_cases h7 : i < 7
  · have h64 : acc < 64 := by
      calc acc < 2 ^ i := hacc
        _ ≤ 2 ^ 6 := Nat.pow_le_pow_right (by decide) (by omega)
        _ = 64 := by norm_num
    have hv : v.toNat ≤ 1 := by cases v <;> simp
    have h8 : i + 1 < 8 := by omega
    simp only [h7, h8, if_true]
    omega
  · have h8 : ¬ (i + 1 < 8) := by omega
    simp only [h7, h8, if_false]

theorem i2c_sw_readByte_loop_ok (env : Bus) (fuel : Nat) (s : St) (p : Nat × St)
    (h : (List.range 8).foldlM
      (fun (p : Nat × St) (i : Nat) => i2c_sw_readByte_bit env fuel p.1 p.2 i) (0, s) = .ok p) :
    ∃ cs : List (Nat × Bool), cs.length = 8 ∧ (∀ c ∈ cs, c.1 < fuel) ∧
      Runs s (cs.flatMap (fun c => evReadBit c.1 c.2)) p.2 ∧
      p.1 = msbAcc (cs.map Prod.snd) := by
  have key := foldlM_range_ok
    (fun (p : Nat × St) (i : Nat) => i2c_sw_readByte_bit env fuel p.1 p.2 i)
    (fun i a => ∃ cs : List (Nat × Bool), cs.length = i ∧ (∀ c ∈ cs, c.1 < fuel) ∧
      Runs s (cs.flatMap (fun c => evReadBit c.1 c.2)) a.2 ∧
      a.1 = if i < 8 then 2 * msbAcc (cs.map Prod.snd) else msbAcc (cs.map Prod.snd))
    8 (0, s) p
    ⟨[], rfl, by simp, by simpa using Runs.refl s, by simp [msbAcc]⟩
    (by
      intro i a a' hi ⟨cs, hlen, hlt, hr, hd⟩ hstep
      obtain ⟨n, v, hn, hr', hd'⟩ := i2c_sw_readByte_bit_ok env fuel a.1 a.2 i a' hstep
      refine ⟨cs ++ [(n, v)], by simp [hlen], ?_, ?_, ?_⟩
      · intro c hc
        rcases List.mem_append.1 hc with hc | hc
        · exact hlt c hc
        · simp at hc; subst hc; exact hn
      · rw [List.flatMap_append]
        simpa using hr.trans hr'
      · have hacc : msbAcc (cs.map Prod.snd) < 2 ^ i := by
          have := msbAcc_lt (cs.map Prod.snd)
          simpa [hlen] using this
        rw [hd', hd, if_pos hi, List.map_append, List.map_singleton, msbAcc_append]
        exact readByte_acc_step _ i v hacc hi)
    h
  obtain ⟨cs, hlen, hlt, hr, hd⟩ := key
  exact ⟨cs, hlen, hlt, hr, by simpa using hd⟩

/-- Complete description of a byte read that returns. -/
theorem i2c_sw_readByte_ok (env : Bus) (fuel : Nat) (ack : Bool) (s t : St) (r : Nat)
    (h : i2c_sw_readByte env fuel ack s = .ok (r, t)) :
    ∃ (cs : List (Nat × Bool)) (n : Nat), cs.length = 8 ∧ (∀ c ∈ cs, c.1 < fuel) ∧ n < fuel ∧
      Runs s (evReadByte cs ack n) t ∧ r = msbAcc (cs.map Prod.snd) := by
  unfold i2c_sw_readByte at h
  obtain ⟨p, hp, h⟩ := except_bind_ok h
  obtain ⟨cs, hlen, hlt, hr, hd⟩ := i2c_sw_readByte_loop_ok env fuel s p hp
  obtain ⟨u, hu, h⟩ := except_bind_ok h
  obtain ⟨n, hn, hr'⟩ := SW_SCL_1_ok env fuel _ u hu
  simp only [pure, Except.pure, Except.ok.injEq, Prod.mk.injEq] at h
  obtain ⟨hres, ht⟩ := h
  subst ht
  refine ⟨cs, n, hlen, hlt, hn, ?_, by rw [← hres, hd]⟩
  have hsda : Runs (delay_us 4 (SW_SCL_0 p.2)) (evSda (!ack))
      (set_SDA_PIN false (if ack = false then SW_SDA_1 (delay_us 4 (SW_SCL_0 p.2))
        else set_SDA_TRIS false (delay_us 4 (SW_SCL_0 p.2)))) := by
    have := runs_evSda (ack = false) (delay_us 4 (SW_SCL_0 p.2))
    cases ack <;> simpa using this
  have := (((((((((hr.trans (runs_SW_SCL_0 _)).trans (runs_delay_us 4 _)).trans hsda).trans
    (runs_delay_us 4 _)).trans hr').trans (runs_delay_us 4 _)).trans
    (runs_SW_SCL_0 _)).trans (runs_delay_us 4 _)).trans (runs_SW_SDA_1 _)).trans
    (runs_delay_us 4 _)
  simpa [evReadByte, evReadAck, List.append_assoc] using this

theorem i2c_sw_readByte_total (env : Bus) (N fuel : Nat) (ack : Bool) (s : St)
    (hb : StretchBounded env N) (hf : N < fuel) :
    ∃ r t, i2c_sw_readByte env fuel ack s = .ok (r, t) := by
  obtain ⟨p, hp⟩ := foldlM_total
    (fun (p : Nat × St) (i : Nat) => i2c_sw_readByte_bit env fuel p.1 p.2 i) (List.range 8)
    (0, s) (fun a i => i2c_sw_readByte_bit_total env N fuel a.1 a.2 i hb hf)
  obtain ⟨u, hu⟩ := SW_SCL_1_total env N fuel
    (delay_us 4 (set_SDA_PIN false (if ack = false then SW_SDA_1 (delay_us 4 (SW_SCL_0 p.2))
      else set_SDA_TRIS false (delay_us 4 (SW_SCL_0 p.2))))) hb hf
  simp only [i2c_sw_readByte, hp, except_ok_bind, hu]
  exact ⟨_, _, rfl⟩

theorem newEvents_of_trace {s t : St} {evs : List Ev} (h : t.trace = s.trace ++ evs) :
    newEvents s t = evs := by
  simp [newEvents, h]

theorem sdaSamples_append (a b : List Ev) :
    sdaSamples (a ++ b) = sdaSamples a ++ sdaSamples b := by
  simp [sdaSamples, List.filterMap_append]

theorem sdaSamples_polls (n : Nat) : sdaSamples (evPolls n) = [] := by
  induction n with
  | zero => rfl
  | succ n _ =>
    simp [evPolls, List.replicate_succ, sdaSamples, List.filterMap_cons]

theorem sdaSamples_readBit (n : Nat) (v : Bool) : sdaSamples (evReadBit n v) = [v] := by
  have := sdaSamples_polls n
  simp only [evReadBit, evSclLow, evSclRelease, sdaSamples_append]
  simp only [sdaSamples, List.filterMap_cons, List.filterMap_nil] at this ⊢
  simp [this]

theorem sdaSamples_readBits (cs : List (Nat × Bool)) :
    sdaSamples (cs.flatMap (fun c => evReadBit c.1 c.2)) = cs.map Prod.snd := by
  induction cs with
  | nil => rfl
  | cons c cs ih =>
    rw [List.flatMap_cons, sdaSamples_append, sdaSamples_readBit, ih]
    rfl

theorem sdaSamples_readAck (ack : Bool) (n : Nat) : sdaSamples (evReadAck ack n) = [] := by
  have := sdaSamples_polls n
  cases ack <;>
    simp only [evReadAck, evSclLow, evSclRelease, evSda, evSdaLow, evSdaRelease,
      evSdaReleaseLatched, sdaSamples_append] <;>
    simp only [sdaSamples, List.filterMap_cons, List.filterMap_nil] at this ⊢ <;>
    simp [this]

theorem sdaSamples_readByte (cs : List (Nat × Bool)) (ack : Bool) (n : Nat) :
    sdaSamples (evReadByte cs ack n) = cs.map Prod.snd := by
  rw [evReadByte, sdaSamples_append, sdaSamples_readBits, sdaSamples_readAck,
    List.append_nil]

theorem list_length_eight {α : Type} (l : List α) (h : l.length = 8) :
    ∃ a b c d e f g k, l = [a, b, c, d, e, f, g, k] := by
  match l, h with
  | [a, b, c, d, e, f, g, k], _ => exact ⟨a, b, c, d, e, f, g, k, rfl⟩

set_option maxRecDepth 100000 in
theorem msbAcc_eight : ∀ a b c d e f g k : Bool,
    msbAcc [a, b, c, d, e, f, g, k] = byteOfSamples [a, b, c, d, e, f, g, k] ∧
    ∀ j : Fin 8, (msbAcc [a, b, c, d, e, f, g, k]).testBit (7 - j.val) =
      [a, b, c, d, e, f, g, k].getD j.val false := by
  decide

set_option maxRecDepth 100000 in
theorem msbAcc_bitsMSB : ∀ b : Fin 256, msbAcc (bitsMSB b.val) = b.val := by
  decide

/-! ## Claims on `i2c_sw_readByte` -/

/-- C5: for either value of `ack`, a run of `i2c_sw_readByte` takes exactly
eight samples `s0..s7` of the data pin and returns the byte whose bit
`7 - k` is `s_k`, that is the sum of `s_k * 2^(7-k)`: the first bit sampled
is the most significant one.  The function returns whenever each clock
release is answered within the poll budget. -/
theorem i2c_sw_readByte_msb_first (env : Bus) (fuel : Nat) (ack : Bool) (s : St) :
    (∀ r t, i2c_sw_readByte env fuel ack s = .ok (r, t) →
      ∃ vs : List Bool, vs.length = 8 ∧ sdaSamples (newEvents s t) = vs ∧
        r = byteOfSamples vs ∧ ∀ k, k < 8 → r.testBit (7 - k) = vs.getD k false) ∧
    (∀ N, StretchBounded env N → N < fuel →
      ∃ r t, i2c_sw_readByte env fuel ack s = .ok (r, t)) := by
  refine ⟨?_, fun N hs hf => i2c_sw_readByte_total env N fuel ack s hs hf⟩
  intro r t h
  obtain ⟨cs, n, hlen, _, _, hr, hres⟩ := i2c_sw_readByte_ok env fuel ack s t r h
  refine ⟨cs.map Prod.snd, by simp [hlen], ?_, ?_⟩
  · rw [newEvents_of_trace hr.trace, sdaSamples_readByte]
  · obtain ⟨a, b, c, d, e, f, g, k, hvs⟩ :=
      list_length_eight (cs.map Prod.snd) (by simp [hlen])
    rw [hres, hvs]
    have := msbAcc_eight a b c d e f g k
    exact ⟨this.1, fun j hj => this.2 ⟨j, hj⟩⟩

/-- Witness of C5: reading a line that shows the bits of `0xA5`, with a
clock that is stretched by two polls at every release. -/
theorem i2c_sw_readByte_msb_first_witness :
    ∃ r t, i2c_sw_readByte busSlow 3 true idleSt = .ok (r, t) ∧
      ∃ vs : List Bool, vs.length = 8 ∧ sdaSamples (newEvents idleSt t) = vs ∧
        r = byteOfSamples vs ∧ ∀ k, k < 8 → r.testBit (7 - k) = vs.getD k false := by
  have h := i2c_sw_readByte_msb_first busSlow 3 true idleSt
  obtain ⟨r, t, hrt⟩ := h.2 2 stretchBounded_busSlow (by decide)
  exact ⟨r, t, hrt, h.1 r t hrt⟩

/-- Registers after the acknowledgment phase of a byte read, whatever they
were before: data pin an input, clock pin an output driving low. -/
theorem replay_evReadAck (p : Pins) (ack : Bool) (n : Nat) :
    (p.replay (evReadAck ack n)).sdaTris = true ∧
    (p.replay (evReadAck ack n)).sclTris = false ∧
    (p.replay (evReadAck ack n)).sclLat = false := by
  cases ack <;>
    simp [evReadAck, evSda, evSdaLow, evSdaRelease, evSdaReleaseLatched, evSclLow,
      evSclRelease, Pins.replay_append, Pins.replay_cons, Pins.replay_nil, Pins.replay_polls,
      Pins.apply]

/-- C6: after its eight data cycles `i2c_sw_readByte ack` drives the clock
low and, for the ninth clock pulse, releases the data line when `ack` is
false (NACK) and drives it low when `ack` is true; after the pulse it drives
the clock low and releases the data line.  On return the data pin is an input
and the clock pin is an output driving low, for both values of `ack`. -/
theorem i2c_sw_readByte_ack_phase (env : Bus) (fuel : Nat) (ack : Bool) (s : St) :
    (∀ r t, i2c_sw_readByte env fuel ack s = .ok (r, t) →
      ∃ (cs : List (Nat × Bool)) (n : Nat), cs.length = 8 ∧
        t.trace = s.trace ++ (cs.flatMap (fun c => evReadBit c.1 c.2) ++
          (evSclLow ++ [.delay 4] ++
            (if ack = false then evSdaReleaseLatched else evSdaLow) ++
            [.delay 4] ++ evSclRelease n ++ [.delay 4] ++ evSclLow ++ [.delay 4] ++
            evSdaRelease ++ [.delay 4])) ∧
        t.pins.sdaTris = true ∧ t.pins.sclTris = false ∧ t.pins.sclLat = false) ∧
    (∀ N, StretchBounded env N → N < fuel →
      ∃ r t, i2c_sw_readByte env fuel ack s = .ok (r, t)) := by
  refine ⟨?_, fun N hs hf => i2c_sw_readByte_total env N fuel ack s hs hf⟩
  intro r t h
  obtain ⟨cs, n, hlen, _, _, hr, _⟩ := i2c_sw_readByte_ok env fuel ack s t r h
  refine ⟨cs, n, hlen, ?_, ?_⟩
  · rw [hr.trace, evReadByte, evReadAck]
    cases ack <;> simp [evSda]
  · rw [hr.pins, evReadByte, Pins.replay_append]
    exact replay_evReadAck _ ack n

/-- Witness of C6: a read answered with NACK on an idle bus. -/
theorem i2c_sw_readByte_ack_phase_witness :
    ∃ r t, i2c_sw_readByte busIdle 1 false idleSt = .ok (r, t) ∧
      t.pins.sdaTris = true ∧ t.pins.sclTris = false ∧ t.pins.sclLat = false := by
  have h := i2c_sw_readByte_ack_phase busIdle 1 false idleSt
  obtain ⟨r, t, hrt⟩ := h.2 0 stretchBounded_busIdle (by decide)
  obtain ⟨_, _, _, _, hp⟩ := h.1 r t hrt
  exact ⟨r, t, hrt, hp⟩

/-! ## Two-wire loopback -/

/-- C7: two-wire loopback round trip.  For every byte `b`, if the eight
levels sampled by a run of `i2c_sw_readByte` are, in order, the eight levels
that a run of `i2c_sw_writeByte b` placed on the data line at its data clock
cycles (released is high, driven low is low), then `i2c_sw_readByte` returns
`b`. -/
theorem i2c_sw_loopback_round_trip (envW envR : Bus) (fuelW fuelR b : Nat) (ack : Bool)
    (sW tW sR tR : St) (rW : Bool) (r : Nat) (hb : b < 256)
    (hw : i2c_sw_writeByte envW fuelW b sW = .ok (rW, tW))
    (hr : i2c_sw_readByte envR fuelR ack sR = .ok (r, tR))
    (hloop : sdaSamples (newEvents sR tR) =
      (sdaLevelsAtClockRelease sW.pins (newEvents sW tW)).take 8) :
    r = b := by
  obtain ⟨ns, v, n, hlen, _, _, hrW, _, _⟩ := i2c_sw_writeByte_ok envW fuelW b sW tW rW hb hw
  obtain ⟨cs, m, _, _, _, hrR, hres⟩ := i2c_sw_readByte_ok envR fuelR ack sR tR r hr
  rw [newEvents_of_trace hrW.trace, newEvents_of_trace hrR.trace, sdaSamples_readByte,
    sdaLevels_writeByte _ _ _ _ _ hlen] at hloop
  rw [hres, hloop]
  exact msbAcc_bitsMSB ⟨b, hb⟩

/-- Witness of C7: `0xA5` written on an idle bus, and read back from a data
line that shows the levels the write placed. -/
theorem i2c_sw_loopback_round_trip_witness :
    (i2c_sw_readByte (busEcho 0xA5) 1 true idleSt).map Prod.fst = .ok 0xA5 := by
  obtain ⟨rW, tW, hW⟩ := i2c_sw_writeByte_total busIdle 0 1 0xA5 idleSt
    stretchBounded_busIdle (by decide)
  obtain ⟨r, tR, hR⟩ := i2c_sw_readByte_total (busEcho 0xA5) 0 1 true idleSt
    (fun _ => ⟨0, Nat.le_refl 0, rfl⟩) (by decide)
  have htW : tW = finalSt (i2c_sw_writeByte busIdle 1 0xA5 idleSt) := by rw [hW]; rfl
  have htR : tR = finalSt (i2c_sw_readByte (busEcho 0xA5) 1 true idleSt) := by rw [hR]; rfl
  have := i2c_sw_loopback_round_trip busIdle (busEcho 0xA5) 1 1 0xA5 true idleSt tW idleSt tR
    rW r (by decide) hW hR (by rw [htW, htR]; decide)
  rw [hR, this]
  rfl

/-! ## Start and stop conditions -/

/-- C8 as stated fails: the specified sequence ends with a delay after the
clock is driven low, whatever the lengths of the delays; the trace of
`i2c_sw_start` on an idle bus ends with the write that drives the clock low. -/
theorem i2c_sw_start_not_as_specified :
    ¬ ∃ (t : St) (n d₁ d₂ d₃ d₄ : Nat), i2c_sw_start busIdle 1 idleSt = .ok t ∧
      t.trace = idleSt.trace ++ evStartAsSpecified n d₁ d₂ d₃ d₄ := by
  rintro ⟨t, n, d₁, d₂, d₃, d₄, h, htr⟩
  obtain ⟨m, _, hr⟩ := i2c_sw_start_ok busIdle 1 idleSt t h
  have e := hr.trace.symm.trans htr
  have e' := List.append_cancel_left e
  have hlast : evStart m =
      (evSdaRelease ++ [.delay 4] ++ evSclRelease m ++ [.delay 4] ++ evSdaLow ++ [.delay 4] ++
        [.sclTris false]) ++ [.sclPin false] := by
    simp [evStart, evSclLow]
  rw [hlast, evStartAsSpecified] at e'
  have := List.append_inj_right' e' rfl
  simp at this

/-- C8 (amended): `i2c_sw_start` performs exactly this sequence and nothing
else: release data high, delay, release clock high (polling the clock pin
until it reads high), delay, drive data low, delay, drive clock low; there is
no delay after the clock is driven low.  The clock pin is an input when the
data line is driven low.  The function returns whenever the clock release is
answered within the poll budget. -/
theorem i2c_sw_start_sequence (env : Bus) (fuel : Nat) (s : St) :
    (∀ t, i2c_sw_start env fuel s = .ok t →
      ∃ n, t.trace = s.trace ++ (evSdaRelease ++ [.delay 4] ++ evSclRelease n ++ [.delay 4] ++
          evSdaLow ++ [.delay 4] ++ evSclLow) ∧
        (s.pins.replay (evSdaRelease ++ [.delay 4] ++ evSclRelease n ++
          [.delay 4])).sclTris = true) ∧
    (∀ N, StretchBounded env N → N < fuel → ∃ t, i2c_sw_start env fuel s = .ok t) := by
  refine ⟨?_, fun N hs hf => i2c_sw_start_total env N fuel s hs hf⟩
  intro t h
  obtain ⟨n, _, hr⟩ := i2c_sw_start_ok env fuel s t h
  refine ⟨n, hr.trace, ?_⟩
  simp [evSdaRelease, evSclRelease, Pins.replay_append, Pins.replay_cons, Pins.replay_nil,
    Pins.replay_polls, Pins.apply]

/-- Witness of C8 (amended): a start condition on an idle bus. -/
theorem i2c_sw_start_sequence_witness :
    ∃ t n, i2c_sw_start busIdle 1 idleSt = .ok t ∧
      t.trace = idleSt.trace ++ (evSdaRelease ++ [.delay 4] ++ evSclRelease n ++ [.delay 4] ++
        evSdaLow ++ [.delay 4] ++ evSclLow) := by
  have h := i2c_sw_start_sequence busIdle 1 idleSt
  obtain ⟨t, ht⟩ := h.2 0 stretchBounded_busIdle (by decide)
  obtain ⟨n, hn, _⟩ := h.1 t ht
  exact ⟨t, n, ht, hn⟩

/-- C9: `i2c_sw_stop` performs exactly this sequence: drive data low, delay,
release clock high (polling the clock pin until it reads high), delay,
release data high, delay.  When the data line is released it was driven low
and the clock pin is an input, so the data line goes from low to high while
the clock is released; on return both pins are inputs.  The function returns
whenever the clock release is answered within the poll budget. -/
theorem i2c_sw_stop_sequence (env : Bus) (fuel : Nat) (s : St) :
    (∀ t, i2c_sw_stop env fuel s = .ok t →
      ∃ n, t.trace = s.trace ++ (evSdaLow ++ [.delay 4] ++ evSclRelease n ++ [.delay 4] ++
          evSdaRelease ++ [.delay 4]) ∧
        (s.pins.replay (evSdaLow ++ [.delay 4] ++ evSclRelease n ++ [.delay 4])) =
          ⟨false, false, true, s.pins.sclLat⟩ ∧
        t.pins.sdaTris = true ∧ t.pins.sclTris = true) ∧
    (∀ N, StretchBounded env N → N < fuel → ∃ t, i2c_sw_stop env fuel s = .ok t) := by
  refine ⟨?_, fun N hs hf => i2c_sw_stop_total env N fuel s hs hf⟩
  intro t h
  obtain ⟨n, _, hr⟩ := i2c_sw_stop_ok env fuel s t h
  refine ⟨n, hr.trace, ?_, ?_⟩
  · simp [evSdaLow, evSclRelease, Pins.replay_append, Pins.replay_cons, Pins.replay_nil,
      Pins.replay_polls, Pins.apply]
  · rw [hr.pins]
    simp [evStop, evSdaLow, evSdaRelease, evSclRelease, Pins.replay_append, Pins.replay_cons,
      Pins.replay_nil, Pins.replay_polls, Pins.apply]

/-- Witness of C9: a stop condition on a bus whose clock is stretched. -/
theorem i2c_sw_stop_sequence_witness :
    ∃ t, i2c_sw_stop busSlow 3 idleSt = .ok t ∧ t.pins.sdaTris = true ∧
      t.pins.sclTris = true := by
  have h := i2c_sw_stop_sequence busSlow 3 idleSt
  obtain ⟨t, ht⟩ := h.2 2 stretchBounded_busSlow (by decide)
  obtain ⟨_, _, _, hp⟩ := h.1 t ht
  exact ⟨t, ht, hp⟩

/-! ## Open-drain discipline -/

theorem lowWritesOnly_append (a b : List Ev) :
    lowWritesOnly (a ++ b) = (lowWritesOnly a && lowWritesOnly b) := by
  simp [lowWritesOnly, List.all_append]

/-- Writes of a low level cannot raise a line: with no high write, every
rise of a line is a switch of its pin to input. -/
theorem risesOnlyByRelease_of_low (p : Pins) (evs : List Ev)
    (h : lowWritesOnly evs = true) : risesOnlyByRelease p evs = true := by
  induction evs generalizing p with
  | nil => rfl
  | cons e es ih =>
    simp only [lowWritesOnly, List.all_cons, Bool.and_eq_true] at h
    simp only [risesOnlyByRelease, Bool.and_eq_true]
    refine ⟨?_, ih _ (by simpa [lowWritesOnly] using h.2)⟩
    obtain ⟨a, b, c, d⟩ := p
    cases e with
    | sdaTris v =>
      cases v <;> cases a <;> cases b <;> cases c <;> cases d <;>
        simp [Pins.apply, Pins.sdaPlaced, Pins.sclPlaced]
    | sdaPin v =>
      cases v <;> cases a <;> cases b <;> cases c <;> cases d <;>
        simp [Pins.apply, Pins.sdaPlaced, Pins.sclPlaced] at h ⊢
    | sclTris v =>
      cases v <;> cases a <;> cases b <;> cases c <;> cases d <;>
        simp [Pins.apply, Pins.sdaPlaced, Pins.sclPlaced]
    | sclPin v =>
      cases v <;> cases a <;> cases b <;> cases c <;> cases d <;>
        simp [Pins.apply, Pins.sdaPlaced, Pins.sclPlaced] at h ⊢
    | delay us =>
      cases a <;> cases b <;> cases c <;> cases d <;>
        simp [Pins.apply, Pins.sdaPlaced, Pins.sclPlaced]
    | rdSda v =>
      cases a <;> cases b <;> cases c <;> cases d <;>
        simp [Pins.apply, Pins.sdaPlaced, Pins.sclPlaced]
    | rdScl v =>
      cases a <;> cases b <;> cases c <;> cases d <;>
        simp [Pins.apply, Pins.sdaPlaced, Pins.sclPlaced]

theorem OpenDrainRun.idle (s : St) : OpenDrainRun s s :=
  ⟨[], by simp, rfl, rfl⟩

theorem OpenDrainRun.andThen {s t u : St} (h₁ : OpenDrainRun s t) (h₂ : OpenDrainRun t u) :
    OpenDrainRun s u := by
  obtain ⟨a, ha, hla⟩ := h₁
  obtain ⟨b, hb, hlb⟩ := h₂
  have hl : lowWritesOnly (a ++ b) = true := by rw [lowWritesOnly_append, hla.1, hlb.1]; rfl
  exact ⟨a ++ b, by rw [hb, ha, List.append_assoc], hl, risesOnlyByRelease_of_low _ _ hl⟩

theorem OpenDrainRun.of_runs {s t : St} {evs : List Ev} (h : Runs s evs t)
    (hl : lowWritesOnly evs = true) : OpenDrainRun s t :=
  ⟨evs, h.trace, hl, risesOnlyByRelease_of_low _ _ hl⟩

theorem lowWritesOnly_replicate_poll (n : Nat) :
    lowWritesOnly (List.replicate n (.rdScl false)) = true := by
  simp [lowWritesOnly, List.all_replicate]

theorem openDrain_delay_us (us : Nat) (s : St) : OpenDrainRun s (delay_us us s) :=
  .of_runs (runs_delay_us us s) (by simp [lowWritesOnly])

theorem openDrain_SW_SDA_1 (s : St) : OpenDrainRun s (SW_SDA_1 s) :=
  .of_runs (runs_SW_SDA_1 s) (by decide)

theorem openDrain_SW_SDA_0 (s : St) : OpenDrainRun s (SW_SDA_0 s) :=
  .of_runs (runs_SW_SDA_0 s) (by decide)

theorem openDrain_SW_SCL_0 (s : St) : OpenDrainRun s (SW_SCL_0 s) :=
  .of_runs (runs_SW_SCL_0 s) (by decide)

theorem openDrain_get_SDA_PIN (env : Bus) (s : St) : OpenDrainRun s (get_SDA_PIN env s).2 :=
  .of_runs (runs_get_SDA_PIN env s) (by simp [lowWritesOnly])

/-- A clock release writes no level at all, whether its busy-wait ends or not. -/
theorem openDrain_SW_SCL_1 (env : Bus) (fuel : Nat) (s : St) :
    OpenDrainRun s (endSt (SW_SCL_1 env fuel s)) := by
  cases h : SW_SCL_1 env fuel s with
  | error e =>
    refine .of_runs (SW_SCL_1_error env fuel s e h) ?_
    have := lowWritesOnly_replicate_poll fuel
    simp only [lowWritesOnly, List.all_cons] at this ⊢
    simp [this]
  | ok t =>
    obtain ⟨n, _, hr⟩ := SW_SCL_1_ok env fuel s t h
    refine .of_runs hr ?_
    have := lowWritesOnly_replicate_poll n
    simp only [lowWritesOnly, evSclRelease, evPolls, List.all_cons, List.all_append] at this ⊢
    simp [this]

/-- Sequencing rule: a clock release followed by a continuation that
returns no value. -/
theorem openDrain_bind_endSt {s : St} (x : Except St St) (f : St → Except St St)
    (hx : OpenDrainRun s (endSt x)) (hf : ∀ u, OpenDrainRun u (endSt (f u))) :
    OpenDrainRun s (endSt (x >>= f)) := by
  cases x with
  | error e => exact hx
  | ok u => exact hx.andThen (hf u)

/-- Sequencing rule: a clock release followed by a continuation that
returns a value. -/
theorem openDrain_bind_finalSt {β : Type} {s : St} (x : Except St St)
    (f : St → Except St (β × St))
    (hx : OpenDrainRun s (endSt x)) (hf : ∀ u, OpenDrainRun u (finalSt (f u))) :
    OpenDrainRun s (finalSt (x >>= f)) := by
  cases x with
  | error e => exact hx
  | ok u => exact hx.andThen (hf u)

/-- Sequencing rule: a value-returning step followed by a continuation. -/
theorem openDrain_bind_value {α β : Type} {s : St} (x : Except St (α × St))
    (f : α × St → Except St (β × St))
    (hx : OpenDrainRun s (finalSt x)) (hf : ∀ a, OpenDrainRun a.2 (finalSt (f a))) :
    OpenDrainRun s (finalSt (x >>= f)) := by
  cases x with
  | error e => exact hx
  | ok a => exact hx.andThen (hf a)

theorem openDrain_foldlM (f : Nat × St → Nat → Except St (Nat × St))
    (hf : ∀ a i, OpenDrainRun a.2 (finalSt (f a i))) (l : List Nat) (a : Nat × St) :
    OpenDrainRun a.2 (finalSt (l.foldlM f a)) := by
  induction l generalizing a with
  | nil => exact OpenDrainRun.idle _
  | cons i l ih =>
    rw [List.foldlM_cons]
    exact openDrain_bind_value _ _ (hf a i) ih

theorem openDrain_i2c_sw_init (s : St) : OpenDrainRun s (i2c_sw_init s) :=
  .of_runs ((Runs.emit s (.sdaTris true) rfl rfl).trans (Runs.emit _ (.sclTris true) rfl rfl))
    (by decide)

theorem openDrain_i2c_sw_start (env : Bus) (fuel : Nat) (s : St) :
    OpenDrainRun s (endSt (i2c_sw_start env fuel s)) := by
  simp only [i2c_sw_start]
  refine openDrain_bind_endSt _ _
    (((openDrain_SW_SDA_1 s).andThen (openDrain_delay_us 4 _)).andThen
      (openDrain_SW_SCL_1 env fuel _)) (fun u => ?_)
  exact (((openDrain_delay_us 4 u).andThen (openDrain_SW_SDA_0 _)).andThen
    (openDrain_delay_us 4 _)).andThen (openDrain_SW_SCL_0 _)

theorem openDrain_i2c_sw_stop (env : Bus) (fuel : Nat) (s : St) :
    OpenDrainRun s (endSt (i2c_sw_stop env fuel s)) := by
  simp only [i2c_sw_stop]
  refine openDrain_bind_endSt _ _
    (((openDrain_SW_SDA_0 s).andThen (openDrain_delay_us 4 _)).andThen
      (openDrain_SW_SCL_1 env fuel _)) (fun u => ?_)
  exact ((openDrain_delay_us 4 u).andThen (openDrain_SW_SDA_1 _)).andThen
    (openDrain_delay_us 4 _)

theorem openDrain_i2c_sw_restart (env : Bus) (fuel : Nat) (s : St) :
    OpenDrainRun s (endSt (i2c_sw_restart env fuel s)) := by
  simp only [i2c_sw_restart]
  refine openDrain_bind_endSt _ _
    (((openDrain_SW_SDA_1 s).andThen (openDrain_delay_us 4 _)).andThen
      (openDrain_SW_SCL_1 env fuel _)) (fun u => ?_)
  exact ((openDrain_delay_us 4 u).andThen (openDrain_SW_SDA_0 _)).andThen
    (openDrain_delay_us 4 _)

theorem openDrain_i2c_sw_writeByte_bit (env : Bus) (fuel dato : Nat) (s : St) :
    OpenDrainRun s (finalSt (i2c_sw_writeByte_bit env fuel dato s)) := by
  simp only [i2c_sw_writeByte_bit]
  have hsda : OpenDrainRun (delay_us 4 (SW_SCL_0 s))
      (set_SDA_PIN false (if dato &&& 0x80 ≠ 0 then SW_SDA_1 (delay_us 4 (SW_SCL_0 s))
        else set_SDA_TRIS false (delay_us 4 (SW_SCL_0 s)))) :=
    .of_runs (runs_evSda _ _) (by cases decide (dato &&& 0x80 ≠ 0) <;> decide)
  refine openDrain_bind_finalSt _ _
    ((((openDrain_SW_SCL_0 s).andThen (openDrain_delay_us 4 _)).andThen hsda).andThen
      (openDrain_SW_SCL_1 env fuel _)) (fun u => ?_)
  exact openDrain_delay_us 4 u

theorem openDrain_i2c_sw_readByte_bit (env : Bus) (fuel dato : Nat) (s : St) (i : Nat) :
    OpenDrainRun s (finalSt (i2c_sw_readByte_bit env fuel dato s i)) := by
  simp only [i2c_sw_readByte_bit]
  refine openDrain_bind_finalSt _ _
    (((openDrain_SW_SCL_0 s).andThen (openDrain_delay_us 4 _)).andThen
      (openDrain_SW_SCL_1 env fuel _)) (fun u => ?_)
  exact (openDrain_delay_us 4 u).andThen (openDrain_get_SDA_PIN env _)

theorem openDrain_i2c_sw_writeByte (env : Bus) (fuel dato : Nat) (s : St) :
    OpenDrainRun s (finalSt (i2c_sw_writeByte env fuel dato s)) := by
  simp only [i2c_sw_writeByte]
  refine openDrain_bind_value _ _
    (openDrain_foldlM _ (fun a _ => openDrain_i2c_sw_writeByte_bit env fuel a.1 a.2) _
      (dato, s)) (fun p => ?_)
  refine openDrain_bind_finalSt _ _
    (((openDrain_SW_SCL_0 p.2).andThen (openDrain_get_SDA_PIN env _)).andThen
      (openDrain_SW_SCL_1 env fuel _)) (fun u => ?_)
  exact openDrain_SW_SCL_0 u

theorem openDrain_i2c_sw_readByte (env : Bus) (fuel : Nat) (ack : Bool) (s : St) :
    OpenDrainRun s (finalSt (i2c_sw_readByte env fuel ack s)) := by
  simp only [i2c_sw_readByte]
  refine openDrain_bind_value _ _
    (openDrain_foldlM _ (fun a i => openDrain_i2c_sw_readByte_bit env fuel a.1 a.2 i) _
      (0, s)) (fun p => ?_)
  have hsda : OpenDrainRun (delay_us 4 (SW_SCL_0 p.2))
      (set_SDA_PIN false (if ack = false then SW_SDA_1 (delay_us 4 (SW_SCL_0 p.2))
        else set_SDA_TRIS false (delay_us 4 (SW_SCL_0 p.2)))) :=
    .of_runs (runs_evSda _ _) (by cases decide (ack = false) <;> decide)
  refine openDrain_bind_finalSt _ _
    (((((openDrain_SW_SCL_0 p.2).andThen (openDrain_delay_us 4 _)).andThen hsda).andThen
      (openDrain_delay_us 4 _)).andThen (openDrain_SW_SCL_1 env fuel _)) (fun u => ?_)
  exact ((((openDrain_delay_us 4 u).andThen (openDrain_SW_SCL_0 _)).andThen
    (openDrain_delay_us 4 _)).andThen (openDrain_SW_SDA_1 _)).andThen (openDrain_delay_us 4 _)

/-! ### The output latches -/

theorem sdaLat_replay_low (p : Pins) (evs : List Ev) (h : lowWritesOnly evs = true)
    (hp : p.sdaLat = false) : (p.replay evs).sdaLat = false := by
  induction evs generalizing p with
  | nil => exact hp
  | cons e es ih =>
    simp only [lowWritesOnly, List.all_cons, Bool.and_eq_true] at h
    rw [Pins.replay_cons]
    refine ih _ (by simpa [lowWritesOnly] using h.2) ?_
    cases e with
    | sdaPin v => cases v <;> simp [Pins.apply] at h ⊢
    | _ => exact hp

theorem sclLat_replay_low (p : Pins) (evs : List Ev) (h : lowWritesOnly evs = true)
    (hp : p.sclLat = false) : (p.replay evs).sclLat = false := by
  induction evs generalizing p with
  | nil => exact hp
  | cons e es ih =>
    simp only [lowWritesOnly, List.all_cons, Bool.and_eq_true] at h
    rw [Pins.replay_cons]
    refine ih _ (by simpa [lowWritesOnly] using h.2) ?_
    cases e with
    | sclPin v => cases v <;> simp [Pins.apply] at h ⊢
    | _ => exact hp

/-- With a low latch and no high write the data pin is never driven high. -/
theorem sdaNeverDrivenHigh_of_low (p : Pins) (evs : List Ev) (h : lowWritesOnly evs = true)
    (hp : p.sdaLat = false) : sdaNeverDrivenHigh p evs = true := by
  induction evs generalizing p with
  | nil => rfl
  | cons e es ih =>
    have h1 : (p.apply e).sdaLat = false := by
      have := sdaLat_replay_low p [e] (by
        simp only [lowWritesOnly, List.all_cons, Bool.and_eq_true] at h
        simpa [lowWritesOnly] using h.1) hp
      simpa [Pins.replay] using this
    simp only [lowWritesOnly, List.all_cons, Bool.and_eq_true] at h
    simp only [sdaNeverDrivenHigh, Bool.and_eq_true]
    exact ⟨by simp [Pins.sdaDrivenHigh, h1], ih _ (by simpa [lowWritesOnly] using h.2) h1⟩

/-- With a low latch and no high write the clock pin is never driven high. -/
theorem sclNeverDrivenHigh_of_low (p : Pins) (evs : List Ev) (h : lowWritesOnly evs = true)
    (hp : p.sclLat = false) : sclNeverDrivenHigh p evs = true := by
  induction evs generalizing p with
  | nil => rfl
  | cons e es ih =>
    have h1 : (p.apply e).sclLat = false := by
      have := sclLat_replay_low p [e] (by
        simp only [lowWritesOnly, List.all_cons, Bool.and_eq_true] at h
        simpa [lowWritesOnly] using h.1) hp
      simpa [Pins.replay] using this
    simp only [lowWritesOnly, List.all_cons, Bool.and_eq_true] at h
    simp only [sclNeverDrivenHigh, Bool.and_eq_true]
    exact ⟨by simp [Pins.sclDrivenHigh, h1], ih _ (by simpa [lowWritesOnly] using h.2) h1⟩

/-- After a write to the port bit of the data pin, none of the writes being
high, the latch is low. -/
theorem sdaLat_low_after_write (p : Pins) (a : List Ev) (h : lowWritesOnly a = true)
    (hw : ∃ v, Ev.sdaPin v ∈ a) : (p.replay a).sdaLat = false := by
  induction a generalizing p with
  | nil => obtain ⟨v, hv⟩ := hw; simp at hv
  | cons e es ih =>
    have h' := h
    simp only [lowWritesOnly, List.all_cons, Bool.and_eq_true] at h'
    have hes : lowWritesOnly es = true := by simpa [lowWritesOnly] using h'.2
    rw [Pins.replay_cons]
    obtain ⟨v, hv⟩ := hw
    rcases List.mem_cons.1 hv with he | hmem
    · subst he
      refine sdaLat_replay_low _ es hes ?_
      cases v <;> simp [Pins.apply] at h' ⊢
    · exact ih _ hes ⟨v, hmem⟩

/-- After a write to the port bit of the clock pin, none of the writes being
high, the latch is low. -/
theorem sclLat_low_after_write (p : Pins) (a : List Ev) (h : lowWritesOnly a = true)
    (hw : ∃ v, Ev.sclPin v ∈ a) : (p.replay a).sclLat = false := by
  induction a generalizing p with
  | nil => obtain ⟨v, hv⟩ := hw; simp at hv
  | cons e es ih =>
    have h' := h
    simp only [lowWritesOnly, List.all_cons, Bool.and_eq_true] at h'
    have hes : lowWritesOnly es = true := by simpa [lowWritesOnly] using h'.2
    rw [Pins.replay_cons]
    obtain ⟨v, hv⟩ := hw
    rcases List.mem_cons.1 hv with he | hmem
    · subst he
      refine sclLat_replay_low _ es hes ?_
      cases v <;> simp [Pins.apply] at h' ⊢
    · exact ih _ hes ⟨v, hmem⟩

/-- A run that writes no high level keeps the discipline of the latches. -/
theorem LatchDiscipline.of_openDrain {s t : St} (h : OpenDrainRun s t) : LatchDiscipline s t := by
  obtain ⟨evs, htr, hl, _⟩ := h
  refine ⟨evs, htr, hl, sdaNeverDrivenHigh_of_low _ _ hl, sclNeverDrivenHigh_of_low _ _ hl, ?_, ?_⟩
  · intro a b hab hw
    rw [hab, lowWritesOnly_append, Bool.and_eq_true] at hl
    exact sdaNeverDrivenHigh_of_low _ b hl.2 (sdaLat_low_after_write _ a hl.1 hw)
  · intro a b hab hw
    rw [hab, lowWritesOnly_append, Bool.and_eq_true] at hl
    exact sclNeverDrivenHigh_of_low _ b hl.2 (sclLat_low_after_write _ a hl.1 hw)

/-- C10 (defect in the code): the open-drain discipline holds only as far as
the output latches are low.  In every operation of the two-wire engine
(init, start, stop, restart, writeByte, readByte), for every input, every
behaviour of the bus and every poll budget, whether the operation returns or
is still polling the clock, no high level is written to the data or clock
port bit, a pin whose latch is low at the start is never driven high, and no
pin is driven high after the first write to its port bit.  But
`i2c_sw_init` leaves the latches as they are, and `SW_SDA_0` and `SW_SCL_0`
make the pin an output before they write the low level: with the latches
high after `i2c_sw_init`, `i2c_sw_start` writes no high level and yet
drives the data line high (the pin is an output with a high latch after its
sixth event, `I2C_SW_SDA_TRIS=0`) and then the clock line (after its ninth
event, `I2C_SW_SCL_TRIS=0`), so a high level is produced other than by
switching the pin to input. -/
theorem i2c_sw_open_drain_stale_latch (env : Bus) (fuel dato : Nat) (ack : Bool) (s : St) :
    (LatchDiscipline s (i2c_sw_init s) ∧
      LatchDiscipline s (endSt (i2c_sw_start env fuel s)) ∧
      LatchDiscipline s (endSt (i2c_sw_stop env fuel s)) ∧
      LatchDiscipline s (endSt (i2c_sw_restart env fuel s)) ∧
      LatchDiscipline s (finalSt (i2c_sw_writeByte env fuel dato s)) ∧
      LatchDiscipline s (finalSt (i2c_sw_readByte env fuel ack s))) ∧
    ((i2c_sw_init s).pins.sdaLat = s.pins.sdaLat ∧
      (i2c_sw_init s).pins.sclLat = s.pins.sclLat) ∧
    (∃ t, i2c_sw_start busIdle 1 latchHighSt = .ok t ∧
      lowWritesOnly (newEvents latchHighSt t) = true ∧
      sdaNeverDrivenHigh latchHighSt.pins (newEvents latchHighSt t) = false ∧
      sclNeverDrivenHigh latchHighSt.pins (newEvents latchHighSt t) = false ∧
      (newEvents latchHighSt t).take 6 =
        [.sdaTris true, .delay 4, .sclTris true, .rdScl true, .delay 4, .sdaTris false] ∧
      (latchHighSt.pins.replay ((newEvents latchHighSt t).take 6)).sdaDrivenHigh = true ∧
      (newEvents latchHighSt t).drop 6 =
        [.sdaPin false, .delay 4, .sclTris false, .sclPin false] ∧
      (latchHighSt.pins.replay ((newEvents latchHighSt t).take 9)).sclDrivenHigh = true) :=
  ⟨⟨.of_openDrain (openDrain_i2c_sw_init s), .of_openDrain (openDrain_i2c_sw_start env fuel s),
      .of_openDrain (openDrain_i2c_sw_stop env fuel s),
      .of_openDrain (openDrain_i2c_sw_restart env fuel s),
      .of_openDrain (openDrain_i2c_sw_writeByte env fuel dato s),
      .of_openDrain (openDrain_i2c_sw_readByte env fuel ack s)⟩,
    ⟨rfl, rfl⟩,
    ⟨_, rfl, by decide, by decide, by decide, by decide, by decide, by decide, by decide⟩⟩

/-- Witness of C10: from the idle state with both latches low, on a bus that
pulls nothing low, `i2c_sw_start` never drives either line high. -/
theorem i2c_sw_open_drain_stale_latch_witness :
    ∃ evs, (endSt (i2c_sw_start busIdle 1 idleSt)).trace = idleSt.trace ++ evs ∧
      lowWritesOnly evs = true ∧
      sdaNeverDrivenHigh idleSt.pins evs = true ∧ sclNeverDrivenHigh idleSt.pins evs = true := by
  obtain ⟨evs, htr, hl, h1, h2, _⟩ :=
    (i2c_sw_open_drain_stale_latch busIdle 1 0 false idleSt).1.2.1
  exact ⟨evs, htr, hl, h1 rfl, h2 rfl⟩

/-! ## Clock stretching -/

theorem stretchScan_append (w : Bool) (a b : List Ev) :
    stretchScan w (a ++ b) = (stretchScan w a).bind (fun w' => stretchScan w' b) := by
  simp [stretchScan, List.foldlM_append]

theorem stretchScan_low_polls (n : Nat) :
    stretchScan true (List.replicate n (.rdScl false)) = some true := by
  induction n with
  | zero => rfl
  | succ n ih =>
    rw [List.replicate_succ]
    simpa [stretchScan, List.foldlM_cons, stretchStep] using ih

theorem stretchScan_polls (n : Nat) : stretchScan true (evPolls n) = some false := by
  rw [evPolls, stretchScan_append, stretchScan_low_polls]
  rfl

theorem stretchScan_sclRelease (n : Nat) : stretchScan false (evSclRelease n) = some false := by
  have := stretchScan_polls n
  simpa [evSclRelease, stretchScan, List.foldlM_cons, stretchStep] using this

theorem StretchSettled.still (s : St) : StretchSettled s s :=
  ⟨[], by simp, rfl⟩

theorem StretchSettled.next {s t u : St} (h₁ : StretchSettled s t) (h₂ : StretchSettled t u) :
    StretchSettled s u := by
  obtain ⟨a, ha, hsa⟩ := h₁
  obtain ⟨b, hb, hsb⟩ := h₂
  exact ⟨a ++ b, by rw [hb, ha, List.append_assoc], by rw [stretchScan_append, hsa]; exact hsb⟩

theorem StretchSettled.respected {s t : St} (h : StretchSettled s t) : StretchRespected s t := by
  obtain ⟨a, ha, hsa⟩ := h
  exact ⟨a, ha, by rw [hsa]; rfl⟩

theorem StretchSettled.thenRespected {s t u : St} (h₁ : StretchSettled s t)
    (h₂ : StretchRespected t u) : StretchRespected s u := by
  obtain ⟨a, ha, hsa⟩ := h₁
  obtain ⟨b, hb, hsb⟩ := h₂
  exact ⟨a ++ b, by rw [hb, ha, List.append_assoc], by rw [stretchScan_append, hsa]; exact hsb⟩

theorem StretchSettled.of_settled_runs {s t : St} {evs : List Ev} (h : Runs s evs t)
    (hs : stretchScan false evs = some false) : StretchSettled s t :=
  ⟨evs, h.trace, hs⟩

theorem settled_delay_us (us : Nat) (s : St) : StretchSettled s (delay_us us s) :=
  .of_settled_runs (runs_delay_us us s) rfl

theorem settled_SW_SDA_1 (s : St) : StretchSettled s (SW_SDA_1 s) :=
  .of_settled_runs (runs_SW_SDA_1 s) rfl

theorem settled_SW_SDA_0 (s : St) : StretchSettled s (SW_SDA_0 s) :=
  .of_settled_runs (runs_SW_SDA_0 s) rfl

theorem settled_SW_SCL_0 (s : St) : StretchSettled s (SW_SCL_0 s) :=
  .of_settled_runs (runs_SW_SCL_0 s) rfl

theorem settled_get_SDA_PIN (env : Bus) (s : St) : StretchSettled s (get_SDA_PIN env s).2 :=
  .of_settled_runs (runs_get_SDA_PIN env s) rfl

theorem settled_evSda (c : Prop) [Decidable c] (s : St) :
    StretchSettled s (set_SDA_PIN false (if c then SW_SDA_1 s else set_SDA_TRIS false s)) :=
  .of_settled_runs (runs_evSda c s) (by cases decide c <;> rfl)

theorem StretchOutcome.after {s t : St} {x : Except St St} (h : StretchSettled s t)
    (hx : StretchOutcome t x) : StretchOutcome s x := by
  cases x with
  | error e => exact h.thenRespected hx
  | ok u => exact h.next hx

theorem StretchOutcomeV.afterV {α : Type} {s t : St} {x : Except St (α × St)}
    (h : StretchSettled s t) (hx : StretchOutcomeV t x) : StretchOutcomeV s x := by
  cases x with
  | error e => exact h.thenRespected hx
  | ok u => exact h.next hx

/-- A clock release that returns has been answered by a high reading; one
that does not return has done nothing but poll the clock pin. -/
theorem stretch_SW_SCL_1 (env : Bus) (fuel : Nat) (s : St) :
    StretchOutcome s (SW_SCL_1 env fuel s) := by
  cases h : SW_SCL_1 env fuel s with
  | error e =>
    refine ⟨_, (SW_SCL_1_error env fuel s e h).trace, ?_⟩
    have := stretchScan_low_polls fuel
    simp only [stretchScan, List.foldlM_cons, stretchStep] at this ⊢
    simp [this]
  | ok t =>
    obtain ⟨n, _, hr⟩ := SW_SCL_1_ok env fuel s t h
    exact .of_settled_runs hr (stretchScan_sclRelease n)

theorem stretch_bind {s : St} (x : Except St St) (f : St → Except St St)
    (hx : StretchOutcome s x) (hf : ∀ u, StretchOutcome u (f u)) :
    StretchOutcome s (x >>= f) := by
  cases x with
  | error e => exact hx
  | ok u => exact StretchOutcome.after hx (hf u)

theorem stretch_bind_toV {β : Type} {s : St} (x : Except St St) (f : St → Except St (β × St))
    (hx : StretchOutcome s x) (hf : ∀ u, StretchOutcomeV u (f u)) :
    StretchOutcomeV s (x >>= f) := by
  cases x with
  | error e => exact hx
  | ok u => exact StretchOutcomeV.afterV hx (hf u)

theorem stretch_bindV {α β : Type} {s : St} (x : Except St (α × St))
    (f : α × St → Except St (β × St))
    (hx : StretchOutcomeV s x) (hf : ∀ a, StretchOutcomeV a.2 (f a)) :
    StretchOutcomeV s (x >>= f) := by
  cases x with
  | error e => exact hx
  | ok a => exact StretchOutcomeV.afterV hx (hf a)

theorem stretch_foldlM (f : Nat × St → Nat → Except St (Nat × St))
    (hf : ∀ a i, StretchOutcomeV a.2 (f a i)) (l : List Nat) (a : Nat × St) :
    StretchOutcomeV a.2 (l.foldlM f a) := by
  induction l generalizing a with
  | nil => exact StretchSettled.still _
  | cons i l ih =>
    rw [List.foldlM_cons]
    exact stretch_bindV _ _ (hf a i) ih

theorem stretch_i2c_sw_start (env : Bus) (fuel : Nat) (s : St) :
    StretchOutcome s (i2c_sw_start env fuel s) := by
  simp only [i2c_sw_start]
  refine stretch_bind _ _
    (StretchOutcome.after ((settled_SW_SDA_1 s).next (settled_delay_us 4 _))
      (stretch_SW_SCL_1 env fuel _)) (fun u => ?_)
  exact (((settled_delay_us 4 u).next (settled_SW_SDA_0 _)).next
    (settled_delay_us 4 _)).next (settled_SW_SCL_0 _)

theorem stretch_i2c_sw_stop (env : Bus) (fuel : Nat) (s : St) :
    StretchOutcome s (i2c_sw_stop env fuel s) := by
  simp only [i2c_sw_stop]
  refine stretch_bind _ _
    (StretchOutcome.after ((settled_SW_SDA_0 s).next (settled_delay_us 4 _))
      (stretch_SW_SCL_1 env fuel _)) (fun u => ?_)
  exact ((settled_delay_us 4 u).next (settled_SW_SDA_1 _)).next (settled_delay_us 4 _)

theorem stretch_i2c_sw_restart (env : Bus) (fuel : Nat) (s : St) :
    StretchOutcome s (i2c_sw_restart env fuel s) := by
  simp only [i2c_sw_restart]
  refine stretch_bind _ _
    (StretchOutcome.after ((settled_SW_SDA_1 s).next (settled_delay_us 4 _))
      (stretch_SW_SCL_1 env fuel _)) (fun u => ?_)
  exact ((settled_delay_us 4 u).next (settled_SW_SDA_0 _)).next (settled_delay_us 4 _)

theorem stretch_i2c_sw_writeByte_bit (env : Bus) (fuel dato : Nat) (s : St) :
    StretchOutcomeV s (i2c_sw_writeByte_bit env fuel dato s) := by
  simp only [i2c_sw_writeByte_bit]
  refine stretch_bind_toV _ _
    (StretchOutcome.after (((settled_SW_SCL_0 s).next (settled_delay_us 4 _)).next
      (settled_evSda _ _)) (stretch_SW_SCL_1 env fuel _)) (fun u => ?_)
  exact settled_delay_us 4 u

theorem stretch_i2c_sw_readByte_bit (env : Bus) (fuel dato : Nat) (s : St) (i : Nat) :
    StretchOutcomeV s (i2c_sw_readByte_bit env fuel dato s i) := by
  simp only [i2c_sw_readByte_bit]
  refine stretch_bind_toV _ _
    (StretchOutcome.after ((settled_SW_SCL_0 s).next (settled_delay_us 4 _))
      (stretch_SW_SCL_1 env fuel _)) (fun u => ?_)
  exact (settled_delay_us 4 u).next (settled_get_SDA_PIN env _)

theorem stretch_i2c_sw_writeByte (env : Bus) (fuel dato : Nat) (s : St) :
    StretchOutcomeV s (i2c_sw_writeByte env fuel dato s) := by
  simp only [i2c_sw_writeByte]
  refine stretch_bindV _ _
    (stretch_foldlM _ (fun a _ => stretch_i2c_sw_writeByte_bit env fuel a.1 a.2) _ (dato, s))
    (fun p => ?_)
  refine stretch_bind_toV _ _
    (StretchOutcome.after ((settled_SW_SCL_0 p.2).next (settled_get_SDA_PIN env _))
      (stretch_SW_SCL_1 env fuel _)) (fun u => ?_)
  exact settled_SW_SCL_0 u

theorem stretch_i2c_sw_readByte (env : Bus) (fuel : Nat) (ack : Bool) (s : St) :
    StretchOutcomeV s (i2c_sw_readByte env fuel ack s) := by
  simp only [i2c_sw_readByte]
  refine stretch_bindV _ _
    (stretch_foldlM _ (fun a i => stretch_i2c_sw_readByte_bit env fuel a.1 a.2 i) _ (0, s))
    (fun p => ?_)
  refine stretch_bind_toV _ _
    (StretchOutcome.after ((((settled_SW_SCL_0 p.2).next (settled_delay_us 4 _)).next
      (settled_evSda _ _)).next (settled_delay_us 4 _)) (stretch_SW_SCL_1 env fuel _))
    (fun u => ?_)
  exact ((((settled_delay_us 4 u).next (settled_SW_SCL_0 _)).next
    (settled_delay_us 4 _)).next (settled_SW_SDA_1 _)).next (settled_delay_us 4 _)

theorem StretchOutcome.endSt_respected {s : St} {x : Except St St} (h : StretchOutcome s x) :
    StretchRespected s (endSt x) := by
  cases x with
  | error e => exact h
  | ok u => exact StretchSettled.respected h

theorem StretchOutcomeV.finalSt_respected {α : Type} {s : St} {x : Except St (α × St)}
    (h : StretchOutcomeV s x) : StretchRespected s (finalSt x) := by
  cases x with
  | error e => exact h
  | ok u => exact StretchSettled.respected h

/-- C11: clock-stretch correctness.  In every operation of the two-wire
engine, for every input, every behaviour of the bus and every poll budget,
whether the operation returns or is still polling: after each release of the
clock line the engine performs no pin write, no read of the data pin and no
delay until a read of the clock pin has returned high; while the clock reads
low it only reads the clock pin again.  (`i2c_sw_init` releases the clock as
its last action and does nothing after it.) -/
theorem i2c_sw_clock_stretch_respected (env : Bus) (fuel dato : Nat) (ack : Bool) (s : St) :
    StretchRespected s (i2c_sw_init s) ∧
    StretchRespected s (endSt (i2c_sw_start env fuel s)) ∧
    StretchRespected s (endSt (i2c_sw_stop env fuel s)) ∧
    StretchRespected s (endSt (i2c_sw_restart env fuel s)) ∧
    StretchRespected s (finalSt (i2c_sw_writeByte env fuel dato s)) ∧
    StretchRespected s (finalSt (i2c_sw_readByte env fuel ack s)) :=
  ⟨⟨[.sdaTris true, .sclTris true],
      by simp [i2c_sw_init, set_SCL_TRIS, set_SDA_TRIS, St.emit], rfl⟩,
    (stretch_i2c_sw_start env fuel s).endSt_respected,
    (stretch_i2c_sw_stop env fuel s).endSt_respected,
    (stretch_i2c_sw_restart env fuel s).endSt_respected,
    (stretch_i2c_sw_writeByte env fuel dato s).finalSt_respected,
    (stretch_i2c_sw_readByte env fuel ack s).finalSt_respected⟩

/-! ## Synchronous engine: configuration -/

theorem spi_emit_cfg (s : SpiSt) (e : SpiEv) : (s.emit e).cfg = s.cfg := rfl

theorem get_SPI_SW_MISO_cfg (env : SpiBus) (s : SpiSt) :
    (get_SPI_SW_MISO env s).2.cfg = s.cfg := rfl

/-- Invariant rule for a `for` loop. -/
theorem foldl_inv {α β : Type} (P : α → Prop) (f : α → β → α) (l : List β) (a : α)
    (h₀ : P a) (hstep : ∀ a i, P a → P (f a i)) : P (l.foldl f a) := by
  induction l generalizing a with
  | nil => exact h₀
  | cons i l ih => exact ih _ (hstep a i h₀)

theorem spi_sw_setMode_configOk (newMode : Nat) (s : SpiSt) :
    ConfigOk (spi_sw_setMode newMode s).cfg := by
  simp only [spi_sw_setMode, SPI_SW_MODE_00, SPI_SW_MODE_01, SPI_SW_MODE_10, SPI_SW_MODE_11,
    set_SPI_SW_SCK, spi_emit_cfg]
  split_ifs <;> simp [ConfigOk, IsIdleLevelOf]

theorem spi_sw_write_bit_cfg (dato_tx : Nat) (s : SpiSt) (i : Nat) :
    (spi_sw_write_bit dato_tx s i).2.cfg = s.cfg := by
  unfold spi_sw_write_bit
  by_cases h : i = 1 <;> simp [h, set_SPI_SW_SCK, set_SPI_SW_MOSI, spi_delay_us, spi_emit_cfg]

theorem spi_sw_writeByte_bit_cfg (dato_tx : Nat) (s : SpiSt) (i : Nat) :
    (spi_sw_writeByte_bit dato_tx s i).2.cfg = s.cfg := by
  unfold spi_sw_writeByte_bit
  by_cases h : i = 1 <;> simp [h, set_SPI_SW_SCK, set_SPI_SW_MOSI, spi_delay_us, spi_emit_cfg]

theorem spi_sw_readByte_bit_cfg (env : SpiBus) (dato : Nat) (s : SpiSt) (i : Nat) :
    (spi_sw_readByte_bit env dato s i).2.cfg = s.cfg := by
  unfold spi_sw_readByte_bit
  by_cases h : i = 1 <;>
    simp [h, set_SPI_SW_SCK, set_SPI_SW_MOSI, spi_delay_us, spi_emit_cfg, get_SPI_SW_MISO_cfg]

theorem spi_sw_read_bit_cfg (env : SpiBus) (dato : Nat) (s : SpiSt) (i : Nat) :
    (spi_sw_read_bit env dato s i).2.cfg = s.cfg := by
  unfold spi_sw_read_bit
  by_cases h : i = 1 <;>
    simp [h, set_SPI_SW_SCK, set_SPI_SW_MOSI, spi_delay_us, spi_emit_cfg, get_SPI_SW_MISO_cfg]

theorem spi_sw_xmit_bit_cfg (env : SpiBus) (dato : Nat) (s : SpiSt) (i : Nat) :
    (spi_sw_xmit_bit env dato s i).2.cfg = s.cfg := by
  unfold spi_sw_xmit_bit
  by_cases h : i = 1 <;>
    simp [h, set_SPI_SW_SCK, set_SPI_SW_MOSI, spi_delay_us, spi_emit_cfg, get_SPI_SW_MISO_cfg]

/-- A loop whose body keeps the configuration keeps the configuration. -/
theorem spi_loop_cfg (f : Nat × SpiSt → Nat → Nat × SpiSt)
    (hf : ∀ a i, (f a i).2.cfg = a.2.cfg) (l : List Nat) (a : Nat × SpiSt) :
    (l.foldl f a).2.cfg = a.2.cfg :=
  foldl_inv (fun x => x.2.cfg = a.2.cfg) f l a rfl (fun x i hx => (hf x i).trans hx)

/-- The last statement of every transfer, `SPI_SW_SCK = estado_inactivo_reloj`. -/
theorem spi_restore_idle (t s : SpiSt) (h : t.cfg = s.cfg) :
    (set_SPI_SW_SCK t.cfg.estado_inactivo_reloj t).cfg = s.cfg ∧
    (set_SPI_SW_SCK t.cfg.estado_inactivo_reloj t).pins.sck = s.cfg.estado_inactivo_reloj :=
  ⟨h, congrArg SpiCfg.estado_inactivo_reloj h⟩

/-- Every transfer ends with `SPI_SW_SCK = estado_inactivo_reloj` and writes
no static variable. -/
theorem spi_sw_write_restores (dato_tx : Nat) (s : SpiSt) :
    (spi_sw_write dato_tx s).cfg = s.cfg ∧
    (spi_sw_write dato_tx s).pins.sck = s.cfg.estado_inactivo_reloj := by
  unfold spi_sw_write
  dsimp only
  exact spi_restore_idle _ s
    (spi_loop_cfg _ (fun a i => spi_sw_write_bit_cfg a.1 a.2 i) _ _)

theorem spi_sw_writeByte_restores (dato_tx : Nat) (s : SpiSt) :
    (spi_sw_writeByte dato_tx s).cfg = s.cfg ∧
    (spi_sw_writeByte dato_tx s).pins.sck = s.cfg.estado_inactivo_reloj := by
  unfold spi_sw_writeByte
  dsimp only
  exact spi_restore_idle _ s
    (spi_loop_cfg _ (fun a i => spi_sw_writeByte_bit_cfg a.1 a.2 i) _ _)

theorem spi_sw_readByte_restores (env : SpiBus) (s : SpiSt) :
    (spi_sw_readByte env s).2.cfg = s.cfg ∧
    (spi_sw_readByte env s).2.pins.sck = s.cfg.estado_inactivo_reloj := by
  unfold spi_sw_readByte
  dsimp only
  exact spi_restore_idle _ s
    (spi_loop_cfg _ (fun a i => spi_sw_readByte_bit_cfg env a.1 a.2 i) _ _)

theorem spi_sw_read_restores (env : SpiBus) (s : SpiSt) :
    (spi_sw_read env s).2.cfg = s.cfg ∧
    (spi_sw_read env s).2.pins.sck = s.cfg.estado_inactivo_reloj := by
  unfold spi_sw_read
  dsimp only
  exact spi_restore_idle _ s
    (spi_loop_cfg _ (fun a i => spi_sw_read_bit_cfg env a.1 a.2 i) _ _)

theorem spi_sw_xmit_restores (env : SpiBus) (dato_tx : Nat) (s : SpiSt) :
    (spi_sw_xmit env dato_tx s).2.cfg = s.cfg ∧
    (spi_sw_xmit env dato_tx s).2.pins.sck = s.cfg.estado_inactivo_reloj := by
  unfold spi_sw_xmit
  dsimp only
  exact spi_restore_idle _ s
    (spi_loop_cfg _ (fun a i => spi_sw_xmit_bit_cfg env a.1 a.2 i) _ _)

theorem spi_sw_writeBytes_cfg (n dato_tx : Nat) (s : SpiSt) :
    (spi_sw_writeBytes n dato_tx s).cfg = s.cfg := by
  unfold spi_sw_writeBytes
  exact foldl_inv (fun x => x.cfg = s.cfg) _ _ s rfl
    (fun x i hx => (spi_sw_writeByte_restores (byteAt dato_tx i) x).1.trans hx)

theorem spi_sw_readBytes_cfg (env : SpiBus) (n dato_leido : Nat) (s : SpiSt) :
    (spi_sw_readBytes env n dato_leido s).2.cfg = s.cfg := by
  unfold spi_sw_readBytes
  exact foldl_inv (fun x => x.2.cfg = s.cfg)
    (fun (p : Nat × SpiSt) (i : Nat) =>
      (setByteAt p.1 i (spi_sw_readByte env p.2).1, (spi_sw_readByte env p.2).2))
    _ (dato_leido, s) rfl
    (fun x _ hx => (spi_sw_readByte_restores env x.2).1.trans hx)

/-! ## Claims on the configuration of the synchronous engine -/

/-- C12: for every mode `m` in `{0,1,2,3}`, after `spi_sw_setMode m` the
call `spi_sw_getMode` returns `m`; `spi_sw_setMode` performs exactly one
write to the clock line, of the idle level of the mode (low for modes 0 and
1, high for modes 2 and 3), which the clock latch then holds. -/
theorem spi_sw_setMode_then_getMode (m : Nat) (s : SpiSt) (hm : m < 4) :
    spi_sw_getMode (spi_sw_setMode m s) = m ∧
    (spi_sw_setMode m s).trace = s.trace ++ [.sck (spiIdleLevel m)] ∧
    (spi_sw_setMode m s).pins.sck = spiIdleLevel m ∧
    (spiIdleLevel m = decide (2 ≤ m)) := by
  interval_cases m <;> exact ⟨rfl, rfl, rfl, rfl⟩

/-- Witness of C12: mode 3 set from the power-on state. -/
theorem spi_sw_setMode_then_getMode_witness :
    spi_sw_getMode (spi_sw_setMode 3 spiReset) = 3 ∧
    (spi_sw_setMode 3 spiReset).trace = spiReset.trace ++ [.sck true] ∧
    (spi_sw_setMode 3 spiReset).pins.sck = true := by
  have h := spi_sw_setMode_then_getMode 3 spiReset (by decide)
  exact ⟨h.1, h.2.1, h.2.2.1⟩

theorem spi_sw_init_configOk (mode : Nat) (s : SpiSt) : ConfigOk (spi_sw_init mode s).cfg := by
  unfold spi_sw_init
  exact spi_sw_setMode_configOk mode _

theorem configOk_of_cfg_eq {t s : SpiSt} (e : t.cfg = s.cfg) (h : ConfigOk s.cfg) :
    ConfigOk t.cfg := by
  rw [e]
  exact h

theorem spiCmd_run_configOk (env : SpiBus) (s : SpiSt) (c : SpiCmd) (h : ConfigOk s.cfg) :
    ConfigOk (c.run env s).cfg := by
  cases c <;> simp only [SpiCmd.run, spi_sw_writeInt16, spi_sw_writeInt24, spi_sw_writeInt32,
    spi_sw_writeFloat, spi_sw_readInt16, spi_sw_readInt24, spi_sw_readInt32, spi_sw_readFloat]
  · exact spi_sw_init_configOk _ s
  · exact spi_sw_setMode_configOk _ s
  · exact configOk_of_cfg_eq (spi_sw_write_restores _ s).1 h
  · exact configOk_of_cfg_eq (spi_sw_writeByte_restores _ s).1 h
  · exact configOk_of_cfg_eq (spi_sw_readByte_restores env s).1 h
  · exact configOk_of_cfg_eq (spi_sw_read_restores env s).1 h
  · exact configOk_of_cfg_eq (spi_sw_xmit_restores env _ s).1 h
  · exact configOk_of_cfg_eq (spi_sw_writeBytes_cfg _ _ s) h
  · exact configOk_of_cfg_eq (spi_sw_readBytes_cfg env _ _ s) h
  · exact configOk_of_cfg_eq (spi_sw_writeBytes_cfg _ _ s) h
  · exact configOk_of_cfg_eq (spi_sw_readBytes_cfg env _ _ s) h
  · exact configOk_of_cfg_eq (spi_sw_writeBytes_cfg _ _ s) h
  · exact configOk_of_cfg_eq (spi_sw_readBytes_cfg env _ _ s) h
  · exact configOk_of_cfg_eq (spi_sw_writeBytes_cfg _ _ s) h
  · exact configOk_of_cfg_eq (spi_sw_readBytes_cfg env _ _ s) h

/-- C13: configuration invariant of the synchronous engine.  In every state
reached from a first `spi_sw_init` by any sequence of calls of
`spi_sw_init`, `spi_sw_setMode` (with arbitrary arguments) and of the
transfer functions (with arbitrary arguments and any behaviour of the input
line), the sampling level and the propagation level are complementary, and
the idle level is low when the stored mode is 0 or 1 and high when it is 2
or 3. -/
theorem spi_config_invariant (env : SpiBus) (s₀ : SpiSt) (mode : Nat) (cmds : List SpiCmd) :
    ConfigOk (runSpiCmds env cmds (spi_sw_init mode s₀)).cfg :=
  foldl_inv (fun s => ConfigOk s.cfg) (SpiCmd.run env) cmds _ (spi_sw_init_configOk mode s₀)
    (fun s c h => spiCmd_run_configOk env s c h)

/-- C14: in every configured state, each transfer operation
(`spi_sw_writeByte`, `spi_sw_write`, `spi_sw_readByte`, `spi_sw_read`,
`spi_sw_xmit`), for every argument and every behaviour of the input line,
leaves the configuration unchanged and leaves the clock latch at the idle
level of the stored mode when it returns. -/
theorem spi_sw_transfers_restore_idle (env : SpiBus) (dato_tx : Nat) (s : SpiSt)
    (hc : ConfigOk s.cfg) :
    ((spi_sw_writeByte dato_tx s).cfg = s.cfg ∧
      (spi_sw_writeByte dato_tx s).pins.sck = s.cfg.estado_inactivo_reloj ∧
      IsIdleLevelOf s.cfg (spi_sw_writeByte dato_tx s).pins.sck) ∧
    ((spi_sw_write dato_tx s).cfg = s.cfg ∧
      (spi_sw_write dato_tx s).pins.sck = s.cfg.estado_inactivo_reloj ∧
      IsIdleLevelOf s.cfg (spi_sw_write dato_tx s).pins.sck) ∧
    ((spi_sw_readByte env s).2.cfg = s.cfg ∧
      (spi_sw_readByte env s).2.pins.sck = s.cfg.estado_inactivo_reloj ∧
      IsIdleLevelOf s.cfg (spi_sw_readByte env s).2.pins.sck) ∧
    ((spi_sw_read env s).2.cfg = s.cfg ∧
      (spi_sw_read env s).2.pins.sck = s.cfg.estado_inactivo_reloj ∧
      IsIdleLevelOf s.cfg (spi_sw_read env s).2.pins.sck) ∧
    ((spi_sw_xmit env dato_tx s).2.cfg = s.cfg ∧
      (spi_sw_xmit env dato_tx s).2.pins.sck = s.cfg.estado_inactivo_reloj ∧
      IsIdleLevelOf s.cfg (spi_sw_xmit env dato_tx s).2.pins.sck) := by
  have h1 := spi_sw_writeByte_restores dato_tx s
  have h2 := spi_sw_write_restores dato_tx s
  have h3 := spi_sw_readByte_restores env s
  have h4 := spi_sw_read_restores env s
  have h5 := spi_sw_xmit_restores env dato_tx s
  refine ⟨⟨h1.1, h1.2, ?_⟩, ⟨h2.1, h2.2, ?_⟩, ⟨h3.1, h3.2, ?_⟩, ⟨h4.1, h4.2, ?_⟩,
    ⟨h5.1, h5.2, ?_⟩⟩
  · rw [h1.2]; exact hc.2
  · rw [h2.2]; exact hc.2
  · rw [h3.2]; exact hc.2
  · rw [h4.2]; exact hc.2
  · rw [h5.2]; exact hc.2

/-- Witness of C14: the five transfers in mode 2 (idle high), on a loopback. -/
theorem spi_sw_transfers_restore_idle_witness :
    (spi_sw_writeByte 0xA5 (spi_sw_init 2 spiReset)).pins.sck = true ∧
    (spi_sw_write 0xA5 (spi_sw_init 2 spiReset)).pins.sck = true ∧
    (spi_sw_readByte spiLoopback (spi_sw_init 2 spiReset)).2.pins.sck = true ∧
    (spi_sw_read spiLoopback (spi_sw_init 2 spiReset)).2.pins.sck = true ∧
    (spi_sw_xmit spiLoopback 0xA5 (spi_sw_init 2 spiReset)).2.pins.sck = true := by
  have h := spi_sw_transfers_restore_idle spiLoopback 0xA5 (spi_sw_init 2 spiReset)
    (by decide)
  exact ⟨h.1.2.1, h.2.1.2.1, h.2.2.1.2.1, h.2.2.2.1.2.1, h.2.2.2.2.2.1⟩

/-! ## Synchronous engine: traces of the byte transfers -/

theorem spi_play_nil (s : SpiSt) : s.play [] = s := rfl

theorem spi_play_cons (s : SpiSt) (e : SpiEv) (es : List SpiEv) :
    s.play (e :: es) = (s.step e).play es := rfl

theorem spi_play_append (s : SpiSt) (a b : List SpiEv) :
    s.play (a ++ b) = (s.play a).play b := by
  simp [SpiSt.play, List.foldl_append]

theorem SpiSt.step_cfg (s : SpiSt) (e : SpiEv) : (s.step e).cfg = s.cfg := by
  cases e <;> rfl

theorem SpiSt.step_trace (s : SpiSt) (e : SpiEv) : (s.step e).trace = s.trace ++ [e] := by
  cases e <;> rfl

theorem SpiSt.step_pins (s : SpiSt) (e : SpiEv) : (s.step e).pins = s.pins.apply e := by
  cases e <;> rfl

theorem spi_play_cfg (s : SpiSt) (evs : List SpiEv) : (s.play evs).cfg = s.cfg := by
  induction evs generalizing s with
  | nil => rfl
  | cons e es ih => rw [spi_play_cons, ih, SpiSt.step_cfg]

theorem spi_play_trace (s : SpiSt) (evs : List SpiEv) :
    (s.play evs).trace = s.trace ++ evs := by
  induction evs generalizing s with
  | nil => simp [spi_play_nil]
  | cons e es ih => rw [spi_play_cons, ih, SpiSt.step_trace, List.append_assoc]; rfl

theorem spi_play_pins (s : SpiSt) (evs : List SpiEv) :
    (s.play evs).pins = s.pins.replay evs := by
  induction evs generalizing s with
  | nil => rfl
  | cons e es ih => rw [spi_play_cons, ih, SpiSt.step_pins]; rfl

theorem spiNewEvents_play (s : SpiSt) (evs : List SpiEv) :
    spiNewEvents s (s.play evs) = evs := by
  simp [spiNewEvents, spi_play_trace]

/-- The bit loop of `spi_sw_writeByte`, for any number of iterations. -/
theorem spi_sw_writeByte_loop (n d : Nat) (s : SpiSt) :
    ((countdown n).foldl (fun (p : Nat × SpiSt) (i : Nat) => spi_sw_writeByte_bit p.1 p.2 i)
      (d, s)).2 = s.play (evSpiWriteBits s.cfg (shiftedBits n d)) := by
  induction n generalizing d s with
  | zero => rfl
  | succ n ih =>
    rw [countdown, List.foldl_cons, shiftedBits, evSpiWriteBits, spi_play_append]
    have hstep : spi_sw_writeByte_bit d s (n + 1) =
        ((d <<< 1) % 256, s.play ([.mosi (decide (d &&& 0x80 ≠ 0)), .sck s.cfg.flanco_muestreo,
          .delay 1] ++ (if (shiftedBits n ((d <<< 1) % 256)).isEmpty then []
            else [.sck s.cfg.flanco_propagacion]))) := by
      cases n <;> rfl
    rw [hstep, ih, spi_play_cfg]

set_option maxRecDepth 100000 in
theorem shiftedBits_eq_bitsMSB : ∀ b : Fin 256, shiftedBits 8 b.val = bitsMSB b.val := by
  decide

/-- Closed form of `spi_sw_writeByte`. -/
theorem spi_sw_writeByte_eq_play (b : Nat) (s : SpiSt) (hb : b < 256) :
    spi_sw_writeByte b s = s.play (evSpiWriteByte s.cfg b) := by
  unfold spi_sw_writeByte
  dsimp only
  rw [spi_sw_writeByte_loop, shiftedBits_eq_bitsMSB ⟨b, hb⟩, evSpiWriteByte,
    spi_play_append, spi_play_append]
  simp only [spi_play_cfg]
  rfl

/-! ## Synchronous engine: levels at the sampling edges -/

theorem spi_replay_append (p : SpiPins) (a b : List SpiEv) :
    p.replay (a ++ b) = (p.replay a).replay b := by
  simp [SpiPins.replay, List.foldl_append]

theorem spi_replay_cons (p : SpiPins) (e : SpiEv) (es : List SpiEv) :
    p.replay (e :: es) = (p.apply e).replay es := rfl

theorem mosiAtSamplingEdges_append (c : SpiCfg) (p : SpiPins) (a b : List SpiEv) :
    mosiAtSamplingEdges c p (a ++ b) =
      mosiAtSamplingEdges c p a ++ mosiAtSamplingEdges c (p.replay a) b := by
  induction a generalizing p with
  | nil => rfl
  | cons e a ih => simp [mosiAtSamplingEdges, ih, spi_replay_cons]

/-- Levels at the sampling edges of one bit that is not the last. -/
theorem mosiAtSamplingEdges_bit (c : SpiCfg) (hc : c.flanco_muestreo = !c.flanco_propagacion)
    (v : Bool) (p : SpiPins) (hp : p.sck = c.flanco_propagacion) :
    mosiAtSamplingEdges c p
      [.mosi v, .sck c.flanco_muestreo, .delay 1, .sck c.flanco_propagacion] = [v] := by
  obtain ⟨m, samp, prp, idle⟩ := c
  obtain ⟨a, b, d, mo, sk⟩ := p
  simp only at hc hp
  cases samp <;> cases prp <;> cases sk <;> simp_all [mosiAtSamplingEdges, SpiPins.apply]

/-- Levels at the sampling edges of the last bit and the return to idle. -/
theorem mosiAtSamplingEdges_last_bit (c : SpiCfg)
    (hc : c.flanco_muestreo = !c.flanco_propagacion)
    (v lvl : Bool) (p : SpiPins) (hp : p.sck = c.flanco_propagacion) :
    mosiAtSamplingEdges c p [.mosi v, .sck c.flanco_muestreo, .delay 1, .sck lvl] = [v] := by
  obtain ⟨m, samp, prp, idle⟩ := c
  obtain ⟨a, b, d, mo, sk⟩ := p
  simp only at hc hp
  cases samp <;> cases prp <;> cases sk <;> cases lvl <;>
    simp_all [mosiAtSamplingEdges, SpiPins.apply]

/-- The bit loop followed by the return to the idle level: from a clock at
the propagation level, the levels at the sampling edges are the bits
written. -/
theorem mosiAtSamplingEdges_writeBits (c : SpiCfg)
    (hc : c.flanco_muestreo = !c.flanco_propagacion)
    (lvl : Bool) (vs : List Bool) (v : Bool) (p : SpiPins) (hp : p.sck = c.flanco_propagacion) :
    mosiAtSamplingEdges c p (evSpiWriteBits c (v :: vs) ++ [.sck lvl]) = v :: vs := by
  induction vs generalizing v p with
  | nil => exact mosiAtSamplingEdges_last_bit c hc v lvl p hp
  | cons w vs ih =>
    have e : evSpiWriteBits c (v :: w :: vs) ++ [.sck lvl] =
        [.mosi v, .sck c.flanco_muestreo, .delay 1, .sck c.flanco_propagacion] ++
          (evSpiWriteBits c (w :: vs) ++ [.sck lvl]) := by
      rw [evSpiWriteBits]
      simp
    rw [e, mosiAtSamplingEdges_append, mosiAtSamplingEdges_bit c hc v p hp, ih w _ rfl]
    rfl

/-- The levels of the output data line at the sampling edges of
`spi_sw_writeByte b` are the bits of `b`, most significant first, whatever
the pin registers were before. -/
theorem mosiAtSamplingEdges_writeByte (c : SpiCfg)
    (hc : c.flanco_muestreo = !c.flanco_propagacion) (b : Nat) (p : SpiPins) :
    mosiAtSamplingEdges c p (evSpiWriteByte c b) = bitsMSB b := by
  obtain ⟨v, vs, hv⟩ : ∃ v vs, bitsMSB b = v :: vs := ⟨b.testBit 7, _, rfl⟩
  rw [evSpiWriteByte, List.append_assoc, mosiAtSamplingEdges_append, hv,
    mosiAtSamplingEdges_writeBits c hc _ _ _ _ rfl]
  obtain ⟨m, samp, prp, idle⟩ := c
  simp only at hc
  cases samp <;> cases prp <;> simp_all [mosiAtSamplingEdges]

/-- Registers after `spi_sw_writeByte`: the clock latch holds the last level
written. -/
theorem replay_evSpiWriteByte_sck (c : SpiCfg) (b : Nat) (p : SpiPins) :
    (p.replay (evSpiWriteByte c b)).sck = c.estado_inactivo_reloj := by
  rw [evSpiWriteByte, spi_replay_append]
  rfl

/-- C15: for every configuration with complementary sampling and
propagation levels (every mode) and every byte `b`, `spi_sw_writeByte b`
performs exactly: clock to the propagation level, delay; then for each of the
eight bits, most significant first: output data line set to the bit, clock to
the sampling level, delay, and clock back to the propagation level except
after the last bit; finally clock to the idle level.  The clock goes from the
propagation level to the sampling level exactly eight times, and at the
`k`-th of these transitions the output data line holds bit `7 - k` of `b`. -/
theorem spi_sw_writeByte_clocking (b : Nat) (s : SpiSt) (hb : b < 256)
    (hc : s.cfg.flanco_muestreo = !s.cfg.flanco_propagacion) :
    (spi_sw_writeByte b s).trace = s.trace ++
      ([.sck s.cfg.flanco_propagacion, .delay 1] ++ evSpiWriteBits s.cfg (bitsMSB b) ++
        [.sck s.cfg.estado_inactivo_reloj]) ∧
    mosiAtSamplingEdges s.cfg s.pins (spiNewEvents s (spi_sw_writeByte b s)) = bitsMSB b ∧
    (mosiAtSamplingEdges s.cfg s.pins (spiNewEvents s (spi_sw_writeByte b s))).length = 8 ∧
    (spi_sw_writeByte b s).pins.sck = s.cfg.estado_inactivo_reloj := by
  have h := spi_sw_writeByte_eq_play b s hb
  have he : mosiAtSamplingEdges s.cfg s.pins (spiNewEvents s (spi_sw_writeByte b s)) =
      bitsMSB b := by
    rw [h, spiNewEvents_play, mosiAtSamplingEdges_writeByte s.cfg hc]
  refine ⟨?_, he, ?_, ?_⟩
  · rw [h, spi_play_trace, evSpiWriteByte]
  · rw [he]
    simp [bitsMSB]
  · rw [h, spi_play_pins, replay_evSpiWriteByte_sck]

/-- Witness of C15: the byte `0xA5` written in mode 1 (sampling level low,
propagation level high, idle low). -/
theorem spi_sw_writeByte_clocking_witness :
    mosiAtSamplingEdges (spi_sw_init 1 spiReset).cfg (spi_sw_init 1 spiReset).pins
      (spiNewEvents (spi_sw_init 1 spiReset) (spi_sw_writeByte 0xA5 (spi_sw_init 1 spiReset))) =
      [true, false, true, false, false, true, false, true] :=
  (spi_sw_writeByte_clocking 0xA5 (spi_sw_init 1 spiReset) (by decide) (by decide)).2.1

/-! ## Synchronous engine: full-duplex transfer on a loopback -/

theorem spi_sw_xmit_bit_loopback (d : Nat) (s : SpiSt) (i : Nat) :
    (spi_sw_xmit_bit spiLoopback d s i).1 = rotl8 d := by
  unfold spi_sw_xmit_bit rotl8
  by_cases h : d &&& 0x80 ≠ 0 <;>
    simp [h, spiLoopback, get_SPI_SW_MISO, set_SPI_SW_SCK, set_SPI_SW_MOSI, SpiSt.emit,
      SpiPins.apply]

theorem spi_sw_xmit_loop_loopback (l : List Nat) (a : Nat × SpiSt) :
    (l.foldl (fun (p : Nat × SpiSt) (i : Nat) => spi_sw_xmit_bit spiLoopback p.1 p.2 i) a).1 =
      rotl8^[l.length] a.1 := by
  induction l generalizing a with
  | nil => rfl
  | cons i l ih =>
    rw [List.foldl_cons, ih, spi_sw_xmit_bit_loopback, List.length_cons,
      Function.iterate_succ_apply]

set_option maxRecDepth 100000 in
theorem rotl8_eight : ∀ v : Fin 256, rotl8^[8] v.val = v.val := by
  decide

/-- C16: for every 8-bit value `v` and every state of the engine (so for
every mode), `spi_sw_xmit v` run against a loopback, where each sample of
the input line is the level currently on the output data line, returns
`v`. -/
theorem spi_sw_xmit_loopback (v : Nat) (s : SpiSt) (hv : v < 256) :
    (spi_sw_xmit spiLoopback v s).1 = v := by
  unfold spi_sw_xmit
  dsimp only
  rw [spi_sw_xmit_loop_loopback]
  exact rotl8_eight ⟨v, hv⟩

/-- Witness of C16: `0xA5` in each of the four modes. -/
theorem spi_sw_xmit_loopback_witness :
    (spi_sw_xmit spiLoopback 0xA5 (spi_sw_init 0 spiReset)).1 = 0xA5 ∧
    (spi_sw_xmit spiLoopback 0xA5 (spi_sw_init 1 spiReset)).1 = 0xA5 ∧
    (spi_sw_xmit spiLoopback 0xA5 (spi_sw_init 2 spiReset)).1 = 0xA5 ∧
    (spi_sw_xmit spiLoopback 0xA5 (spi_sw_init 3 spiReset)).1 = 0xA5 :=
  ⟨spi_sw_xmit_loopback 0xA5 _ (by decide), spi_sw_xmit_loopback 0xA5 _ (by decide),
    spi_sw_xmit_loopback 0xA5 _ (by decide), spi_sw_xmit_loopback 0xA5 _ (by decide)⟩

/-! ## Synchronous engine: byte read -/

/-- The bit loop of `spi_sw_readByte`, for any number of iterations. -/
theorem spi_sw_readByte_loop (env : SpiBus) (n d : Nat) (s : SpiSt) :
    ∃ vs : List Bool, vs.length = n ∧
      (countdown n).foldl (fun (p : Nat × SpiSt) (i : Nat) => spi_sw_readByte_bit env p.1 p.2 i)
        (d, s) = (shiftIn d vs, s.play (evSpiReadBits s.cfg vs)) := by
  induction n generalizing d s with
  | zero => exact ⟨[], rfl, rfl⟩
  | succ n ih =>
    obtain ⟨vs, hlen, hvs⟩ := ih (spi_sw_readByte_bit env d s (n + 1)).1
      (spi_sw_readByte_bit env d s (n + 1)).2
    refine ⟨env.miso (set_SPI_SW_SCK s.cfg.flanco_muestreo s) :: vs, by simp [hlen], ?_⟩
    rw [countdown, List.foldl_cons, hvs, spi_sw_readByte_bit_cfg, evSpiReadBits,
      spi_play_append]
    have hemp : vs.isEmpty = decide (n = 0) := by
      cases vs with
      | nil => simp at hlen; simp [hlen]
      | cons w ws => simp at hlen; simp; omega
    have hstep : (spi_sw_readByte_bit env d s (n + 1)).2 =
        s.play ([.sck s.cfg.flanco_muestreo,
          .rdMiso (env.miso (set_SPI_SW_SCK s.cfg.flanco_muestreo s))] ++
          (if vs.isEmpty then [] else [.sck s.cfg.flanco_propagacion])) := by
      rw [hemp]
      cases n <;> rfl
    rw [hstep]
    rfl

/-- Closed form of `spi_sw_readByte`: it samples eight levels `vs` and
returns the value of the shift register. -/
theorem spi_sw_readByte_eq_play (env : SpiBus) (s : SpiSt) :
    ∃ vs : List Bool, vs.length = 8 ∧
      spi_sw_readByte env s = (shiftIn 0 vs, s.play (evSpiReadByte s.cfg vs)) := by
  obtain ⟨vs, hlen, hvs⟩ := spi_sw_readByte_loop env 8 0
    (set_SPI_SW_MOSI false (spi_delay_us 1 (set_SPI_SW_SCK s.cfg.flanco_propagacion s)))
  refine ⟨vs, hlen, ?_⟩
  unfold spi_sw_readByte
  dsimp only
  rw [hvs, evSpiReadByte, spi_play_append, spi_play_append]
  simp only [spi_play_cfg]
  rfl

theorem misoSamples_append (a b : List SpiEv) :
    misoSamples (a ++ b) = misoSamples a ++ misoSamples b := by
  simp [misoSamples, List.filterMap_append]

theorem misoSamples_readBits (c : SpiCfg) (vs : List Bool) :
    misoSamples (evSpiReadBits c vs) = vs := by
  induction vs with
  | nil => rfl
  | cons v vs ih =>
    rw [evSpiReadBits, misoSamples_append, ih]
    cases vs <;> simp [misoSamples]

theorem misoSamples_readByte (c : SpiCfg) (vs : List Bool) :
    misoSamples (evSpiReadByte c vs) = vs := by
  rw [evSpiReadByte, misoSamples_append, misoSamples_append, misoSamples_readBits]
  simp [misoSamples]

set_option maxRecDepth 100000 in
theorem shiftIn_eight : ∀ a b c d e f g k : Bool,
    shiftIn 0 [a, b, c, d, e, f, g, k] = msbAcc [a, b, c, d, e, f, g, k] := by
  decide

theorem shiftIn_eq_msbAcc (vs : List Bool) (h : vs.length = 8) : shiftIn 0 vs = msbAcc vs := by
  obtain ⟨a, b, c, d, e, f, g, k, rfl⟩ := list_length_eight vs h
  exact shiftIn_eight a b c d e f g k

/-! ## Bytes of a value in memory -/

theorem byteAt_eq (d i : Nat) : byteAt d i = d / 256 ^ i % 256 := by
  rw [byteAt, Nat.shiftRight_eq_div_pow, Nat.pow_mul]

theorem byteAt_lt (d i : Nat) : byteAt d i < 256 := by
  rw [byteAt]
  exact Nat.mod_lt _ (by decide)

theorem assembleLE_append (bs : List Nat) (b : Nat) :
    assembleLE (bs ++ [b]) = assembleLE bs + b * 256 ^ bs.length := by
  induction bs with
  | nil => simp [assembleLE]
  | cons a bs ih =>
    have e : assembleLE (a :: (bs ++ [b])) = a + 256 * assembleLE (bs ++ [b]) := rfl
    have e' : assembleLE (a :: bs) = a + 256 * assembleLE bs := rfl
    rw [List.cons_append, e, e', ih, List.length_cons, pow_succ]
    ring

theorem assembleLE_lt (bs : List Nat) (h : ∀ b ∈ bs, b < 256) :
    assembleLE bs < 256 ^ bs.length := by
  induction bs with
  | nil => simp [assembleLE]
  | cons a bs ih =>
    have e' : assembleLE (a :: bs) = a + 256 * assembleLE bs := rfl
    have ha : a < 256 := h a (List.mem_cons_self _ _)
    have hb := ih (fun b hb => h b (List.mem_cons_of_mem _ hb))
    rw [e', List.length_cons, pow_succ]
    omega

/-- Storing one more byte: the store `*(p+i) = b` at the next offset. -/
theorem setByteAt_storeLE (d₀ : Nat) (bs : List Nat) (b : Nat) (h : ∀ x ∈ bs, x < 256)
    (hb : b < 256) :
    setByteAt (storeLE d₀ bs) bs.length b = storeLE d₀ (bs ++ [b]) := by
  have hA := assembleLE_lt bs h
  have hP : 0 < 256 ^ bs.length := Nat.pow_pos (by decide)
  rw [setByteAt, byteAt_eq, storeLE, storeLE, assembleLE_append, List.length_append,
    List.length_singleton, pow_succ, ← Nat.div_div_eq_div_mul]
  generalize assembleLE bs = A at *
  generalize 256 ^ bs.length = P at *
  generalize d₀ / P = J
  have h1 : (A + J * P) / P = J := by
    rw [Nat.add_mul_div_right _ _ hP, Nat.div_eq_of_lt hA, Nat.zero_add]
  rw [h1, Nat.mod_eq_of_lt hb]
  have h2 : J * P = J / 256 * (P * 256) + J % 256 * P := by
    have := Nat.div_add_mod J 256
    calc J * P = (256 * (J / 256) + J % 256) * P := by rw [this]
      _ = J / 256 * (P * 256) + J % 256 * P := by ring
  rw [h2]
  omega

theorem assembleLE_byteAt (v n : Nat) :
    assembleLE ((List.range n).map (byteAt v)) = v % 256 ^ n := by
  induction n with
  | zero => simp [assembleLE, Nat.mod_one]
  | succ n ih =>
    rw [List.range_succ, List.map_append, List.map_singleton, assembleLE_append, ih,
      List.length_map, List.length_range, byteAt_eq, pow_succ, Nat.mod_mul]
    ring

/-- Lists of chunks of the same length with the same concatenation are equal. -/
theorem flatten_inj_of_length {α : Type} (k : Nat) (as bs : List (List α))
    (hlen : as.length = bs.length) (ha : ∀ a ∈ as, a.length = k) (hb : ∀ b ∈ bs, b.length = k)
    (h : as.flatten = bs.flatten) : as = bs := by
  induction as generalizing bs with
  | nil =>
    cases bs with
    | nil => rfl
    | cons b bs => simp at hlen
  | cons a as ih =>
    cases bs with
    | nil => simp at hlen
    | cons b bs =>
      rw [List.flatten_cons, List.flatten_cons] at h
      have hab : a.length = b.length := by
        rw [ha a (List.mem_cons_self _ _), hb b (List.mem_cons_self _ _)]
      obtain ⟨h1, h2⟩ := List.append_inj h hab
      rw [h1, ih bs (by simpa using hlen) (fun x hx => ha x (List.mem_cons_of_mem _ hx))
        (fun x hx => hb x (List.mem_cons_of_mem _ hx)) h2]

/-! ## Synchronous engine: multi-byte transfers -/

/-- Closed form of the multi-byte write loop: the bytes of the value go out
one after the other, byte at address offset 0 first. -/
theorem spi_sw_writeBytes_eq_play (n v : Nat) (s : SpiSt) :
    spi_sw_writeBytes n v s =
      s.play (((List.range n).map (byteAt v)).flatMap (evSpiWriteByte s.cfg)) := by
  unfold spi_sw_writeBytes
  induction n with
  | zero => rfl
  | succ n ih =>
    rw [List.range_succ, List.foldl_append, ih, List.map_append, List.flatMap_append,
      spi_play_append]
    simp only [List.foldl_cons, List.foldl_nil, List.map_singleton, List.flatMap_cons,
      List.flatMap_nil, List.append_nil]
    rw [spi_sw_writeByte_eq_play _ _ (byteAt_lt v n), spi_play_cfg]

theorem mosiAtSamplingEdges_writeBytes (c : SpiCfg)
    (hc : c.flanco_muestreo = !c.flanco_propagacion) (bs : List Nat) (p : SpiPins) :
    mosiAtSamplingEdges c p (bs.flatMap (evSpiWriteByte c)) = (bs.map bitsMSB).flatten := by
  induction bs generalizing p with
  | nil => rfl
  | cons b bs ih =>
    rw [List.flatMap_cons, mosiAtSamplingEdges_append, mosiAtSamplingEdges_writeByte c hc, ih,
      List.map_cons, List.flatten_cons]

/-- Closed form of the multi-byte read loop: it samples `n` chunks of eight
levels, and byte `i` of the result is the value of chunk `i` read most
significant bit first. -/
theorem spi_sw_readBytes_eq_play (env : SpiBus) (n d₀ : Nat) (s : SpiSt) :
    ∃ chunks : List (List Bool), chunks.length = n ∧ (∀ ch ∈ chunks, ch.length = 8) ∧
      spi_sw_readBytes env n d₀ s =
        (storeLE d₀ (chunks.map msbAcc), s.play (chunks.flatMap (evSpiReadByte s.cfg))) := by
  unfold spi_sw_readBytes
  induction n with
  | zero => exact ⟨[], rfl, by simp, by simp [storeLE, assembleLE, spi_play_nil]⟩
  | succ n ih =>
    obtain ⟨chunks, hlen, h8, hrun⟩ := ih
    obtain ⟨vs, hvs, hread⟩ := spi_sw_readByte_eq_play env
      (s.play (chunks.flatMap (evSpiReadByte s.cfg)))
    refine ⟨chunks ++ [vs], by simp [hlen], ?_, ?_⟩
    · intro ch hch
      rcases List.mem_append.1 hch with h | h
      · exact h8 ch h
      · simp at h; rw [h]; exact hvs
    · rw [List.range_succ, List.foldl_append, hrun]
      simp only [List.foldl_cons, List.foldl_nil]
      rw [hread, spi_play_cfg, List.flatMap_append, spi_play_append, List.map_append]
      simp only [List.map_singleton, List.flatMap_cons, List.flatMap_nil, List.append_nil]
      have hb : ∀ x ∈ chunks.map msbAcc, x < 256 := by
        intro x hx
        obtain ⟨ch, hch, rfl⟩ := List.mem_map.1 hx
        have := msbAcc_lt ch
        rw [h8 ch hch] at this
        exact this
      have hv : msbAcc vs < 256 := by
        have := msbAcc_lt vs
        rw [hvs] at this
        exact this
      have hst := setByteAt_storeLE d₀ (chunks.map msbAcc) (msbAcc vs) hb hv
      rw [List.length_map, hlen] at hst
      rw [shiftIn_eq_msbAcc vs hvs, hst]

theorem misoSamples_readBytes (c : SpiCfg) (chunks : List (List Bool)) :
    misoSamples (chunks.flatMap (evSpiReadByte c)) = chunks.flatten := by
  induction chunks with
  | nil => rfl
  | cons ch chunks ih =>
    rw [List.flatMap_cons, misoSamples_append, misoSamples_readByte, ih, List.flatten_cons]

/-- Round trip of the multi-byte helpers: a read of `n` bytes whose samples
are the levels that a write of the `n`-byte value `v` presented at its
sampling edges returns `v`, whatever the variable held before. -/
theorem spi_sw_bytes_round_trip (env : SpiBus) (n v d₀ : Nat) (sW sR : SpiSt)
    (hv : v < 256 ^ n) (hd : d₀ < 256 ^ n)
    (hc : sW.cfg.flanco_muestreo = !sW.cfg.flanco_propagacion)
    (hloop : misoSamples (spiNewEvents sR (spi_sw_readBytes env n d₀ sR).2) =
      mosiAtSamplingEdges sW.cfg sW.pins (spiNewEvents sW (spi_sw_writeBytes n v sW))) :
    (spi_sw_readBytes env n d₀ sR).1 = v := by
  obtain ⟨chunks, hlen, h8, hrun⟩ := spi_sw_readBytes_eq_play env n d₀ sR
  rw [hrun, spi_sw_writeBytes_eq_play, spiNewEvents_play, spiNewEvents_play,
    misoSamples_readBytes, mosiAtSamplingEdges_writeBytes _ hc] at hloop
  have hch : chunks = ((List.range n).map (byteAt v)).map bitsMSB := by
    refine flatten_inj_of_length 8 _ _ (by simp [hlen]) h8 ?_ hloop
    intro b hb
    obtain ⟨x, _, rfl⟩ := List.mem_map.1 hb
    simp [bitsMSB]
  have hbytes : chunks.map msbAcc = (List.range n).map (byteAt v) := by
    rw [hch, List.map_map, List.map_map]
    apply List.map_congr_left
    intro i _
    exact msbAcc_bitsMSB ⟨byteAt v i, byteAt_lt v i⟩
  rw [hrun]
  show storeLE d₀ (chunks.map msbAcc) = v
  rw [hbytes, storeLE, assembleLE_byteAt, List.length_map, List.length_range,
    Nat.div_eq_of_lt hd, Nat.zero_mul, Nat.add_zero, Nat.mod_eq_of_lt hv]

/-- C17: multi-byte round trip on the synchronous engine.  For every 32-bit
value `v` and every configuration of the writer with complementary sampling
and propagation levels (every mode), if the 32 samples of the input line
taken by `spi_sw_readInt32` are, in order, the 32 levels of the output data
line at the sampling edges of `spi_sw_writeInt32 v`, then `spi_sw_readInt32`
returns `v`; the same holds for the 4-byte pattern moved by
`spi_sw_writeFloat` and `spi_sw_readFloat`, whatever the result variable of
`spi_sw_readFloat` held before. -/
theorem spi_sw_int32_round_trip (env : SpiBus) (v junk : Nat) (sW sR : SpiSt)
    (hv : v < 2 ^ 32) (hj : junk < 2 ^ 32)
    (hc : sW.cfg.flanco_muestreo = !sW.cfg.flanco_propagacion) :
    (misoSamples (spiNewEvents sR (spi_sw_readInt32 env sR).2) =
        mosiAtSamplingEdges sW.cfg sW.pins (spiNewEvents sW (spi_sw_writeInt32 v sW)) →
      (spi_sw_readInt32 env sR).1 = v) ∧
    (misoSamples (spiNewEvents sR (spi_sw_readFloat env 4 junk sR).2) =
        mosiAtSamplingEdges sW.cfg sW.pins (spiNewEvents sW (spi_sw_writeFloat 4 v sW)) →
      (spi_sw_readFloat env 4 junk sR).1 = v) :=
  ⟨fun h => spi_sw_bytes_round_trip env 4 v 0 sW sR hv (by decide) hc h,
    fun h => spi_sw_bytes_round_trip env 4 v junk sW sR hv hj hc h⟩

set_option maxRecDepth 1000000 in
/-- Witness of C17: `0x12345678` written in mode 3 and read in mode 0 from a
line that shows the levels the writer presented. -/
theorem spi_sw_int32_round_trip_witness :
    (spi_sw_readInt32 (spiWire 0x12345678) (spi_sw_init 0 spiReset)).1 = 0x12345678 ∧
    (spi_sw_readFloat (spiWire 0x12345678) 4 0xFFFFFFFF (spi_sw_init 0 spiReset)).1 =
      0x12345678 := by
  have h := spi_sw_int32_round_trip (spiWire 0x12345678) 0x12345678 0xFFFFFFFF
    (spi_sw_init 3 spiReset) (spi_sw_init 0 spiReset) (by decide) (by decide) (by decide)
  exact ⟨h.1 (by decide), h.2 (by decide)⟩

/-! ## Serial engine -/

theorem ser_play_nil (s : SerSt) : s.play [] = s := rfl

theorem ser_play_cons (s : SerSt) (e : SerEv) (es : List SerEv) :
    s.play (e :: es) = (s.emit e).play es := rfl

theorem ser_play_append (s : SerSt) (a b : List SerEv) :
    s.play (a ++ b) = (s.play a).play b := by
  simp [SerSt.play, List.foldl_append]

theorem ser_emit_trace (s : SerSt) (e : SerEv) : (s.emit e).trace = s.trace ++ [e] := by
  cases e <;> rfl

theorem ser_play_trace (s : SerSt) (evs : List SerEv) :
    (s.play evs).trace = s.trace ++ evs := by
  induction evs generalizing s with
  | nil => simp [ser_play_nil]
  | cons e es ih => rw [ser_play_cons, ih, ser_emit_trace, List.append_assoc]; rfl

/-- The bit loop of `serial_sw_writeByte`, for any number of iterations. -/
theorem serial_sw_writeByte_loop (xtal : Nat) (l : List Nat) (d : Nat) (s : SerSt) :
    (l.foldl (fun (p : Nat × SerSt) (_ : Nat) => serial_sw_writeByte_bit xtal p.1 p.2)
      (d, s)).2 = s.play ((lowBits l.length d).flatMap
        (fun v => [.tx v, .delay (CYCLES_DELAY_TX_BIT xtal)])) := by
  induction l generalizing d s with
  | nil => rfl
  | cons i l ih =>
    rw [List.foldl_cons, List.length_cons, lowBits, List.flatMap_cons, ser_play_append]
    exact ih _ _

set_option maxRecDepth 100000 in
theorem lowBits_eq_bitsLSB : ∀ b : Fin 256, lowBits 8 b.val = bitsLSB b.val := by
  decide

/-- Closed form of `serial_sw_writeByte`: one 8N1 frame. -/
theorem serial_sw_writeByte_eq_play (xtal b : Nat) (s : SerSt) (hb : b < 256) :
    serial_sw_writeByte xtal b s = s.play (evSerialFrame xtal b) := by
  unfold serial_sw_writeByte
  dsimp only
  rw [serial_sw_writeByte_loop]
  have h8 : (countdown 8).length = 8 := rfl
  rw [h8, lowBits_eq_bitsLSB ⟨b, hb⟩, evSerialFrame, List.flatMap_append, List.flatMap_cons,
    ser_play_append, ser_play_append]
  rfl

/-- C18: for every byte `b`, `serial_sw_writeByte b` puts exactly ten levels
on the transmit line, each followed by exactly one bit-period delay: low
(start bit), then bit 0, bit 1, .., bit 7 of `b` (least significant first),
then high (stop bit); the transmit latch is high on return. -/
theorem serial_sw_writeByte_frame (xtal b : Nat) (s : SerSt) (hb : b < 256) :
    (serial_sw_writeByte xtal b s).trace = s.trace ++
      (false :: (List.range 8).map (fun k => b.testBit k) ++ [true]).flatMap
        (fun v => [.tx v, .delay (CYCLES_DELAY_TX_BIT xtal)]) ∧
    (false :: (List.range 8).map (fun k => b.testBit k) ++ [true]).length = 10 ∧
    (serial_sw_writeByte xtal b s).tx = true := by
  have h := serial_sw_writeByte_eq_play xtal b s hb
  refine ⟨?_, by simp, ?_⟩
  · rw [h, ser_play_trace]
    rfl
  · rw [h, evSerialFrame, List.flatMap_append, ser_play_append]
    rfl

/-- Witness of C18: the frame of `0x41`. -/
theorem serial_sw_writeByte_frame_witness :
    (serial_sw_writeByte 48000000 0x41 serIdle).trace =
      [.tx false, .delay 1238, .tx true, .delay 1238, .tx false, .delay 1238,
        .tx false, .delay 1238, .tx false, .delay 1238, .tx false, .delay 1238,
        .tx false, .delay 1238, .tx true, .delay 1238, .tx false, .delay 1238,
        .tx true, .delay 1238] ∧
    (serial_sw_writeByte 48000000 0x41 serIdle).tx = true := by
  have h := serial_sw_writeByte_frame 48000000 0x41 serIdle (by decide)
  exact ⟨h.1.trans (by decide), h.2.2⟩

/-- A start-bit wait that ends saw `n < fuel` high readings and then a low
one, and did nothing else. -/
theorem waitRxLow_ok (env : SerBus) (fuel : Nat) (s t : SerSt)
    (h : waitRxLow env fuel s = .ok t) :
    ∃ n, n < fuel ∧ t = s.play (List.replicate n (.rdRx true) ++ [.rdRx false]) ∧
      (∀ k, k < n → env.rx (s.nRx + k) = true) ∧ env.rx (s.nRx + n) = false := by
  induction fuel generalizing s with
  | zero => simp [waitRxLow] at h
  | succ fuel ih =>
    rw [waitRxLow] at h
    by_cases hv : env.rx s.nRx = true
    · simp only [get_SW_RX, hv, if_true] at h
      obtain ⟨n, hn, ht, hhigh, hlow⟩ := ih _ h
      have hn1 : (s.emit (.rdRx true)).nRx = s.nRx + 1 := rfl
      rw [hn1] at hhigh hlow
      refine ⟨n + 1, Nat.succ_lt_succ hn, by rw [ht, List.replicate_succ]; rfl, ?_, ?_⟩
      · intro k hk
        cases k with
        | zero => exact hv
        | succ k =>
          have := hhigh k (by omega)
          rw [← this]
          congr 1
          omega
      · rw [← hlow]
        congr 1
        omega
    · simp only [Bool.not_eq_true] at hv
      simp only [get_SW_RX, hv, Bool.false_eq_true, if_false, Except.ok.injEq] at h
      exact ⟨0, Nat.succ_pos _, by rw [← h]; rfl, by intro k hk; omega, hv⟩

/-- The start-bit wait is determined by the readings up to the first low
one. -/
theorem waitRxLow_eq (env : SerBus) (fuel n : Nat) (s : SerSt) (hn : n < fuel)
    (hhigh : ∀ k, k < n → env.rx (s.nRx + k) = true) (hlow : env.rx (s.nRx + n) = false) :
    waitRxLow env fuel s = .ok (s.play (List.replicate n (.rdRx true) ++ [.rdRx false])) := by
  induction fuel generalizing s n with
  | zero => omega
  | succ fuel ih =>
    rw [waitRxLow]
    cases n with
    | zero =>
      have hv : env.rx s.nRx = false := hlow
      simp only [get_SW_RX, hv, Bool.false_eq_true, if_false]
      rfl
    | succ n =>
      have hv : env.rx s.nRx = true := hhigh 0 (Nat.succ_pos n)
      simp only [get_SW_RX, hv, if_true]
      have hn1 : (s.emit (.rdRx true)).nRx = s.nRx + 1 := rfl
      rw [ih n (s.emit (.rdRx true)) (by omega)
        (by intro k hk; rw [hn1, ← hhigh (k + 1) (by omega)]; congr 1; omega)
        (by rw [hn1, ← hlow]; congr 1; omega), List.replicate_succ]
      rfl

/-- The start-bit wait ends as soon as the line is low within the budget. -/
theorem waitRxLow_total (env : SerBus) (fuel : Nat) (s : SerSt)
    (h : ∃ m, m < fuel ∧ env.rx (s.nRx + m) = false) : ∃ t, waitRxLow env fuel s = .ok t := by
  induction fuel generalizing s with
  | zero => obtain ⟨m, hm, _⟩ := h; omega
  | succ fuel ih =>
    obtain ⟨m, hm, hlow⟩ := h
    rw [waitRxLow]
    by_cases hv : env.rx s.nRx = true
    · simp only [get_SW_RX, hv, if_true]
      cases m with
      | zero => simp [hv] at hlow
      | succ m =>
        apply ih
        refine ⟨m, by omega, ?_⟩
        have : (s.emit (.rdRx true)).nRx = s.nRx + 1 := rfl
        rw [this, ← hlow]
        congr 1
        omega
    · simp only [Bool.not_eq_true] at hv
      exact ⟨s.emit (.rdRx false), by simp only [get_SW_RX, hv, Bool.false_eq_true, if_false]⟩

/-- The sampling loop of `serial_sw_readByte`, from any loop index: the
samples are the next `n` readings of the line. -/
theorem serial_sw_readByte_loop (xtal : Nat) (env : SerBus) (n i d : Nat) (s : SerSt) :
    (List.range' i n).foldl (fun (p : Nat × SerSt) (bit_count : Nat) =>
        serial_sw_readByte_bit xtal env p.1 p.2 bit_count) (d, s) =
      (orBits d i ((List.range n).map (fun k => env.rx (s.nRx + k))),
        s.play (((List.range n).map (fun k => env.rx (s.nRx + k))).flatMap
          (fun v => [.rdRx v, .delay (CYCLES_DELAY_RX_BIT xtal)]))) := by
  induction n generalizing i d s with
  | zero => rfl
  | succ n ih =>
    have hn1 : (serial_sw_readByte_bit xtal env d s i).2.nRx = s.nRx + 1 := rfl
    have hmap : (List.range (n + 1)).map (fun k => env.rx (s.nRx + k)) =
        env.rx s.nRx :: (List.range n).map (fun k => env.rx (s.nRx + 1 + k)) := by
      rw [List.range_succ_eq_map, List.map_cons, List.map_map]
      congr 1
      apply List.map_congr_left
      intro k _
      show env.rx (s.nRx + (k + 1)) = env.rx (s.nRx + 1 + k)
      congr 1
      omega
    rw [List.range'_succ, List.foldl_cons, ih, hn1, hmap, List.flatMap_cons,
      ser_play_append]
    rfl

theorem ser_play_polls_nRx (s : SerSt) (n : Nat) :
    (s.play (List.replicate n (.rdRx true) ++ [.rdRx false])).nRx = s.nRx + n + 1 := by
  induction n generalizing s with
  | zero => rfl
  | succ n ih =>
    rw [List.replicate_succ, List.cons_append, ser_play_cons, ih]
    show s.nRx + 1 + n + 1 = s.nRx + (n + 1) + 1
    omega

set_option maxRecDepth 100000 in
theorem orBits_eight : ∀ a b c d e f g k : Bool,
    orBits 0 0 [a, b, c, d, e, f, g, k] = byteOfSamplesLSB [a, b, c, d, e, f, g, k] ∧
    ∀ j : Fin 8, (orBits 0 0 [a, b, c, d, e, f, g, k]).testBit j.val =
      [a, b, c, d, e, f, g, k].getD j.val false := by
  decide

/-- Closed form of `serial_sw_readByte` on a line whose first low reading is
the `n`-th one from now. -/
theorem serial_sw_readByte_closed (xtal : Nat) (env : SerBus) (fuel n : Nat) (s : SerSt)
    (hn : n < fuel) (hhigh : ∀ k, k < n → env.rx (s.nRx + k) = true)
    (hlow : env.rx (s.nRx + n) = false) :
    serial_sw_readByte xtal env fuel s =
      .ok (orBits 0 0 (serialSamples env s n),
        s.play (evSerialRead xtal n (serialSamples env s n))) := by
  unfold serial_sw_readByte
  rw [waitRxLow_eq env fuel n s hn hhigh hlow, except_ok_bind, List.range_eq_range']
  dsimp only
  rw [serial_sw_readByte_loop]
  have hnrx : (serial_delay (CYCLES_DELAY_RX_HALFBIT xtal) (serial_delay (CYCLES_DELAY_RX_BIT xtal)
      (s.play (List.replicate n (.rdRx true) ++ [.rdRx false])))).nRx = s.nRx + n + 1 :=
    ser_play_polls_nRx s n
  rw [hnrx, evSerialRead]
  simp only [ser_play_append]
  rfl

/-- Complete description of a `serial_sw_readByte` that returns. -/
theorem serial_sw_readByte_ok (xtal : Nat) (env : SerBus) (fuel : Nat) (s t : SerSt) (r : Nat)
    (h : serial_sw_readByte xtal env fuel s = .ok (r, t)) :
    ∃ n, n < fuel ∧ (∀ k, k < n → env.rx (s.nRx + k) = true) ∧ env.rx (s.nRx + n) = false ∧
      t = s.play (evSerialRead xtal n (serialSamples env s n)) ∧
      r = orBits 0 0 (serialSamples env s n) := by
  have h' := h
  unfold serial_sw_readByte at h'
  obtain ⟨u, hu, _⟩ := except_bind_ok h'
  obtain ⟨n, hn, _, hhigh, hlow⟩ := waitRxLow_ok env fuel s u hu
  rw [serial_sw_readByte_closed xtal env fuel n s hn hhigh hlow] at h
  simp only [Except.ok.injEq, Prod.mk.injEq] at h
  exact ⟨n, hn, hhigh, hlow, h.2.symm, h.1.symm⟩

theorem serial_sw_readByte_total (xtal : Nat) (env : SerBus) (fuel : Nat) (s : SerSt)
    (h : ∃ m, m < fuel ∧ env.rx (s.nRx + m) = false) :
    ∃ r t, serial_sw_readByte xtal env fuel s = .ok (r, t) := by
  obtain ⟨u, hu⟩ := waitRxLow_total env fuel s h
  simp only [serial_sw_readByte, hu, except_ok_bind]
  exact ⟨_, _, rfl⟩

/-- C19: once the start bit is detected (the first low reading of the
receive pin), `serial_sw_readByte` delays one full bit period and one half
bit period, then takes exactly eight samples `s0..s7` of the receive pin,
each followed by one full bit-period delay, and returns the byte whose bit
`k` is `s_k` (least significant first).  There is no ninth sample: the run
reads the pin `n + 9` times in all, and on any line that agrees with this one
on these readings, whatever it shows afterwards (the stop bit), the function
returns the same result.  The function returns whenever the line reads low
within the poll budget. -/
theorem serial_sw_readByte_samples (xtal : Nat) (env : SerBus) (fuel : Nat) (s : SerSt) :
    (∀ r t, serial_sw_readByte xtal env fuel s = .ok (r, t) →
      ∃ (n : Nat) (vs : List Bool), vs.length = 8 ∧
        t.trace = s.trace ++ (List.replicate n (.rdRx true) ++ [.rdRx false] ++
          [.delay (CYCLES_DELAY_RX_BIT xtal), .delay (CYCLES_DELAY_RX_HALFBIT xtal)] ++
          vs.flatMap (fun v => [.rdRx v, .delay (CYCLES_DELAY_RX_BIT xtal)])) ∧
        r = byteOfSamplesLSB vs ∧ (∀ k, k < 8 → r.testBit k = vs.getD k false) ∧
        ∀ env₂ : SerBus, (∀ k, k < n + 9 → env₂.rx (s.nRx + k) = env.rx (s.nRx + k)) →
          serial_sw_readByte xtal env₂ fuel s = .ok (r, t)) ∧
    ((∃ m, m < fuel ∧ env.rx (s.nRx + m) = false) →
      ∃ r t, serial_sw_readByte xtal env fuel s = .ok (r, t)) := by
  refine ⟨?_, serial_sw_readByte_total xtal env fuel s⟩
  intro r t h
  obtain ⟨n, hn, hhigh, hlow, ht, hr⟩ := serial_sw_readByte_ok xtal env fuel s t r h
  have hlen : (serialSamples env s n).length = 8 := by simp [serialSamples]
  refine ⟨n, serialSamples env s n, hlen, ?_, ?_, ?_, ?_⟩
  · rw [ht, ser_play_trace, evSerialRead]
  · obtain ⟨a, b, c, d, e, f, g, k, hvs⟩ := list_length_eight _ hlen
    rw [hr, hvs]
    exact (orBits_eight a b c d e f g k).1
  · obtain ⟨a, b, c, d, e, f, g, k, hvs⟩ := list_length_eight _ hlen
    rw [hr, hvs]
    exact fun j hj => (orBits_eight a b c d e f g k).2 ⟨j, hj⟩
  · intro env₂ hagree
    have hs : serialSamples env₂ s n = serialSamples env s n := by
      unfold serialSamples
      apply List.map_congr_left
      intro k hk
      have hk8 : k < 8 := List.mem_range.1 hk
      have := hagree (n + 1 + k) (by omega)
      rw [← Nat.add_assoc, ← Nat.add_assoc] at this
      exact this
    rw [serial_sw_readByte_closed xtal env₂ fuel n s hn
      (fun k hk => (hagree k (by omega)).trans (hhigh k hk))
      ((hagree n (by omega)).trans hlow), hs, ← ht, ← hr]

/-- Witness of C19: the frame of `0x41` received after two idle polls. -/
theorem serial_sw_readByte_samples_witness :
    (serial_sw_readByte 48000000 serLine 3 serIdle).map Prod.fst = .ok 0x41 := by
  have h := serial_sw_readByte_samples 48000000 serLine 3 serIdle
  obtain ⟨r, t, hrt⟩ := h.2 ⟨2, by decide, by decide⟩
  obtain ⟨n, vs, _, htr, hr, _⟩ := h.1 r t hrt
  have : (serial_sw_readByte 48000000 serLine 3 serIdle).map Prod.fst = .ok r := by
    rw [hrt]; rfl
  rw [this]
  have hr' : (serial_sw_readByte 48000000 serLine 3 serIdle).map Prod.fst = .ok 0x41 := by
    decide
  rw [this] at hr'
  exact hr'

/-- The string loop: every character before the terminator is sent. -/
theorem serial_sw_puts_eq_play (xtal : Nat) (chars tail : List Nat) (s : SerSt)
    (h : ∀ c ∈ chars, c ≠ 0 ∧ c < 256) :
    serial_sw_puts xtal (chars ++ 0 :: tail) s =
      some (s.play (chars.flatMap (evSerialFrame xtal))) := by
  induction chars generalizing s with
  | nil => simp [serial_sw_puts, ser_play_nil]
  | cons c chars ih =>
    have hc := h c (List.mem_cons_self _ _)
    rw [List.cons_append, serial_sw_puts, if_pos hc.1, ih _ (fun x hx =>
      h x (List.mem_cons_of_mem _ hx)), serial_sw_writeByte_eq_play xtal c s hc.2,
      List.flatMap_cons, ser_play_append]

/-- C20: for every NUL-terminated string (the characters `chars`, none of
them zero, then the terminator, then whatever memory follows),
`serial_sw_writeLine` transmits, in order, one 8N1 frame for each character
before the terminator, then one frame for `0x0D` and one for `0x0A`, and
nothing else. -/
theorem serial_sw_writeLine_frames (xtal : Nat) (chars tail : List Nat) (s : SerSt)
    (h : ∀ c ∈ chars, c ≠ 0 ∧ c < 256) :
    ∃ t, serial_sw_writeLine xtal (chars ++ 0 :: tail) s = some t ∧
      t.trace = s.trace ++ (chars ++ [0x0D, 0x0A]).flatMap (evSerialFrame xtal) := by
  unfold serial_sw_writeLine
  rw [serial_sw_puts_eq_play xtal chars tail s h]
  refine ⟨_, rfl, ?_⟩
  rw [serial_sw_writeByte_eq_play xtal 0x0A _ (by decide),
    serial_sw_writeByte_eq_play xtal 0x0D _ (by decide), ser_play_trace, ser_play_trace,
    ser_play_trace, List.flatMap_append]
  simp [List.append_assoc]

/-- Witness of C20: the string "AB" yields the frames of `0x41`, `0x42`,
`0x0D`, `0x0A`, and the empty string the frames of `0x0D`, `0x0A` only. -/
theorem serial_sw_writeLine_frames_witness :
    (∃ t, serial_sw_writeLine 48000000 [0x41, 0x42, 0] serIdle = some t ∧
      t.trace = [0x41, 0x42, 0x0D, 0x0A].flatMap (evSerialFrame 48000000)) ∧
    (∃ t, serial_sw_writeLine 48000000 [0] serIdle = some t ∧
      t.trace = [0x0D, 0x0A].flatMap (evSerialFrame 48000000)) :=
  ⟨serial_sw_writeLine_frames 48000000 [0x41, 0x42] [] serIdle (by decide),
    serial_sw_writeLine_frames 48000000 [] [] serIdle (by simp)⟩

/-! ## Mode table of the synchronous engine -/

/-- C22: mode table of the synchronous engine.  After `spi_sw_setMode m`
the sampling level is high and the propagation level low for modes 0 and 3
(data sampled on the rising clock edge), the sampling level is low and the
propagation level high for modes 1 and 2 (data sampled on the falling clock
edge), and the idle level is low for modes 0 and 1 and high for modes 2 and
3, as the table of the header documents. -/
theorem spi_sw_setMode_table (s : SpiSt) :
    (spi_sw_setMode 0 s).cfg =
      { spi_sw_mode := 0, flanco_muestreo := true,
        flanco_propagacion := false, estado_inactivo_reloj := false } ∧
    (spi_sw_setMode 1 s).cfg =
      { spi_sw_mode := 1, flanco_muestreo := false,
        flanco_propagacion := true, estado_inactivo_reloj := false } ∧
    (spi_sw_setMode 2 s).cfg =
      { spi_sw_mode := 2, flanco_muestreo := false,
        flanco_propagacion := true, estado_inactivo_reloj := true } ∧
    (spi_sw_setMode 3 s).cfg =
      { spi_sw_mode := 3, flanco_muestreo := true,
        flanco_propagacion := false, estado_inactivo_reloj := true } :=
  ⟨rfl, rfl, rfl, rfl⟩

/-- C26: for every argument outside `{1, 2, 3}` (0 and every value from 4
on, so every such 8-bit value), `spi_sw_setMode` configures mode 0 (idle
low, sampling level high, propagation level low), writes the low idle level
to the clock, and `spi_sw_getMode` then returns 0, not the argument; hence
after `spi_sw_setMode` with any argument the stored mode is in
`{0, 1, 2, 3}`. -/
theorem spi_sw_setMode_default (m : Nat) (s : SpiSt) :
    (m ≠ 1 → m ≠ 2 → m ≠ 3 →
      (spi_sw_setMode m s).cfg =
        { spi_sw_mode := 0, flanco_muestreo := true,
          flanco_propagacion := false, estado_inactivo_reloj := false } ∧
      spi_sw_getMode (spi_sw_setMode m s) = 0 ∧
      (spi_sw_setMode m s).trace = s.trace ++ [.sck false]) ∧
    spi_sw_getMode (spi_sw_setMode m s) < 4 := by
  constructor
  · intro h1 h2 h3
    simp only [spi_sw_setMode, spi_sw_getMode, SPI_SW_MODE_00, SPI_SW_MODE_01, SPI_SW_MODE_10,
      SPI_SW_MODE_11, if_neg h1, if_neg h2, if_neg h3]
    exact ⟨rfl, rfl, rfl⟩
  · simp only [spi_sw_setMode, spi_sw_getMode, SPI_SW_MODE_00, SPI_SW_MODE_01, SPI_SW_MODE_10,
      SPI_SW_MODE_11, set_SPI_SW_SCK, spi_emit_cfg]
    split_ifs <;> simp

/-- Witness of C26: the argument 200. -/
theorem spi_sw_setMode_default_witness :
    (spi_sw_setMode 200 spiReset).cfg =
      { spi_sw_mode := 0, flanco_muestreo := true,
        flanco_propagacion := false, estado_inactivo_reloj := false } ∧
    spi_sw_getMode (spi_sw_setMode 200 spiReset) = 0 :=
  let h := (spi_sw_setMode_default 200 spiReset).1 (by decide) (by decide) (by decide)
  ⟨h.1, h.2.1⟩

/-! ## The 32-bit write helpers of the three engines -/

theorem byteAt_eq_and (v k : Nat) : byteAt v k = (v >>> (8 * k)) &&& 0xFF := by
  rw [byteAt]
  exact (Nat.and_pow_two_sub_one_eq_mod _ 8).symm

theorem bytesLE32_eq (v : Nat) : bytesLE32 v = (List.range 4).map (byteAt v) := by
  unfold bytesLE32
  exact List.map_congr_left (fun k _ => (byteAt_eq_and v k).symm)

theorem bytesLE32_lt (v b : Nat) (h : b ∈ bytesLE32 v) : b < 256 := by
  rw [bytesLE32_eq] at h
  obtain ⟨k, _, rfl⟩ := List.mem_map.1 h
  exact byteAt_lt v k

theorem foldl_map_index {α β : Type} (f : α → β → α) (g : Nat → β) (l : List Nat) (a : α) :
    l.foldl (fun s i => f s (g i)) a = (l.map g).foldl f a := by
  rw [List.foldl_map]

theorem foldlM_map_index {α β : Type} (f : α → β → Except α α) (g : Nat → β) (l : List Nat)
    (a : α) : l.foldlM (fun s i => f s (g i)) a = (l.map g).foldlM f a := by
  induction l generalizing a with
  | nil => rfl
  | cons i l ih =>
    rw [List.map_cons, List.foldlM_cons, List.foldlM_cons]
    exact congrArg _ (funext ih)

theorem serial_sw_writeBytes_eq_play (xtal : Nat) (bs : List Nat) (s : SerSt)
    (h : ∀ b ∈ bs, b < 256) :
    bs.foldl (fun s b => serial_sw_writeByte xtal b s) s =
      s.play (bs.flatMap (evSerialFrame xtal)) := by
  induction bs generalizing s with
  | nil => simp [ser_play_nil]
  | cons b bs ih =>
    rw [List.foldl_cons, ih _ (fun x hx => h x (List.mem_cons_of_mem _ hx)),
      serial_sw_writeByte_eq_play xtal b s (h b (List.mem_cons_self _ _)), List.flatMap_cons,
      ser_play_append]

/-- A sequence of byte writes of the two-wire engine that returns has sent
every byte of the sequence, in order, whatever was read in the
acknowledgment phases. -/
theorem i2c_sw_writeBytes_ok (env : Bus) (fuel : Nat) (bs : List Nat) (s t : St)
    (hb : ∀ b ∈ bs, b < 256)
    (h : bs.foldlM (fun s b => (i2c_sw_writeByte env fuel b s).map Prod.snd) s = .ok t) :
    ∃ obs : List WriteObs, obs.length = bs.length ∧ (∀ o ∈ obs, o.ns.length = 8) ∧
      t.trace = s.trace ++
        (bs.zip obs).flatMap (fun p => evWriteByte p.1 p.2.ns p.2.ack p.2.n) := by
  induction bs generalizing s with
  | nil =>
    simp only [List.foldlM_nil, pure, Except.pure, Except.ok.injEq] at h
    subst h
    exact ⟨[], rfl, by simp, by simp⟩
  | cons b bs ih =>
    rw [List.foldlM_cons] at h
    obtain ⟨u, hu, h⟩ := except_bind_ok h
    cases hw : i2c_sw_writeByte env fuel b s with
    | error e => rw [hw] at hu; simp [Except.map] at hu
    | ok p =>
      rw [hw] at hu
      simp only [Except.map, Except.ok.injEq] at hu
      obtain ⟨ns, v, n, hlen, _, _, hr, _, _⟩ :=
        i2c_sw_writeByte_ok env fuel b s p.2 p.1 (hb b (List.mem_cons_self _ _)) hw
      obtain ⟨obs, hol, ho8, htr⟩ := ih u (fun x hx => hb x (List.mem_cons_of_mem _ hx)) h
      refine ⟨⟨ns, v, n⟩ :: obs, by simp [hol], ?_, ?_⟩
      · intro o ho
        rcases List.mem_cons.1 ho with rfl | ho
        · exact hlen
        · exact ho8 o ho
      · rw [htr, ← hu, hr.trace, List.zip_cons_cons, List.flatMap_cons, List.append_assoc]

theorem i2c_sw_writeBytes_total (env : Bus) (N fuel : Nat) (bs : List Nat) (s : St)
    (hb : StretchBounded env N) (hf : N < fuel) :
    ∃ t, bs.foldlM (fun s b => (i2c_sw_writeByte env fuel b s).map Prod.snd) s = .ok t := by
  induction bs generalizing s with
  | nil => exact ⟨s, rfl⟩
  | cons b bs ih =>
    obtain ⟨r, u, hu⟩ := i2c_sw_writeByte_total env N fuel b s hb hf
    obtain ⟨t, ht⟩ := ih u
    refine ⟨t, ?_⟩
    rw [List.foldlM_cons, hu]
    exact ht

theorem i2c_sw_writeInt32_eq (env : Bus) (fuel v : Nat) (s : St) :
    i2c_sw_writeInt32 env fuel v s =
      (bytesLE32 v).foldlM (fun s b => (i2c_sw_writeByte env fuel b s).map Prod.snd) s := by
  rw [bytesLE32_eq, ← foldlM_map_index]
  unfold i2c_sw_writeInt32
  congr 1

/-- C21: on the little-endian target, for every value `v`, the 32-bit write
helper of each engine is exactly four byte writes, of the bytes
`(v >> 8k) & 0xFF` for `k = 0, 1, 2, 3` in that order, and its trace is the
four byte traces in that order; in the two-wire engine every run that
returns has sent the four bytes whatever levels `o.ack` were read in the
four acknowledgment phases, and the helper returns whenever every clock
release is answered within the poll budget. -/
theorem writeInt32_low_byte_first (v : Nat) :
    (∀ s : SpiSt,
      spi_sw_writeInt32 v s = (bytesLE32 v).foldl (fun s b => spi_sw_writeByte b s) s ∧
      (spi_sw_writeInt32 v s).trace =
        s.trace ++ (bytesLE32 v).flatMap (evSpiWriteByte s.cfg)) ∧
    (∀ (xtal : Nat) (s : SerSt),
      serial_sw_writeInt32 xtal v s =
        (bytesLE32 v).foldl (fun s b => serial_sw_writeByte xtal b s) s ∧
      (serial_sw_writeInt32 xtal v s).trace =
        s.trace ++ (bytesLE32 v).flatMap (evSerialFrame xtal)) ∧
    (∀ (env : Bus) (fuel : Nat) (s : St),
      i2c_sw_writeInt32 env fuel v s =
        (bytesLE32 v).foldlM (fun s b => (i2c_sw_writeByte env fuel b s).map Prod.snd) s ∧
      (∀ t, i2c_sw_writeInt32 env fuel v s = .ok t →
        ∃ obs : List WriteObs, obs.length = 4 ∧ (∀ o ∈ obs, o.ns.length = 8) ∧
          t.trace = s.trace ++
            ((bytesLE32 v).zip obs).flatMap (fun p => evWriteByte p.1 p.2.ns p.2.ack p.2.n)) ∧
      (∀ N, StretchBounded env N → N < fuel → ∃ t, i2c_sw_writeInt32 env fuel v s = .ok t)) := by
  refine ⟨fun s => ⟨?_, ?_⟩, fun xtal s => ⟨?_, ?_⟩, fun env fuel s => ⟨?_, ?_, ?_⟩⟩
  · rw [bytesLE32_eq, ← foldl_map_index]
    rfl
  · rw [spi_sw_writeInt32, spi_sw_writeBytes_eq_play, spi_play_trace, bytesLE32_eq]
  · rw [bytesLE32_eq, ← foldl_map_index]
    rfl
  · have e : serial_sw_writeInt32 xtal v s =
        (bytesLE32 v).foldl (fun s b => serial_sw_writeByte xtal b s) s := by
      rw [bytesLE32_eq, ← foldl_map_index]
      rfl
    rw [e, serial_sw_writeBytes_eq_play xtal _ s (bytesLE32_lt v), ser_play_trace]
  · exact i2c_sw_writeInt32_eq env fuel v s
  · intro t ht
    rw [i2c_sw_writeInt32_eq] at ht
    exact i2c_sw_writeBytes_ok env fuel _ s t (bytesLE32_lt v) ht
  · intro N hb hf
    rw [i2c_sw_writeInt32_eq]
    exact i2c_sw_writeBytes_total env N fuel _ s hb hf

/-- Witness of C21: the value `0xFFFFFFFF` on a bus that never acknowledges
(every read of the data line returns high): the helper returns and its trace
is four byte writes. -/
theorem writeInt32_low_byte_first_witness :
    ∃ (t : St) (obs : List WriteObs),
      i2c_sw_writeInt32 busIdle 1 0xFFFFFFFF idleSt = .ok t ∧ obs.length = 4 ∧
      t.trace = idleSt.trace ++ ((bytesLE32 0xFFFFFFFF).zip obs).flatMap
        (fun p => evWriteByte p.1 p.2.ns p.2.ack p.2.n) := by
  obtain ⟨t, ht⟩ := ((writeInt32_low_byte_first 0xFFFFFFFF).2.2 busIdle 1 idleSt).2.2 0
    stretchBounded_busIdle (by decide)
  obtain ⟨obs, h4, _, htr⟩ := ((writeInt32_low_byte_first 0xFFFFFFFF).2.2 busIdle 1 idleSt).2.1 t ht
  exact ⟨t, obs, ht, h4, htr⟩

set_option maxRecDepth 100000 in
/-- On a bus that never acknowledges, the four acknowledgment reads of
`i2c_sw_writeInt32 0xFFFFFFFF` all return high and the helper still sends
the four bytes `0xFF`. -/
theorem i2c_sw_writeInt32_all_nack :
    sdaSamples (newEvents idleSt (endSt (i2c_sw_writeInt32 busIdle 1 0xFFFFFFFF idleSt))) =
      [true, true, true, true] ∧
    bytesLE32 0xFFFFFFFF = [0xFF, 0xFF, 0xFF, 0xFF] ∧
    bytesLE32 0x12345678 = [0x78, 0x56, 0x34, 0x12] := by
  decide

/-! ## The start-bit wait of the serial engine -/

theorem waitRxLow_error (env : SerBus) (fuel : Nat) (s e : SerSt)
    (h : waitRxLow env fuel s = .error e) :
    e = s.play (List.replicate fuel (.rdRx true)) ∧
      ∀ k, k < fuel → env.rx (s.nRx + k) = true := by
  induction fuel generalizing s with
  | zero =>
    simp only [waitRxLow, Except.error.injEq] at h
    exact ⟨h.symm, fun k hk => absurd hk (Nat.not_lt_zero k)⟩
  | succ fuel ih =>
    rw [waitRxLow] at h
    by_cases hv : env.rx s.nRx = true
    · simp only [get_SW_RX, hv, if_true] at h
      obtain ⟨he, hhigh⟩ := ih _ h
      have hn1 : (s.emit (.rdRx true)).nRx = s.nRx + 1 := rfl
      rw [hn1] at hhigh
      refine ⟨by rw [he, List.replicate_succ]; rfl, ?_⟩
      intro k hk
      cases k with
      | zero => exact hv
      | succ k =>
        have := hhigh k (by omega)
        rw [Nat.add_assoc, Nat.add_comm 1 k] at this
        exact this
    · simp [get_SW_RX, hv] at h

theorem serial_sw_readByte_error (xtal : Nat) (env : SerBus) (fuel : Nat) (s e : SerSt)
    (h : serial_sw_readByte xtal env fuel s = .error e) :
    waitRxLow env fuel s = .error e := by
  unfold serial_sw_readByte at h
  cases hw : waitRxLow env fuel s with
  | error e' =>
    rw [hw] at h
    simp only [bind, Except.bind, Except.error.injEq] at h
    rw [h]
  | ok u =>
    rw [hw] at h
    simp [bind, Except.bind, pure, Except.pure] at h

/-- C23 as stated fails: on a line that is low at the first
read `serial_sw_readByte` does not wait for a transition from high to low.
It returns, the first thing it does after that single low reading is the
delay of one bit period, and it has never read the line high. -/
theorem serial_sw_readByte_no_edge_needed :
    ∃ r t, serial_sw_readByte 48000000 serLow 1 serIdle = .ok (r, t) ∧
      t.trace.take 2 = [.rdRx false, .delay (CYCLES_DELAY_RX_BIT 48000000)] ∧
      SerEv.rdRx true ∉ t.trace :=
  ⟨_, _, rfl, by decide, by decide⟩

/-- C23, amended: `serial_sw_readByte` busy-waits until a read of the input
line returns low (the line need not have been read high before) before it
starts any delay or takes any data sample, and while the line reads high it
does nothing but poll it.  A run that returns has read the line high `n`
times, these being its first `n` events, then low once, and only then come
the two delays and the eight samples; a run whose poll budget is used up
consists of nothing but `fuel` high readings; the function returns whenever
the line reads low within the poll budget. -/
theorem serial_sw_readByte_waits_for_low (xtal : Nat) (env : SerBus) (fuel : Nat) (s : SerSt) :
    (∀ r t, serial_sw_readByte xtal env fuel s = .ok (r, t) →
      ∃ (n : Nat) (vs : List Bool), n < fuel ∧
        (∀ k, k < n → env.rx (s.nRx + k) = true) ∧ env.rx (s.nRx + n) = false ∧
        t.trace = s.trace ++ (List.replicate n (.rdRx true) ++ [.rdRx false] ++
          ([.delay (CYCLES_DELAY_RX_BIT xtal), .delay (CYCLES_DELAY_RX_HALFBIT xtal)] ++
          vs.flatMap (fun v => [.rdRx v, .delay (CYCLES_DELAY_RX_BIT xtal)])))) ∧
    (∀ e, serial_sw_readByte xtal env fuel s = .error e →
      e.trace = s.trace ++ List.replicate fuel (.rdRx true) ∧
      ∀ k, k < fuel → env.rx (s.nRx + k) = true) ∧
    ((∃ m, m < fuel ∧ env.rx (s.nRx + m) = false) →
      ∃ r t, serial_sw_readByte xtal env fuel s = .ok (r, t)) := by
  refine ⟨?_, ?_, serial_sw_readByte_total xtal env fuel s⟩
  · intro r t h
    obtain ⟨n, hn, hhigh, hlow, ht, _⟩ := serial_sw_readByte_ok xtal env fuel s t r h
    refine ⟨n, serialSamples env s n, hn, hhigh, hlow, ?_⟩
    rw [ht, ser_play_trace, evSerialRead, List.append_assoc _ [_, _]]
  · intro e h
    obtain ⟨he, hhigh⟩ := waitRxLow_error env fuel s e (serial_sw_readByte_error xtal env fuel s e h)
    exact ⟨by rw [he, ser_play_trace], hhigh⟩

/-- Witness of amended C23: on a line that is high for two polls and then
carries a frame, the run returns after two high readings and one low one. -/
theorem serial_sw_readByte_waits_for_low_witness :
    ∃ (r : Nat) (t : SerSt) (n : Nat) (vs : List Bool),
      serial_sw_readByte 48000000 serLine 5 serIdle = .ok (r, t) ∧ n < 5 ∧
      serLine.rx (serIdle.nRx + n) = false ∧
      t.trace = serIdle.trace ++ (List.replicate n (.rdRx true) ++ [.rdRx false] ++
        ([.delay (CYCLES_DELAY_RX_BIT 48000000), .delay (CYCLES_DELAY_RX_HALFBIT 48000000)] ++
        vs.flatMap (fun v => [.rdRx v, .delay (CYCLES_DELAY_RX_BIT 48000000)]))) := by
  obtain ⟨r, t, h⟩ := (serial_sw_readByte_waits_for_low 48000000 serLine 5 serIdle).2.2
    ⟨2, by decide, by decide⟩
  obtain ⟨n, vs, hn, _, hlow, ht⟩ :=
    (serial_sw_readByte_waits_for_low 48000000 serLine 5 serIdle).1 r t h
  exact ⟨r, t, n, vs, h, hn, hlow, ht⟩

/-! ## The full-duplex transfer `spi_sw_xmit` -/

/-- The loop of `spi_sw_xmit`, for any number of iterations: the register
ends as `shiftIn d rs` and the trace pairs the output levels with the
samples `rs`; on a stream the samples are its next `n` values. -/
theorem spi_sw_xmit_loop (env : SpiBus) (n d : Nat) (s : SpiSt) :
    ∃ rs : List Bool, rs.length = n ∧
      (countdown n).foldl (fun (p : Nat × SpiSt) (i : Nat) => spi_sw_xmit_bit env p.1 p.2 i)
        (d, s) = (shiftIn d rs, s.play (evSpiXmitBits s.cfg ((xmitOuts d rs).zip rs))) ∧
      ∀ f : Nat → Bool, env = spiStream f → rs = (List.range' s.nMiso n).map f := by
  induction n generalizing d s with
  | zero => exact ⟨[], rfl, rfl, fun _ _ => rfl⟩
  | succ n ih =>
    obtain ⟨rs, hlen, hrs, hstream⟩ := ih (spi_sw_xmit_bit env d s (n + 1)).1
      (spi_sw_xmit_bit env d s (n + 1)).2
    have hcfg : (spi_sw_xmit_bit env d s (n + 1)).2.cfg = s.cfg := by
      unfold spi_sw_xmit_bit
      dsimp only
      split_ifs <;> simp [get_SPI_SW_MISO, set_SPI_SW_SCK, set_SPI_SW_MOSI, spi_emit_cfg]
    have hnm : (spi_sw_xmit_bit env d s (n + 1)).2.nMiso = s.nMiso + 1 := by
      unfold spi_sw_xmit_bit
      dsimp only
      split_ifs <;> simp [get_SPI_SW_MISO, set_SPI_SW_SCK, set_SPI_SW_MOSI, SpiSt.emit]
    refine ⟨env.miso (set_SPI_SW_SCK s.cfg.flanco_muestreo
      (set_SPI_SW_MOSI (decide (d &&& 0x80 ≠ 0)) s)) :: rs, by simp [hlen], ?_, ?_⟩
    · rw [countdown, List.foldl_cons, hrs, hcfg, xmitOuts, List.zip_cons_cons, evSpiXmitBits,
        spi_play_append]
      have hemp : ((xmitOuts (spi_sw_xmit_bit env d s (n + 1)).1 rs).zip rs).isEmpty
          = decide (n = 0) := by
        cases rs with
        | nil => simp at hlen; simp [hlen, xmitOuts]
        | cons r rs => simp at hlen; simp [xmitOuts, ← hlen]
      have hd : (spi_sw_xmit_bit env d s (n + 1)).1 =
          (if env.miso (set_SPI_SW_SCK s.cfg.flanco_muestreo
            (set_SPI_SW_MOSI (decide (d &&& 0x80 ≠ 0)) s)) = true
           then ((d <<< 1) % 256) ||| 0x01 else (d <<< 1) % 256) := by
        simp [spi_sw_xmit_bit, get_SPI_SW_MISO, set_SPI_SW_SCK, set_SPI_SW_MOSI, spi_emit_cfg]
      have hs : (spi_sw_xmit_bit env d s (n + 1)).2 =
          s.play ([.mosi (decide (d &&& 0x80 ≠ 0)), .sck s.cfg.flanco_muestreo,
            .rdMiso (env.miso (set_SPI_SW_SCK s.cfg.flanco_muestreo
              (set_SPI_SW_MOSI (decide (d &&& 0x80 ≠ 0)) s)))] ++
            (if decide (n = 0) = true then [] else [.sck s.cfg.flanco_propagacion])) := by
        unfold spi_sw_xmit_bit
        dsimp only
        by_cases h0 : n = 0
        · subst h0
          simp [get_SPI_SW_MISO, set_SPI_SW_SCK, set_SPI_SW_MOSI, SpiSt.play, SpiSt.step,
            spi_emit_cfg]
        · simp [h0, get_SPI_SW_MISO, set_SPI_SW_SCK, set_SPI_SW_MOSI, SpiSt.play, SpiSt.step,
            spi_emit_cfg]
      dsimp only
      rw [← hd, hemp, ← hs]
      simp only [shiftIn, List.foldl_cons]
      rw [← hd]
    · intro f hf
      rw [List.range'_succ, List.map_cons, hstream f hf, hnm]
      subst hf
      rfl

set_option maxRecDepth 100000 in
theorem shiftedBits_lor_one : ∀ (x : Fin 256) (n : Fin 8),
    shiftedBits n.val (x.val ||| 0x01) = shiftedBits n.val x.val := by
  decide

/-- The samples shifted into the register never reach its most significant
bit within eight iterations: the output levels are those of a plain write. -/
theorem xmitOuts_eq_shiftedBits (rs : List Bool) (d : Nat) (h : rs.length ≤ 8) :
    xmitOuts d rs = shiftedBits rs.length d := by
  induction rs generalizing d with
  | nil => rfl
  | cons r rs ih =>
    have hlen : rs.length < 8 := by
      rw [List.length_cons] at h
      omega
    rw [xmitOuts, List.length_cons, shiftedBits, ih _ (Nat.le_of_lt hlen)]
    cases r with
    | false => rfl
    | true =>
      have hx : (d <<< 1) % 256 < 256 := Nat.mod_lt _ (by decide)
      have := shiftedBits_lor_one ⟨(d <<< 1) % 256, hx⟩ ⟨rs.length, hlen⟩
      simp only [if_true]
      rw [this]

theorem shiftIn_step (a : Nat) (r : Bool) :
    (if r then ((a <<< 1) % 256) ||| 0x01 else (a <<< 1) % 256) = (2 * a + r.toNat) % 256 := by
  have h2 : a <<< 1 = 2 * a := by rw [Nat.shiftLeft_eq]; omega
  rw [h2]
  cases r with
  | false => simp
  | true =>
    have hm : (2 * a) % 256 = 2 * (a % 128) := by omega
    have hor : (2 * (a % 128)) ||| 0x01 = 2 * (a % 128) + 1 :=
      lor_one_even ⟨a % 128, Nat.mod_lt _ (by decide)⟩
    simp only [if_true, Bool.toNat_true]
    rw [hm, hor]
    omega

/-- The register of the shift loop after the samples `rs`: the start value
moved up by one position per sample, the samples below it. -/
theorem shiftIn_eq (d : Nat) (rs : List Bool) :
    shiftIn d rs = if rs = [] then d else (d * 2 ^ rs.length + msbAcc rs) % 256 := by
  induction rs using List.reverseRecOn with
  | nil => rfl
  | append_singleton rs r ih =>
    have hne : rs ++ [r] ≠ [] := by simp
    rw [if_neg hne]
    have hstep : shiftIn d (rs ++ [r]) =
        (if r then ((shiftIn d rs <<< 1) % 256) ||| 0x01 else (shiftIn d rs <<< 1) % 256) := by
      simp [shiftIn, List.foldl_append]
    rw [hstep, shiftIn_step, ih, msbAcc_append, List.length_append, List.length_singleton,
      pow_succ]
    by_cases he : rs = []
    · subst he
      simp [msbAcc]
      omega
    · rw [if_neg he, ← Nat.mul_assoc]
      clear hstep ih
      generalize d * 2 ^ rs.length = x
      generalize msbAcc rs = m
      generalize r.toNat = k
      omega

theorem shiftIn_eight_any (d : Nat) (rs : List Bool) (h : rs.length = 8) :
    shiftIn d rs = msbAcc rs := by
  have hne : rs ≠ [] := by intro he; rw [he] at h; simp at h
  have hlt := msbAcc_lt rs
  rw [h] at hlt
  rw [shiftIn_eq, if_neg hne, h]
  generalize msbAcc rs = m at hlt
  norm_num at hlt ⊢
  omega

theorem mosiWrites_append (a b : List SpiEv) : mosiWrites (a ++ b) = mosiWrites a ++ mosiWrites b := by
  simp [mosiWrites, List.filterMap_append]

theorem mosiWrites_xmitBits (c : SpiCfg) (ps : List (Bool × Bool)) :
    mosiWrites (evSpiXmitBits c ps) = ps.map Prod.fst := by
  induction ps with
  | nil => rfl
  | cons p ps ih =>
    rw [evSpiXmitBits, mosiWrites_append, ih]
    cases ps <;> simp [mosiWrites]

theorem misoSamples_xmitBits (c : SpiCfg) (ps : List (Bool × Bool)) :
    misoSamples (evSpiXmitBits c ps) = ps.map Prod.snd := by
  induction ps with
  | nil => rfl
  | cons p ps ih =>
    rw [evSpiXmitBits, misoSamples_append, ih]
    cases ps <;> simp [misoSamples]

theorem mosiWrites_xmit (c : SpiCfg) (outs ins : List Bool) (h : outs.length = ins.length) :
    mosiWrites (evSpiXmit c outs ins) = outs := by
  rw [evSpiXmit, mosiWrites_append, mosiWrites_append, mosiWrites_xmitBits,
    List.map_fst_zip _ _ (Nat.le_of_eq h)]
  simp [mosiWrites]

theorem misoSamples_xmit (c : SpiCfg) (outs ins : List Bool) (h : outs.length = ins.length) :
    misoSamples (evSpiXmit c outs ins) = ins := by
  rw [evSpiXmit, misoSamples_append, misoSamples_append, misoSamples_xmitBits,
    List.map_snd_zip _ _ (Nat.le_of_eq h.symm)]
  simp [misoSamples]

theorem bitsMSB_length (b : Nat) : (bitsMSB b).length = 8 := by simp [bitsMSB]

/-- Closed form of `spi_sw_xmit`: the output levels are the bits of `v`,
most significant first, whatever the samples `rs` are, and the value
returned is made of the samples alone. -/
theorem spi_sw_xmit_closed (env : SpiBus) (v : Nat) (s : SpiSt) (hv : v < 256) :
    ∃ rs : List Bool, rs.length = 8 ∧
      spi_sw_xmit env v s = (msbAcc rs, s.play (evSpiXmit s.cfg (bitsMSB v) rs)) ∧
      ∀ f : Nat → Bool, env = spiStream f → rs = (List.range' s.nMiso 8).map f := by
  obtain ⟨rs, hlen, hrs, hstream⟩ := spi_sw_xmit_loop env 8 v
    (spi_delay_us 1 (set_SPI_SW_SCK s.cfg.flanco_propagacion s))
  refine ⟨rs, hlen, ?_, hstream⟩
  unfold spi_sw_xmit
  dsimp only
  rw [hrs, xmitOuts_eq_shiftedBits rs v (Nat.le_of_eq hlen), hlen,
    shiftedBits_eq_bitsMSB ⟨v, hv⟩, shiftIn_eight_any v rs hlen, evSpiXmit, spi_play_append,
    spi_play_append]
  simp only [spi_play_cfg]
  rfl

theorem spi_sw_xmit_run (env : SpiBus) (v : Nat) (s : SpiSt) (hv : v < 256) :
    ∃ rs : List Bool, rs.length = 8 ∧
      misoSamples (spiNewEvents s (spi_sw_xmit env v s).2) = rs ∧
      mosiWrites (spiNewEvents s (spi_sw_xmit env v s).2) = bitsMSB v ∧
      (spi_sw_xmit env v s).2.trace = s.trace ++ evSpiXmit s.cfg (bitsMSB v) rs ∧
      (spi_sw_xmit env v s).1 = byteOfSamples rs ∧
      ∀ f : Nat → Bool, env = spiStream f → rs = (List.range 8).map (fun k => f (s.nMiso + k)) := by
  obtain ⟨rs, hlen, heq, hstream⟩ := spi_sw_xmit_closed env v s hv
  have hl : (bitsMSB v).length = rs.length := by rw [bitsMSB_length, hlen]
  refine ⟨rs, hlen, ?_, ?_, ?_, ?_, ?_⟩
  · rw [heq, spiNewEvents_play, misoSamples_xmit _ _ _ hl]
  · rw [heq, spiNewEvents_play, mosiWrites_xmit _ _ _ hl]
  · rw [heq, spi_play_trace]
  · rw [heq]
    obtain ⟨a, b, c, d, e, f, g, k, rfl⟩ := list_length_eight rs hlen
    exact (msbAcc_eight a b c d e f g k).1
  · intro f hf
    rw [hstream f hf, List.range'_eq_map_range, List.map_map]
    rfl

/-- C25: full-duplex independence in `spi_sw_xmit`.  For every byte `v`:
on every input line the transfer takes eight samples `rs` and puts eight
levels on the output line, the bits 7..0 of `v` in that order, so the output
levels are the same on any two input lines; the byte returned is the sum of
`r_k * 2^(7-k)` over the samples; every sequence `r0..r7` occurs as the
samples of some input line; and two transfers of different bytes that take
the same samples return the same byte. -/
theorem spi_sw_xmit_full_duplex (v : Nat) (hv : v < 256) (s : SpiSt) :
    (∀ env : SpiBus, ∃ rs : List Bool, rs.length = 8 ∧
      misoSamples (spiNewEvents s (spi_sw_xmit env v s).2) = rs ∧
      mosiWrites (spiNewEvents s (spi_sw_xmit env v s).2) = bitsMSB v ∧
      (spi_sw_xmit env v s).2.trace = s.trace ++ evSpiXmit s.cfg (bitsMSB v) rs ∧
      (spi_sw_xmit env v s).1 = byteOfSamples rs) ∧
    (∀ env₁ env₂ : SpiBus,
      mosiWrites (spiNewEvents s (spi_sw_xmit env₁ v s).2) =
        mosiWrites (spiNewEvents s (spi_sw_xmit env₂ v s).2)) ∧
    (∀ rs : List Bool, rs.length = 8 →
      misoSamples (spiNewEvents s
        (spi_sw_xmit (spiStream (fun k => rs.getD (k - s.nMiso) false)) v s).2) = rs ∧
      (spi_sw_xmit (spiStream (fun k => rs.getD (k - s.nMiso) false)) v s).1 =
        byteOfSamples rs) ∧
    (∀ (env : SpiBus) (w : Nat), w < 256 →
      misoSamples (spiNewEvents s (spi_sw_xmit env w s).2) =
        misoSamples (spiNewEvents s (spi_sw_xmit env v s).2) →
      (spi_sw_xmit env w s).1 = (spi_sw_xmit env v s).1) := by
  refine ⟨?_, ?_, ?_, ?_⟩
  · intro env
    obtain ⟨rs, hlen, h1, h2, h3, h4, _⟩ := spi_sw_xmit_run env v s hv
    exact ⟨rs, hlen, h1, h2, h3, h4⟩
  · intro env₁ env₂
    obtain ⟨_, _, _, h1, _⟩ := spi_sw_xmit_run env₁ v s hv
    obtain ⟨_, _, _, h2, _⟩ := spi_sw_xmit_run env₂ v s hv
    rw [h1, h2]
  · intro rs hlen
    obtain ⟨rs', _, h1, _, _, h4, hst⟩ :=
      spi_sw_xmit_run (spiStream (fun k => rs.getD (k - s.nMiso) false)) v s hv
    have hrs : rs' = rs := by
      rw [hst _ rfl]
      obtain ⟨a, b, c, d, e, f, g, k, rfl⟩ := list_length_eight rs hlen
      have h8 : List.range 8 = [0, 1, 2, 3, 4, 5, 6, 7] := by decide
      simp only [Nat.add_sub_cancel_left, h8]
      rfl
    rw [h1, h4, hrs]
    exact ⟨rfl, rfl⟩
  · intro env w hw hsame
    obtain ⟨rs, _, h1, _, _, h4, _⟩ := spi_sw_xmit_run env v s hv
    obtain ⟨rs', _, h1', _, _, h4', _⟩ := spi_sw_xmit_run env w s hw
    rw [h4, h4', ← h1, ← h1', hsame]

/-- Witness of C25: the byte `0xA5` from the power-on state. -/
theorem spi_sw_xmit_full_duplex_witness :
    (∀ env : SpiBus,
      mosiWrites (spiNewEvents spiReset (spi_sw_xmit env 0xA5 spiReset).2) = bitsMSB 0xA5) ∧
    (spi_sw_xmit (spiStream (fun k =>
        [true, false, false, true, false, true, true, false].getD (k - spiReset.nMiso) false))
      0xA5 spiReset).1 = byteOfSamples [true, false, false, true, false, true, true, false] :=
  ⟨fun env => by
      obtain ⟨_, _, _, h, _⟩ := (spi_sw_xmit_full_duplex 0xA5 (by decide) spiReset).1 env
      exact h,
    ((spi_sw_xmit_full_duplex 0xA5 (by decide) spiReset).2.2.1
      [true, false, false, true, false, true, true, false] rfl).2⟩

/-! ## Termination under clock stretching -/

theorem waitSclHigh_mono (env : Bus) (fuel fuel' : Nat) (s t : St) (hle : fuel ≤ fuel')
    (h : waitSclHigh env fuel s = .ok t) : waitSclHigh env fuel' s = .ok t := by
  induction fuel generalizing s fuel' with
  | zero => simp [waitSclHigh] at h
  | succ fuel ih =>
    cases fuel' with
    | zero => omega
    | succ fuel' =>
      rw [waitSclHigh] at h ⊢
      by_cases hv : (get_SCL_PIN env s).1 = true
      · simp only [hv, Bool.not_true, Bool.false_eq_true, if_false] at h ⊢
        exact h
      · simp only [Bool.not_eq_true] at hv
        simp only [hv, Bool.not_false, if_true] at h ⊢
        exact ih fuel' _ (by omega) h

theorem get_SCL_PIN_input (env : Bus) (s : St) (hin : s.pins.sclTris = true) :
    (get_SCL_PIN env s).1 = env.scl s.nScl ∧ (get_SCL_PIN env s).2.pins.sclTris = true ∧
      (get_SCL_PIN env s).2.nScl = s.nScl + 1 := by
  simp [get_SCL_PIN, hin, St.emit, Pins.apply]

theorem waitSclHigh_ok_high (env : Bus) (fuel : Nat) (s t : St) (hin : s.pins.sclTris = true)
    (h : waitSclHigh env fuel s = .ok t) : ∃ n, env.scl (s.nScl + n) = true := by
  induction fuel generalizing s with
  | zero => simp [waitSclHigh] at h
  | succ fuel ih =>
    rw [waitSclHigh] at h
    obtain ⟨hval, htris, hn⟩ := get_SCL_PIN_input env s hin
    by_cases hv : (get_SCL_PIN env s).1 = true
    · exact ⟨0, by rw [Nat.add_zero, ← hval, hv]⟩
    · simp only [Bool.not_eq_true] at hv
      simp only [hv, Bool.not_false, if_true] at h
      obtain ⟨n, hhi⟩ := ih _ htris h
      rw [hn] at hhi
      exact ⟨1 + n, by rw [← Nat.add_assoc]; exact hhi⟩

theorem waitSclHigh_unstuck (env : Bus) (fuel fuel' : Nat) (s e t : St)
    (hin : s.pins.sclTris = true) (he : waitSclHigh env fuel s = .error e)
    (ht : waitSclHigh env fuel' s = .ok t) : ∃ m, env.scl (e.nScl + m) = true := by
  induction fuel generalizing s fuel' with
  | zero =>
    simp only [waitSclHigh, Except.error.injEq] at he
    subst he
    exact waitSclHigh_ok_high env fuel' s t hin ht
  | succ fuel ih =>
    obtain ⟨_, htris, _⟩ := get_SCL_PIN_input env s hin
    rw [waitSclHigh] at he
    by_cases hv : (get_SCL_PIN env s).1 = true
    · simp [hv] at he
    · simp only [Bool.not_eq_true] at hv
      simp only [hv, Bool.not_false, if_true] at he
      cases fuel' with
      | zero => simp [waitSclHigh] at ht
      | succ fuel' =>
        rw [waitSclHigh] at ht
        simp only [hv, Bool.not_false, if_true] at ht
        exact ih fuel' _ htris he ht

theorem set_SCL_TRIS_input (s : St) :
    (set_SCL_TRIS true s).pins.sclTris = true ∧ (set_SCL_TRIS true s).nScl = s.nScl := by
  simp [set_SCL_TRIS, St.emit, Pins.apply]

/-- The release of the clock depends soundly on the poll budget. -/
theorem fuelSound_SW_SCL_1 (env : Bus) (s : St) :
    FuelSound env (fun fuel => SW_SCL_1 env fuel s) where
  mono := fun fuel fuel' x hle h => waitSclHigh_mono env fuel fuel' _ x hle h
  unstuck := fun fuel fuel' e x he hx =>
    waitSclHigh_unstuck env fuel fuel' _ e x (set_SCL_TRIS_input s).1 he hx
  stuck := fun fuel e he => ⟨s.trace, (SW_SCL_1_error env fuel s e he).trace⟩
  answered := fun F₀ h => by
    cases hx : SW_SCL_1 env F₀ s with
    | ok t => exact ⟨F₀, t, hx⟩
    | error e =>
      obtain ⟨m, hm⟩ := h F₀ (Nat.le_refl _) e hx
      have hn : e.nScl = s.nScl + F₀ := by
        have := (SW_SCL_1_error env F₀ s e hx).nScl
        simpa [Ev.isRdScl, List.countP_replicate] using this
      rw [hn, Nat.add_assoc] at hm
      obtain ⟨t, ht⟩ := waitSclHigh_total env (F₀ + m + 1) (set_SCL_TRIS true s)
        (set_SCL_TRIS_input s).1
        ⟨F₀ + m, Nat.lt_succ_self _, by rw [(set_SCL_TRIS_input s).2]; exact hm⟩
      exact ⟨F₀ + m + 1, t, ht⟩

theorem fuelSound_pure (env : Bus) {α : Type} (a : α) :
    FuelSound env (fun _ => (Except.ok a : Except St α)) where
  mono := fun _ _ _ _ h => h
  unstuck := fun _ _ _ _ he _ => by simp at he
  stuck := fun _ _ he => by simp at he
  answered := fun _ _ => ⟨0, a, rfl⟩

theorem except_bind_error {ε α β : Type} {x : Except ε α} {f : α → Except ε β} {e : ε}
    (h : (x >>= f) = .error e) : x = .error e ∨ ∃ a, x = .ok a ∧ f a = .error e := by
  cases x with
  | error e' =>
    simp only [bind, Except.bind, Except.error.injEq] at h
    exact Or.inl (by rw [h])
  | ok a => exact Or.inr ⟨a, rfl, h⟩

/-- Sequencing keeps the sound dependence on the poll budget. -/
theorem fuelSound_bind (env : Bus) {α β : Type} (f : Nat → Except St α)
    (g : α → Nat → Except St β) (hf : FuelSound env f) (hg : ∀ a, FuelSound env (g a)) :
    FuelSound env (fun fuel => f fuel >>= fun a => g a fuel) where
  mono := by
    intro fuel fuel' x hle h
    obtain ⟨a, ha, hx⟩ := except_bind_ok h
    show (f fuel' >>= fun a => g a fuel') = .ok x
    rw [hf.mono fuel fuel' a hle ha, except_ok_bind]
    exact (hg a).mono fuel fuel' x hle hx
  unstuck := by
    intro fuel fuel' e x he hx
    obtain ⟨a', ha', hx'⟩ := except_bind_ok hx
    rcases except_bind_error he with he | ⟨a, ha, he⟩
    · exact hf.unstuck fuel fuel' e a' he ha'
    · have haa : a' = a := by
        rcases Nat.le_total fuel fuel' with hle | hle
        · have := hf.mono fuel fuel' a hle ha
          rw [ha'] at this
          exact Except.ok.inj this
        · have := hf.mono fuel' fuel a' hle ha'
          rw [ha] at this
          exact (Except.ok.inj this).symm
      subst haa
      exact (hg a').unstuck fuel fuel' e x he hx'
  stuck := by
    intro fuel e he
    rcases except_bind_error he with he | ⟨a, _, he⟩
    · exact hf.stuck fuel e he
    · exact (hg a).stuck fuel e he
  answered := by
    intro F₀ h
    obtain ⟨fuel₁, a, ha⟩ := hf.answered F₀ (fun fuel hle e he =>
      h fuel hle e (show (f fuel >>= fun a => g a fuel) = .error e by rw [he]; rfl))
    obtain ⟨fuel₂, x, hx⟩ := (hg a).answered (max F₀ fuel₁) (fun fuel hle e he =>
      h fuel (Nat.le_trans (Nat.le_max_left _ _) hle) e
        (show (f fuel >>= fun a => g a fuel) = .error e by
          rw [hf.mono fuel₁ fuel a (Nat.le_trans (Nat.le_max_right _ _) hle) ha, except_ok_bind]
          exact he))
    refine ⟨max fuel₁ fuel₂, x, ?_⟩
    show (f (max fuel₁ fuel₂) >>= fun a => g a (max fuel₁ fuel₂)) = .ok x
    rw [hf.mono fuel₁ _ a (Nat.le_max_left _ _) ha, except_ok_bind]
    exact (hg a).mono fuel₂ _ x (Nat.le_max_right _ _) hx

/-- A `for` loop keeps the sound dependence on the poll budget. -/
theorem fuelSound_foldlM (env : Bus) {β : Type} (body : Nat → β → Nat → Except St β)
    (l : List Nat) (a₀ : β) (h : ∀ a i, FuelSound env (fun fuel => body fuel a i)) :
    FuelSound env (fun fuel => l.foldlM (body fuel) a₀) := by
  induction l generalizing a₀ with
  | nil => exact fuelSound_pure env a₀
  | cons i l ih =>
    exact fuelSound_bind env (fun fuel => body fuel a₀ i) (fun a fuel => l.foldlM (body fuel) a)
      (h a₀ i) ih

theorem fuelSound_writeByte_bit (env : Bus) (dato : Nat) (s : St) :
    FuelSound env (fun fuel => i2c_sw_writeByte_bit env fuel dato s) :=
  fuelSound_bind env
    (fun fuel => SW_SCL_1 env fuel (set_SDA_PIN false
      (if dato &&& 0x80 ≠ 0 then SW_SDA_1 (delay_us 4 (SW_SCL_0 s))
        else set_SDA_TRIS false (delay_us 4 (SW_SCL_0 s)))))
    (fun u _ => .ok ((dato <<< 1) % 256, delay_us 4 u))
    (fuelSound_SW_SCL_1 env _) (fun _ => fuelSound_pure env _)

theorem fuelSound_writeByte (env : Bus) (dato : Nat) (s : St) :
    FuelSound env (fun fuel => i2c_sw_writeByte env fuel dato s) :=
  fuelSound_bind env
    (fun fuel => (List.range 8).foldlM
      (fun (p : Nat × St) (_ : Nat) => i2c_sw_writeByte_bit env fuel p.1 p.2) (dato, s))
    (fun p fuel => SW_SCL_1 env fuel (get_SDA_PIN env (SW_SCL_0 p.2)).2 >>= fun u =>
      .ok (decide ((get_SDA_PIN env (SW_SCL_0 p.2)).1.toNat = 0), SW_SCL_0 u))
    (fuelSound_foldlM env (fun fuel (p : Nat × St) (_ : Nat) =>
      i2c_sw_writeByte_bit env fuel p.1 p.2) _ _ (fun a _ => fuelSound_writeByte_bit env a.1 a.2))
    (fun _ => fuelSound_bind env (fun fuel => SW_SCL_1 env fuel _) (fun _ _ => .ok _)
      (fuelSound_SW_SCL_1 env _) (fun _ => fuelSound_pure env _))

theorem fuelSound_readByte_bit (env : Bus) (dato : Nat) (s : St) (i : Nat) :
    FuelSound env (fun fuel => i2c_sw_readByte_bit env fuel dato s i) :=
  fuelSound_bind env (fun fuel => SW_SCL_1 env fuel (delay_us 4 (SW_SCL_0 s)))
    (fun u _ => .ok
      (if i < 7 then ((if (get_SDA_PIN env (delay_us 4 u)).1 then dato ||| 0x01 else dato) <<< 1)
          % 256
        else (if (get_SDA_PIN env (delay_us 4 u)).1 then dato ||| 0x01 else dato),
       (get_SDA_PIN env (delay_us 4 u)).2))
    (fuelSound_SW_SCL_1 env _) (fun _ => fuelSound_pure env _)

theorem fuelSound_readByte (env : Bus) (ack : Bool) (s : St) :
    FuelSound env (fun fuel => i2c_sw_readByte env fuel ack s) :=
  fuelSound_bind env
    (fun fuel => (List.range 8).foldlM
      (fun (p : Nat × St) (i : Nat) => i2c_sw_readByte_bit env fuel p.1 p.2 i) (0, s))
    (fun p fuel => SW_SCL_1 env fuel (delay_us 4 (set_SDA_PIN false
        (if ack = false then SW_SDA_1 (delay_us 4 (SW_SCL_0 p.2))
          else set_SDA_TRIS false (delay_us 4 (SW_SCL_0 p.2))))) >>= fun u =>
      .ok (p.1, delay_us 4 (SW_SDA_1 (delay_us 4 (SW_SCL_0 (delay_us 4 u))))))
    (fuelSound_foldlM env (fun fuel (p : Nat × St) (i : Nat) =>
      i2c_sw_readByte_bit env fuel p.1 p.2 i) _ _
      (fun a i => fuelSound_readByte_bit env a.1 a.2 i))
    (fun _ => fuelSound_bind env (fun fuel => SW_SCL_1 env fuel _) (fun _ _ => .ok _)
      (fuelSound_SW_SCL_1 env _) (fun _ => fuelSound_pure env _))

theorem sclReleases_append (a b : List Ev) :
    sclReleases (a ++ b) = sclReleases a + sclReleases b := by
  simp [sclReleases, List.countP_append]

theorem sclReleases_polls (n : Nat) : sclReleases (evPolls n) = 0 := by
  simp [sclReleases, evPolls, List.countP_eq_zero]

theorem sclReleases_release (n : Nat) : sclReleases (evSclRelease n) = 1 := by
  have h := sclReleases_polls n
  rw [evSclRelease]
  simp only [sclReleases] at h ⊢
  rw [List.countP_cons, h]
  rfl

theorem sclReleases_writeBit (bit : Bool) (n : Nat) : sclReleases (evWriteBit bit n) = 1 := by
  rw [evWriteBit, sclReleases_append, sclReleases_append, sclReleases_append,
    sclReleases_append, sclReleases_release]
  cases bit <;> rfl

theorem sclReleases_writeAck (v : Bool) (n : Nat) : sclReleases (evWriteAck v n) = 1 := by
  rw [evWriteAck, sclReleases_append, sclReleases_append, sclReleases_append,
    sclReleases_release]
  rfl

theorem sclReleases_readBit (n : Nat) (v : Bool) : sclReleases (evReadBit n v) = 1 := by
  rw [evReadBit, sclReleases_append, sclReleases_append, sclReleases_append,
    sclReleases_append, sclReleases_release]
  rfl

theorem sclReleases_readAck (ack : Bool) (n : Nat) : sclReleases (evReadAck ack n) = 1 := by
  rw [evReadAck]
  simp only [sclReleases_append, sclReleases_release]
  cases ack <;> rfl

theorem sclReleases_flatMap {α : Type} (l : List α) (f : α → List Ev)
    (h : ∀ a, sclReleases (f a) = 1) : sclReleases (l.flatMap f) = l.length := by
  induction l with
  | nil => rfl
  | cons a l ih => rw [List.flatMap_cons, sclReleases_append, h, ih, List.length_cons, Nat.add_comm]

/-- A byte write releases the clock nine times. -/
theorem sclReleases_writeByte (b : Nat) (ns : List Nat) (v : Bool) (n : Nat)
    (h : ns.length = 8) : sclReleases (evWriteByte b ns v n) = 9 := by
  rw [evWriteByte, sclReleases_append, sclReleases_writeAck,
    sclReleases_flatMap ((bitsMSB b).zip ns) (fun c => evWriteBit c.1 c.2)
      (fun c => sclReleases_writeBit c.1 c.2), List.length_zip,
    bitsMSB_length, h]
  rfl

/-- A byte read releases the clock nine times. -/
theorem sclReleases_readByte (cs : List (Nat × Bool)) (ack : Bool) (n : Nat)
    (h : cs.length = 8) : sclReleases (evReadByte cs ack n) = 9 := by
  rw [evReadByte, sclReleases_append, sclReleases_readAck,
    sclReleases_flatMap cs (fun c => evReadBit c.1 c.2)
      (fun c => sclReleases_readBit c.1 c.2), h]

theorem eventuallyHigh_of_bounded (env : Bus) (N : Nat) (h : StretchBounded env N) :
    EventuallyHigh env := fun k => by
  obtain ⟨m, _, hm⟩ := h k
  exact ⟨m, hm⟩

/-- From the sound dependence on the poll budget to the termination
behaviour of a byte operation. -/
theorem stretchTermination_of (env : Bus) (s : St) {α : Type} (f : Nat → Except St (α × St))
    (hfs : FuelSound env f)
    (hcount : ∀ fuel x, f fuel = .ok x → sclReleases (newEvents s x.2) = 9)
    (h0 : ∃ e, f 0 = .error e ∧ s.nScl ≤ e.nScl) : StretchTermination env s f := by
  have hnever : ∀ fuel₀ e, f fuel₀ = .error e → (∀ m, env.scl (e.nScl + m) = false) →
      ∀ fuel, ∃ e', f fuel = .error e' := by
    intro fuel₀ e he hlow fuel
    cases hx : f fuel with
    | error e' => exact ⟨e', rfl⟩
    | ok x =>
      obtain ⟨m, hm⟩ := hfs.unstuck fuel₀ fuel e x he hx
      rw [hlow m] at hm
      exact absurd hm (by decide)
  have hret : (∀ fuel e, f fuel = .error e → ∃ m, env.scl (e.nScl + m) = true) →
      ∃ F x, (∀ fuel, F ≤ fuel → f fuel = .ok x) ∧ sclReleases (newEvents s x.2) = 9 := by
    intro h
    obtain ⟨F, x, hx⟩ := hfs.answered 0 (fun fuel _ e he => h fuel e he)
    exact ⟨F, x, fun fuel hle => hfs.mono F fuel x hle hx, hcount F x hx⟩
  refine ⟨hret, fun hev => hret (fun _ e _ => hev e.nScl), hcount,
    fun fuel₀ e he => ⟨hfs.stuck fuel₀ e he, hnever fuel₀ e he⟩, ?_⟩
  · intro hlow
    obtain ⟨e, he, hle⟩ := h0
    refine hnever 0 e he (fun m => ?_)
    have : e.nScl + m = s.nScl + (e.nScl - s.nScl + m) := by omega
    rw [this]
    exact hlow _

/-- C24: termination under clock stretching.  For every byte `b`, either
value of `ack` and every behaviour `env` of the clock line, for
`i2c_sw_writeByte` and for `i2c_sw_readByte` as functions of the poll
budget: a run that has used up its budget was polling a released clock;
when every clock release is followed by a high reading after finitely many
polls (whenever a run is polling, the clock reads high some time later) the
operation returns (with enough budget, and with the same result for every
larger budget), having performed exactly nine clock releases, as has every
run that returns; and if the clock never reads high after the point where
some run is polling, then the operation returns for no budget at all (there
is no timeout); in particular it never returns when the clock never reads
high. -/
theorem i2c_sw_byte_termination (env : Bus) (s : St) (b : Nat) (hb : b < 256) (ack : Bool) :
    StretchTermination env s (fun fuel => i2c_sw_writeByte env fuel b s) ∧
    StretchTermination env s (fun fuel => i2c_sw_readByte env fuel ack s) := by
  constructor
  · refine stretchTermination_of env s _ (fuelSound_writeByte env b s) ?_ ?_
    · intro fuel x hx
      obtain ⟨ns, v, n, hlen, _, _, hr, _, _⟩ := i2c_sw_writeByte_ok env fuel b s x.2 x.1 hb hx
      rw [newEvents_of_trace hr.trace, sclReleases_writeByte b ns v n hlen]
    · refine ⟨set_SCL_TRIS true (set_SDA_PIN false
        (if b &&& 0x80 ≠ 0 then SW_SDA_1 (delay_us 4 (SW_SCL_0 s))
          else set_SDA_TRIS false (delay_us 4 (SW_SCL_0 s)))), rfl, ?_⟩
      split_ifs <;> exact Nat.le_refl _
  · refine stretchTermination_of env s _ (fuelSound_readByte env ack s) ?_ ?_
    · intro fuel x hx
      obtain ⟨cs, n, hlen, _, _, hr, _⟩ := i2c_sw_readByte_ok env fuel ack s x.2 x.1 hx
      rw [newEvents_of_trace hr.trace, sclReleases_readByte cs ack n hlen]
    · exact ⟨set_SCL_TRIS true (delay_us 4 (SW_SCL_0 s)), rfl, Nat.le_refl _⟩

/-- Witness of C24: the byte `0xA5` on a bus whose clock reads high at every
third read only is written, with nine clock releases, and a byte read on a
bus whose clock is held low for ever returns for no poll budget. -/
theorem i2c_sw_byte_termination_witness :
    (∃ F x, (∀ fuel, F ≤ fuel → i2c_sw_writeByte busSlow fuel 0xA5 idleSt = .ok x) ∧
      sclReleases (newEvents idleSt x.2) = 9) ∧
    (∀ fuel, ∃ e, i2c_sw_readByte busStuck fuel false idleSt = .error e) :=
  ⟨(i2c_sw_byte_termination busSlow idleSt 0xA5 (by decide) false).1.2.1
      (eventuallyHigh_of_bounded busSlow 2 stretchBounded_busSlow),
    (i2c_sw_byte_termination busStuck idleSt 0xA5 (by decide) false).2.2.2.2.2 (fun _ => rfl)⟩

end SoftwareProtocols
